import Mathlib

/-!
DZCOBS: a Lean model of the encoder and decoder.

Shallow embedding of `src/dzcobs.c` and `src/dzcobs_decode.c`.

Conventions of the embedding:
* a byte is a `Nat`; `uint8_t` arithmetic is written with an explicit `% 256`,
  `size_t` arithmetic with an explicit `% 2 ^ 64`;
* a pointer into the destination buffer is its offset from `pDst`; the memory
  reachable through `pDst` is a function from offsets to bytes, so a store at an
  offset beyond `pDstEnd` is visible in the model instead of being lost;
* source buffers are lists (pointer plus size); pointers are non-null by typing;
* loops whose step is not structurally decreasing carry a fuel argument and
  return `none` when it runs out.
-/

set_option autoImplicit false

namespace DZCOBS

/-! ## dzcobs.h -/

/-- Trailer size: `DZCOBS_FRAME_HEADER_SIZE`. -/
def DZCOBS_FRAME_HEADER_SIZE : Nat := 2

/-- Per-byte hash `DZCOBS_HASH8( b )`, evaluated in `int` as C does for a promoted `uint8_t`. -/
def DZCOBS_HASH8 (b : Nat) : Nat := ((b ^^^ (b >>> 3)) * 167) ^^^ (b <<< 1)

/-- Result codes `eDZCOBS_ret`. -/
inductive eDZCOBS_ret
  | DZCOBS_RET_SUCCESS
  | DZCOBS_RET_ERR_BAD_ARG
  | DZCOBS_RET_ERR_WRITE_OVERFLOW
  | DZCOBS_RET_ERR_READ_OVERFLOW
  | DZCOBS_RET_ERR_NOTINITIALIZED
  | DZCOBS_RET_ERR_BAD_ENCODED_PAYLOAD
  | DZCOBS_RET_ERR_CRC
  | DZCOBS_RET_ERR_NO_DICTIONARY_TO_DECODE
  | DZCOBS_RET_ERR_WORD_NOT_FOUND_ON_DICTIONARY
  | DZCOBS_RET_ERR_INVALID_USER6BITS
  deriving DecidableEq, Repr

/-- Encoding selector `eDZCOBS_encoding`. -/
inductive eDZCOBS_encoding
  | DZCOBS_PLAIN
  | DZCOBS_USING_DICT_1
  | DZCOBS_USING_DICT_2
  | DZCOBS_RESERVED
  deriving DecidableEq, Repr

open eDZCOBS_ret eDZCOBS_encoding

/-- Numeric value of an encoding, as it appears on the wire. -/
def eDZCOBS_encoding.toNat : eDZCOBS_encoding → Nat
  | DZCOBS_PLAIN => 0
  | DZCOBS_USING_DICT_1 => 1
  | DZCOBS_USING_DICT_2 => 2
  | DZCOBS_RESERVED => 3

/-- Cast of a two-bit value to `eDZCOBS_encoding`. -/
def eDZCOBS_encoding.ofBits (n : Nat) : eDZCOBS_encoding :=
  if n = 0 then DZCOBS_PLAIN
  else if n = 1 then DZCOBS_USING_DICT_1
  else if n = 2 then DZCOBS_USING_DICT_2
  else DZCOBS_RESERVED

def DZCOBS_ONE_BYTE_OVERHEAD_EVERY : Nat := 127

/-- Macro `Z_DZCOBS_DIV_ROUND_UP( n, d )` in exact arithmetic: its value when `n + d - 1`
does not exceed the range of the operand type (see `Z_DZCOBS_DIV_ROUND_UP_size_t`). -/
def Z_DZCOBS_DIV_ROUND_UP (n d : Nat) : Nat := (n + d - 1) / d

/-- Macro `DZCOBS_MAX_OVERHEAD( size )` in exact arithmetic. -/
def DZCOBS_MAX_OVERHEAD (size : Nat) : Nat :=
  Z_DZCOBS_DIV_ROUND_UP size DZCOBS_ONE_BYTE_OVERHEAD_EVERY

/-- Macro `DZCOBS_MAX_ENCODED_SIZE( size )` in exact arithmetic: its value when no sum in
it wraps, as for the length of a payload held in memory (see
`DZCOBS_MAX_ENCODED_SIZE_size_t`); the C comparison `size == 0` is `1` or `0`. -/
def DZCOBS_MAX_ENCODED_SIZE (size : Nat) : Nat :=
  size + DZCOBS_MAX_OVERHEAD size + (if size = 0 then 1 else 0)

def DZCOBS_HASH_VALUE_WHEN_CRC_IS_ZERO : Nat := 0xFF
def DZCOBS_CODE_JUMP_DICTIONARY : Nat := 0x7F
def DZCOBS_DICTIONARY_BITMASK : Nat := 0x80
def DZCOBS_CODE_JUMP_PLAIN : Nat := 0xFF

/-! ## dzcobs_dictionary.h -/

/-- Modelled from the spec: `dzcobs_dictionary.c` is not among the sources, only its
header is. A dictionary context is represented by its two lookups.
`search key` stands for `dzcobs_dictionary_search( ctx, key, |key|, &size )` and gives
`(index, size)`, the index being 0 when no word is found and 1-based otherwise.
`get i` stands for `dzcobs_dictionary_get( ctx, i, &wordSize )` and gives the word at
the 0-based index `i`, or `none` for the `NULL` result. -/
structure sDICT_ctx where
  search : List Nat → Nat × Nat
  get : Nat → Option (List Nat)

/-- Modelled from the spec: the longest word of `ws` (scanned with its 1-based global
index `i`) that is an initial segment of `key`, as `(index, length)`; `best` is the
answer so far. -/
def dictSearchFrom (key : List Nat) : List (List Nat) → Nat → Nat × Nat → Nat × Nat
  | [], _, best => best
  | w :: ws, i, best =>
    if w.length ≤ key.length ∧ key.take w.length = w ∧ best.2 < w.length then
      dictSearchFrom key ws (i + 1) (i, w.length)
    else
      dictSearchFrom key ws (i + 1) best

/-- Modelled from the spec: the dictionary context that `dzcobs_dictionary_init` builds
from a blob whose words, in global-index order, are `ws`. Forward search returns the
longest matching word (index 0 when none matches), reverse lookup the word at an index. -/
def dictOfWords (ws : List (List Nat)) : sDICT_ctx where
  search := fun key => dictSearchFrom key ws 1 (0, 0)
  get := fun i => ws.get? i

/-- Test dictionary `s_TEST_Dictionary1` of `test_dzcobs.cpp`. -/
def s_TEST_Dictionary1 : sDICT_ctx :=
  dictOfWords [[1, 1], [2, 0, 2], [3, 0, 0, 3], [4, 0, 0, 0, 4]]

/-! ## Encoder context -/

/-- Values of the step-function pointer `encFunc` (`none` is `NULL`). -/
inductive dzcobs_encode_inc_funcPtr
  | plain
  | dictionary
  deriving DecidableEq, Repr

/-- Encoder context `sDZCOBS_ctx`. `pDst` is the memory that starts at the destination
pointer; `pCodeDst`, `pCurDst` and `pDstEnd` are offsets from it. -/
structure sDZCOBS_ctx where
  pDst : Nat → Nat
  pCodeDst : Nat
  pCurDst : Nat
  pDstEnd : Nat
  code : Nat
  hashsum : Nat
  user6bits : Nat
  isLastCodeDictionary : Bool
  pDict : Nat → Option sDICT_ctx
  encFunc : Option dzcobs_encode_inc_funcPtr
  encoding : eDZCOBS_encoding

/-- Store `*(p + i) = v`. -/
def store (m : Nat → Nat) (i v : Nat) : Nat → Nat :=
  fun j => if j = i then v else m j

/-- Bytes `m[0 .. n-1]`. -/
def frameOf (m : Nat → Nat) (n : Nat) : List Nat := (List.range n).map m

/-- Function `dzcobs_encode_set_dictionary`. -/
def dzcobs_encode_set_dictionary (aCtx : sDZCOBS_ctx) (aDictCtx : sDICT_ctx)
    (aDictEncoding : eDZCOBS_encoding) : eDZCOBS_ret × sDZCOBS_ctx :=
  if ¬ (aDictEncoding = DZCOBS_USING_DICT_1 ∨ aDictEncoding = DZCOBS_USING_DICT_2) then
    (DZCOBS_RET_ERR_BAD_ARG, aCtx)
  else
    let idx := aDictEncoding.toNat - DZCOBS_USING_DICT_1.toNat
    (DZCOBS_RET_SUCCESS,
      { aCtx with pDict := fun k => if k = idx then some aDictCtx else aCtx.pDict k })

/-- Function `dzcobs_encode_inc_begin`. -/
def dzcobs_encode_inc_begin (aCtx : sDZCOBS_ctx) (aEncoding : eDZCOBS_encoding)
    (aDstBuf : Nat → Nat) (aDstBufSize : Nat) : eDZCOBS_ret × sDZCOBS_ctx :=
  if aDstBufSize < 2 then (DZCOBS_RET_ERR_BAD_ARG, aCtx)
  else if (aEncoding = DZCOBS_USING_DICT_1 ∧ (aCtx.pDict 0).isNone) ∨
      (aEncoding = DZCOBS_USING_DICT_2 ∧ (aCtx.pDict 1).isNone) then
    (DZCOBS_RET_ERR_BAD_ARG, aCtx)
  else
    (DZCOBS_RET_SUCCESS,
      { aCtx with
        pDst := aDstBuf
        pCodeDst := 0
        pCurDst := 1
        pDstEnd := aDstBufSize
        code := 1
        hashsum := 0
        isLastCodeDictionary := false
        encoding := aEncoding
        encFunc :=
          match aEncoding with
          | DZCOBS_PLAIN => some dzcobs_encode_inc_funcPtr.plain
          | DZCOBS_USING_DICT_1 => some dzcobs_encode_inc_funcPtr.dictionary
          | DZCOBS_USING_DICT_2 => some dzcobs_encode_inc_funcPtr.dictionary
          | DZCOBS_RESERVED => none })

/-- Result of `dzcobs_encode_inc_end`: return code, `*aOutSizeEncoded` when it was
written, and the context afterwards. -/
structure sEndResult where
  ret : eDZCOBS_ret
  outSizeEncoded : Option Nat
  ctx : sDZCOBS_ctx

/-- Function `dzcobs_encode_inc_end`. -/
def dzcobs_encode_inc_end (aCtx : sDZCOBS_ctx) : sEndResult :=
  if aCtx.pCurDst + 1 > aCtx.pDstEnd then
    { ret := DZCOBS_RET_ERR_WRITE_OVERFLOW, outSizeEncoded := none, ctx := aCtx }
  else if aCtx.user6bits = 0 then
    { ret := DZCOBS_RET_ERR_INVALID_USER6BITS, outSizeEncoded := none, ctx := aCtx }
  else
    let c1 : sDZCOBS_ctx :=
      if aCtx.isLastCodeDictionary then
        { aCtx with pCurDst := aCtx.pCurDst - 1 }
      else
        let code := aCtx.code
        { aCtx with
          hashsum := (aCtx.hashsum + DZCOBS_HASH8 code) % 256
          pDst := store aCtx.pDst aCtx.pCodeDst code }
    let encodingByte := ((c1.user6bits <<< 2) % 256) ||| (c1.encoding.toNat &&& 0x03)
    let c2 : sDZCOBS_ctx :=
      { c1 with
        hashsum := (c1.hashsum + DZCOBS_HASH8 encodingByte) % 256
        pDst := store c1.pDst c1.pCurDst encodingByte
        pCurDst := c1.pCurDst + 1 }
    let finalHash := c2.hashsum
    let c3 : sDZCOBS_ctx :=
      { c2 with
        pDst := store c2.pDst c2.pCurDst
          (if finalHash = 0x00 then DZCOBS_HASH_VALUE_WHEN_CRC_IS_ZERO else finalHash)
        pCurDst := c2.pCurDst + 1 }
    { ret := DZCOBS_RET_SUCCESS
      outSizeEncoded := some c3.pCurDst
      ctx := { c3 with encFunc := none } }

/-- Local variables of the two step functions, together with the destination memory and
the context flag the dictionary step writes. -/
structure sEncVars where
  code : Nat
  pCodeDst : Nat
  pCurDst : Nat
  hashsum : Nat
  isLastCodeDictionary : Bool
  pDst : Nat → Nat

/-- Group closure shared by both step functions:
`hashsum += DZCOBS_HASH8( code ); *pCodeDst = code; pCodeDst = pCurDst++; code = 1;`. -/
def closeGroup (s : sEncVars) : sEncVars :=
  { s with
    hashsum := (s.hashsum + DZCOBS_HASH8 s.code) % 256
    pDst := store s.pDst s.pCodeDst s.code
    pCodeDst := s.pCurDst
    pCurDst := s.pCurDst + 1
    code := 1 }

/-- Literal branch shared by both step functions:
`hashsum += DZCOBS_HASH8( src_byte ); *pCurDst++ = src_byte; code++;`. -/
def putLiteral (s : sEncVars) (src_byte : Nat) : sEncVars :=
  { s with
    hashsum := (s.hashsum + DZCOBS_HASH8 src_byte) % 256
    pDst := store s.pDst s.pCurDst src_byte
    pCurDst := s.pCurDst + 1
    code := (s.code + 1) % 256 }

/-- The `while( aSrcBufSize )` loop of `dzcobs_encode_inc_plain`; the list is the bytes
not yet read, its length is `aSrcBufSize`. -/
def dzcobs_encode_inc_plain_loop : List Nat → sEncVars → sEncVars
  | [], s => s
  | src_byte :: rest, s =>
    if src_byte = 0 then
      dzcobs_encode_inc_plain_loop rest (closeGroup s)
    else
      let s1 := putLiteral s src_byte
      if s1.code = DZCOBS_CODE_JUMP_PLAIN ∧ rest.length ≠ 0 then
        dzcobs_encode_inc_plain_loop rest (closeGroup s1)
      else
        dzcobs_encode_inc_plain_loop rest s1

/-- Load of the locals from the context at the head of a step function. -/
def sEncVars.ofCtx (aCtx : sDZCOBS_ctx) : sEncVars :=
  { code := aCtx.code, pCodeDst := aCtx.pCodeDst, pCurDst := aCtx.pCurDst,
    hashsum := aCtx.hashsum, isLastCodeDictionary := aCtx.isLastCodeDictionary,
    pDst := aCtx.pDst }

/-- Write-back of the locals at the tail of a step function. -/
def sEncVars.toCtx (s : sEncVars) (aCtx : sDZCOBS_ctx) : sDZCOBS_ctx :=
  { aCtx with
    code := s.code, pCodeDst := s.pCodeDst, pCurDst := s.pCurDst, hashsum := s.hashsum,
    isLastCodeDictionary := s.isLastCodeDictionary, pDst := s.pDst }

/-- Function `dzcobs_encode_inc_plain`. -/
def dzcobs_encode_inc_plain (aCtx : sDZCOBS_ctx) (aSrcBuf : List Nat) :
    eDZCOBS_ret × sDZCOBS_ctx :=
  (DZCOBS_RET_SUCCESS,
    (dzcobs_encode_inc_plain_loop aSrcBuf (sEncVars.ofCtx aCtx)).toCtx aCtx)

/-- The `while( aSrcBufSize )` loop of `dzcobs_encode_inc_dictionary`. The first argument
is fuel. `none` also stands for a failed `DZCOBS_ASSERT` on the size the search reports
(zero, or more than what is left), where the C code has no defined behaviour. -/
def dzcobs_encode_inc_dictionary_loop (pDict : sDICT_ctx) :
    Nat → List Nat → sEncVars → Option sEncVars
  | _, [], s => some s
  | 0, _ :: _, _ => none
  | fuel + 1, src_byte :: rest, s =>
    let found := pDict.search (src_byte :: rest)
    let foundIdx := found.1 % 256
    let sizeOfKeyFound := found.2
    if foundIdx ≠ 0 then
      if sizeOfKeyFound = 0 ∨ sizeOfKeyFound > (src_byte :: rest).length then none
      else
        let dictEntry := DZCOBS_DICTIONARY_BITMASK ||| (foundIdx - 1)
        let s1 := { s with hashsum := (s.hashsum + DZCOBS_HASH8 dictEntry) % 256 }
        let s2 := if s1.code ≠ 1 then closeGroup s1 else s1
        let s3 : sEncVars :=
          { s2 with
            pDst := store s2.pDst s2.pCodeDst dictEntry
            pCodeDst := s2.pCurDst
            pCurDst := s2.pCurDst + 1
            isLastCodeDictionary := true }
        dzcobs_encode_inc_dictionary_loop pDict fuel
          ((src_byte :: rest).drop sizeOfKeyFound) s3
    else
      let s0 := { s with isLastCodeDictionary := false }
      if src_byte = 0 then
        dzcobs_encode_inc_dictionary_loop pDict fuel rest (closeGroup s0)
      else
        let s1 := putLiteral s0 src_byte
        if s1.code = DZCOBS_CODE_JUMP_DICTIONARY ∧ rest.length ≠ 0 then
          dzcobs_encode_inc_dictionary_loop pDict fuel rest (closeGroup s1)
        else
          dzcobs_encode_inc_dictionary_loop pDict fuel rest s1

/-- Function `dzcobs_encode_inc_dictionary`; every iteration consumes at least one byte,
so `aSrcBufSize` iterations are enough fuel. -/
def dzcobs_encode_inc_dictionary (aCtx : sDZCOBS_ctx) (aSrcBuf : List Nat) :
    Option (eDZCOBS_ret × sDZCOBS_ctx) :=
  match aCtx.pDict (aCtx.encoding.toNat - DZCOBS_USING_DICT_1.toNat) with
  | none => none
  | some pDict =>
    match dzcobs_encode_inc_dictionary_loop pDict aSrcBuf.length aSrcBuf
        (sEncVars.ofCtx aCtx) with
    | none => none
    | some s => some (DZCOBS_RET_SUCCESS, s.toCtx aCtx)

/-- Function `dzcobs_encode_inc`. -/
def dzcobs_encode_inc (aCtx : sDZCOBS_ctx) (aSrcBuf : List Nat) :
    Option (eDZCOBS_ret × sDZCOBS_ctx) :=
  match aCtx.encFunc with
  | none => some (DZCOBS_RET_ERR_NOTINITIALIZED, aCtx)
  | some f =>
    if aSrcBuf.length = 0 then some (DZCOBS_RET_SUCCESS, aCtx)
    else
      match f with
      | dzcobs_encode_inc_funcPtr.plain => some (dzcobs_encode_inc_plain aCtx aSrcBuf)
      | dzcobs_encode_inc_funcPtr.dictionary => dzcobs_encode_inc_dictionary aCtx aSrcBuf

/-! ## dzcobs_decode.h, dzcobs_decode.c -/

/-- Decoder context `sDZCOBS_decodectx`. `srcBufEncoded` carries its own length
(`srcBufEncodedLen`); the destination buffer is represented by its size, the bytes
written to it are a result of the decoder. -/
structure sDZCOBS_decodectx where
  srcBufEncoded : List Nat
  dstBufDecodedSize : Nat
  pDict : Nat → Option sDICT_ctx

/-- Result of a decoding function: return code, `*aOutDecodedLen` and
`*aOutUser6bitDataRightAlgn` when they were written, and the bytes stored through
`pDecoded`, in order, from `dstBufDecoded[0]` on. -/
structure sDecodeResult where
  ret : eDZCOBS_ret
  outDecodedLen : Option Nat
  outUser6bit : Option Nat
  dstBufDecoded : List Nat
  deriving DecidableEq, Repr

/-- Width of `size_t`. -/
def SIZE_T_MOD : Nat := 18446744073709551616

/-- Pointer difference `(size_t)( pDecodedEnd - pDecoded )` when `pDecoded` is `used`
bytes past the start of a buffer of `size` bytes. -/
def remainOutput (size used : Nat) : Nat := (size + SIZE_T_MOD - used) % SIZE_T_MOD

/-- The literal loop `for( size_t i = code; i != 0; i-- )` of both decoders: gives
whether it ran to its end (`false`: a zero byte was read), the unread input and the output. -/
def decodeLiterals : Nat → List Nat → List Nat → Bool × List Nat × List Nat
  | 0, rd, out => (true, rd, out)
  | _ + 1, [], out => (true, [], out)
  | i + 1, src_byte :: rd, out =>
    if src_byte = 0 then (false, rd, out)
    else decodeLiterals i rd (out ++ [src_byte])

/-- The `while( pReadEncoded < pReadEncodedEnd )` loop of `dzcobs_decode_plain`. The first
argument is fuel, the second the bytes between `pReadEncoded` and `pReadEncodedEnd`, the
third the bytes written so far. The result is the return code and the bytes written. -/
def dzcobs_decode_plain_loop (dstBufDecodedSize : Nat) :
    Nat → List Nat → List Nat → Option (eDZCOBS_ret × List Nat)
  | _, [], out => some (DZCOBS_RET_SUCCESS, out)
  | 0, _ :: _, _ => none
  | fuel + 1, code0 :: rd, out =>
    if code0 = 0 then some (DZCOBS_RET_ERR_BAD_ENCODED_PAYLOAD, out)
    else
      let code := code0 - 1
      let remain_output_size := remainOutput dstBufDecodedSize out.length
      if code > remain_output_size then some (DZCOBS_RET_ERR_WRITE_OVERFLOW, out)
      else
        let remain_read_size := rd.length
        if code > remain_read_size then some (DZCOBS_RET_ERR_READ_OVERFLOW, out)
        else
          match decodeLiterals code rd out with
          | (false, _, out1) => some (DZCOBS_RET_ERR_BAD_ENCODED_PAYLOAD, out1)
          | (true, rd1, out1) =>
            if rd1.length = 0 then some (DZCOBS_RET_SUCCESS, out1)
            else if code ≠ DZCOBS_CODE_JUMP_PLAIN - 1 then
              dzcobs_decode_plain_loop dstBufDecodedSize fuel rd1 (out1 ++ [0])
            else
              dzcobs_decode_plain_loop dstBufDecodedSize fuel rd1 out1

/-- Function `dzcobs_decode_plain`; the body is the input without its two trailer bytes. -/
def dzcobs_decode_plain (aDecodeCtx : sDZCOBS_decodectx) :
    Option (eDZCOBS_ret × List Nat) :=
  let body := aDecodeCtx.srcBufEncoded.take (aDecodeCtx.srcBufEncoded.length - 2)
  dzcobs_decode_plain_loop aDecodeCtx.dstBufDecodedSize body.length body []

/-- The `while( pReadEncoded < pReadEncodedEnd )` loop of `dzcobs_decode_dictionary`, with
its two flags. On a byte, `code & ~DZCOBS_DICTIONARY_BITMASK` is `code & 0x7F`. -/
def dzcobs_decode_dictionary_loop (dstBufDecodedSize : Nat) (aDict : sDICT_ctx) :
    Nat → List Nat → List Nat → Bool → Bool → Option (eDZCOBS_ret × List Nat)
  | _, [], out, _, _ => some (DZCOBS_RET_SUCCESS, out)
  | 0, _ :: _, _, _, _ => none
  | fuel + 1, code0 :: rd, out, isPreviousCodeDictionary, isToPlaceZero =>
    if code0 = 0 then some (DZCOBS_RET_ERR_BAD_ENCODED_PAYLOAD, out)
    else
      let remain_output_size := remainOutput dstBufDecodedSize out.length
      if remain_output_size = 0 ∧ code0 ≠ 1 ∧ isPreviousCodeDictionary = false then
        some (DZCOBS_RET_ERR_WRITE_OVERFLOW, out)
      else if code0 ≥ DZCOBS_DICTIONARY_BITMASK then
        let dictIdx := code0 &&& (0xFF - DZCOBS_DICTIONARY_BITMASK)
        match aDict.get dictIdx with
        | none => some (DZCOBS_RET_ERR_WORD_NOT_FOUND_ON_DICTIONARY, out)
        | some dictionary_word =>
          let wordSize := dictionary_word.length
          if remain_output_size < wordSize then some (DZCOBS_RET_ERR_WRITE_OVERFLOW, out)
          else
            let out1 := out ++ dictionary_word
            if rd.length = 0 then some (DZCOBS_RET_SUCCESS, out1)
            else
              dzcobs_decode_dictionary_loop dstBufDecodedSize aDict fuel rd out1
                isPreviousCodeDictionary false
      else
        let out0 := if isToPlaceZero then out ++ [0] else out
        let remain_output_size0 :=
          if isToPlaceZero then (remain_output_size + SIZE_T_MOD - 1) % SIZE_T_MOD
          else remain_output_size
        let code := code0 - 1
        if code > remain_output_size0 then some (DZCOBS_RET_ERR_WRITE_OVERFLOW, out0)
        else
          let remain_read_size := rd.length
          if code > remain_read_size then some (DZCOBS_RET_ERR_READ_OVERFLOW, out0)
          else
            match decodeLiterals code rd out0 with
            | (false, _, out1) => some (DZCOBS_RET_ERR_BAD_ENCODED_PAYLOAD, out1)
            | (true, rd1, out1) =>
              if rd1.length = 0 then some (DZCOBS_RET_SUCCESS, out1)
              else if code = 0 then
                dzcobs_decode_dictionary_loop dstBufDecodedSize aDict fuel rd1 (out1 ++ [0])
                  false false
              else if code ≠ DZCOBS_CODE_JUMP_DICTIONARY - 1 then
                dzcobs_decode_dictionary_loop dstBufDecodedSize aDict fuel rd1 out1
                  false true
              else
                dzcobs_decode_dictionary_loop dstBufDecodedSize aDict fuel rd1 out1
                  false false

/-- Function `dzcobs_decode_dictionary`. -/
def dzcobs_decode_dictionary (aDecodeCtx : sDZCOBS_decodectx) (aDict : sDICT_ctx) :
    Option (eDZCOBS_ret × List Nat) :=
  let body := aDecodeCtx.srcBufEncoded.take (aDecodeCtx.srcBufEncoded.length - 2)
  dzcobs_decode_dictionary_loop aDecodeCtx.dstBufDecodedSize aDict body.length body []
    false false

/-- The checksum loop of `dzcobs_decode`: `checksum8 += DZCOBS_HASH8( value )` over the
bytes given, starting from `checksum8`. -/
def checksumLoop : List Nat → Nat → Nat
  | [], checksum8 => checksum8
  | value :: rest, checksum8 => checksumLoop rest ((checksum8 + DZCOBS_HASH8 value) % 256)

/-- Packs the outcome of a mode decoder the way `dzcobs_decode` reports it: the length
and the user bits are written on success only. -/
def decodeReport (receivedUserEncoding : Nat) (r : eDZCOBS_ret × List Nat) : sDecodeResult :=
  if r.1 = DZCOBS_RET_SUCCESS then
    { ret := r.1, outDecodedLen := some r.2.length,
      outUser6bit := some ((receivedUserEncoding >>> 2) &&& 0x3F), dstBufDecoded := r.2 }
  else
    { ret := r.1, outDecodedLen := none, outUser6bit := none, dstBufDecoded := r.2 }

/-- Function `dzcobs_decode`. -/
def dzcobs_decode (aDecodeCtx : sDZCOBS_decodectx) : Option sDecodeResult :=
  let fail (r : eDZCOBS_ret) : Option sDecodeResult :=
    some { ret := r, outDecodedLen := none, outUser6bit := none, dstBufDecoded := [] }
  let srcBufEncodedLen := aDecodeCtx.srcBufEncoded.length
  if aDecodeCtx.dstBufDecodedSize = 0 ∨ srcBufEncodedLen < 3 then fail DZCOBS_RET_ERR_BAD_ARG
  else
    let receivedChecksum8 := aDecodeCtx.srcBufEncoded.getD (srcBufEncodedLen - 1) 0
    let receivedUserEncoding := aDecodeCtx.srcBufEncoded.getD (srcBufEncodedLen - 2) 0
    if receivedChecksum8 = 0 ∨ receivedUserEncoding = 0 then
      fail DZCOBS_RET_ERR_BAD_ENCODED_PAYLOAD
    else
      let checksum8 := checksumLoop (aDecodeCtx.srcBufEncoded.take (srcBufEncodedLen - 1)) 0
      if (checksum8 ≠ 0 ∧ checksum8 ≠ receivedChecksum8) ∨
          (checksum8 = 0 ∧ receivedChecksum8 ≠ DZCOBS_HASH_VALUE_WHEN_CRC_IS_ZERO) then
        fail DZCOBS_RET_ERR_CRC
      else
        let encoding := eDZCOBS_encoding.ofBits (receivedUserEncoding &&& 0x03)
        match encoding with
        | DZCOBS_PLAIN =>
          (dzcobs_decode_plain aDecodeCtx).map (decodeReport receivedUserEncoding)
        | DZCOBS_RESERVED => fail DZCOBS_RET_ERR_BAD_ENCODED_PAYLOAD
        | _ =>
          match aDecodeCtx.pDict (encoding.toNat - DZCOBS_USING_DICT_1.toNat) with
          | none => fail DZCOBS_RET_ERR_NO_DICTIONARY_TO_DECODE
          | some pDict =>
            (dzcobs_decode_dictionary aDecodeCtx pDict).map (decodeReport receivedUserEncoding)

/-! ## The calling sequence of the tests -/

/-- Feeds the chunks in order with `dzcobs_encode_inc`, stopping at the first call that
does not return `DZCOBS_RET_SUCCESS`. -/
def feedAll : List (List Nat) → sDZCOBS_ctx → Option (eDZCOBS_ret × sDZCOBS_ctx)
  | [], ctx => some (DZCOBS_RET_SUCCESS, ctx)
  | chunk :: chunks, ctx =>
    match dzcobs_encode_inc ctx chunk with
    | none => none
    | some (DZCOBS_RET_SUCCESS, ctx1) => feedAll chunks ctx1
    | some (r, ctx1) => some (r, ctx1)

/-- The sequence every test runs: `dzcobs_encode_inc_begin`, `ctx.user6bits = user6`, one
`dzcobs_encode_inc` per chunk, `dzcobs_encode_inc_end`. The first error ends the sequence. -/
def encodeFrame (ctx0 : sDZCOBS_ctx) (aEncoding : eDZCOBS_encoding) (aDstBuf : Nat → Nat)
    (aDstBufSize : Nat) (user6 : Nat) (chunks : List (List Nat)) : Option sEndResult :=
  match dzcobs_encode_inc_begin ctx0 aEncoding aDstBuf aDstBufSize with
  | (DZCOBS_RET_SUCCESS, ctx1) =>
    match feedAll chunks { ctx1 with user6bits := user6 % 256 } with
    | none => none
    | some (DZCOBS_RET_SUCCESS, ctx2) => some (dzcobs_encode_inc_end ctx2)
    | some (r, ctx2) => some { ret := r, outSizeEncoded := none, ctx := ctx2 }
  | (r, ctx1) => some { ret := r, outSizeEncoded := none, ctx := ctx1 }

/-- The frame a finished encoding left in the destination memory: bytes `0 .. L-1`. -/
def sEndResult.frame (r : sEndResult) : List Nat :=
  frameOf r.ctx.pDst (r.outSizeEncoded.getD 0)

/-- A context as `memset( &ctx, 0, sizeof( sDZCOBS_ctx ) )` leaves it. -/
def zeroCtx : sDZCOBS_ctx :=
  { pDst := fun _ => 0, pCodeDst := 0, pCurDst := 0, pDstEnd := 0, code := 0, hashsum := 0,
    user6bits := 0, isLastCodeDictionary := false, pDict := fun _ => none, encFunc := none,
    encoding := DZCOBS_PLAIN }

/-! ## Specification-level definitions used by the proofs -/

/-- Bytes `m[a .. a+k-1]`. -/
def slice (m : Nat → Nat) (a k : Nat) : List Nat := (List.range k).map (fun j => m (a + j))

/-- Sum of the per-byte hashes of a byte sequence (before reduction modulo 256). -/
def hashSum (l : List Nat) : Nat := (l.map DZCOBS_HASH8).sum

/-- Body of the PLAIN frame for the pending literals `lits` and the unread input. -/
def plainBody : List Nat → List Nat → List Nat
  | lits, [] => (lits.length + 1) :: lits
  | lits, b :: rest =>
    if b = 0 then ((lits.length + 1) :: lits) ++ plainBody [] rest
    else if lits.length + 2 = 255 ∧ rest ≠ [] then (255 :: (lits ++ [b])) ++ plainBody [] rest
    else plainBody (lits ++ [b]) rest

/-- Loop invariant of the step functions: `done` is the closed part of the body, `lits`
the literals of the open group. -/
structure EncInv (s : sEncVars) (done lits : List Nat) : Prop where
  hdone : slice s.pDst 0 s.pCodeDst = done
  hlits : slice s.pDst (s.pCodeDst + 1) lits.length = lits
  hcode : s.code = lits.length + 1
  hcur : s.pCurDst = s.pCodeDst + 1 + lits.length
  hhash : s.hashsum = (hashSum done + hashSum lits) % 256

/-- The trailer hash byte for a running hash `h`: zero is replaced by `0xFF`. -/
def hashByte (h : Nat) : Nat := if h = 0 then DZCOBS_HASH_VALUE_WHEN_CRC_IS_ZERO else h

/-- The tag byte `(user6bits << 2) | (encoding & 3)` as `dzcobs_encode_inc_end` forms it. -/
def tagByte (user6bits : Nat) (encoding : eDZCOBS_encoding) : Nat :=
  ((user6bits <<< 2) % 256) ||| (encoding.toNat &&& 0x03)

/-- The context right after a successful `dzcobs_encode_inc_begin` followed by the
assignment `ctx.user6bits = user6`. -/
def begunCtx (ctx0 : sDZCOBS_ctx) (aEncoding : eDZCOBS_encoding) (aDstBuf : Nat → Nat)
    (aDstBufSize user6 : Nat) : sDZCOBS_ctx :=
  { (dzcobs_encode_inc_begin ctx0 aEncoding aDstBuf aDstBufSize).2 with
    user6bits := user6 % 256 }

/-- What `dzcobs_encode_inc_begin` stores in `encFunc` for an encoding. -/
def encFuncOf : eDZCOBS_encoding → Option dzcobs_encode_inc_funcPtr
  | DZCOBS_PLAIN => some dzcobs_encode_inc_funcPtr.plain
  | DZCOBS_USING_DICT_1 => some dzcobs_encode_inc_funcPtr.dictionary
  | DZCOBS_USING_DICT_2 => some dzcobs_encode_inc_funcPtr.dictionary
  | DZCOBS_RESERVED => none

/-- Pointwise loop invariant: the code slot lies below the write cursor and every byte
below the cursor other than the code slot is non-zero. -/
structure NZInv (s : sEncVars) : Prop where
  hslot : s.pCodeDst < s.pCurDst
  hnz : ∀ i, i < s.pCurDst → i ≠ s.pCodeDst → s.pDst i ≠ 0

/-- Invariant of the dictionary step loop at its head, `src` being the unread input. -/
structure DictInv (s : sEncVars) (src : List Nat) : Prop where
  nz : NZInv s
  hlo : 1 ≤ s.code
  hhi : s.code ≤ 126 ∨ (src = [] ∧ s.code ≤ 127)
  hlast : s.isLastCodeDictionary = true → s.pCurDst = s.pCodeDst + 1

/-- The sizes a dictionary search reports are the ones the assertions of
`dzcobs_encode_inc_dictionary` admit: a found word has between 1 and `|key|` bytes. -/
def dictSizesOk (d : sDICT_ctx) : Prop :=
  ∀ key, (d.search key).1 % 256 ≠ 0 → 1 ≤ (d.search key).2 ∧ (d.search key).2 ≤ key.length

/-- Context of `EncodeDictionaryManual`: zeroed, then `s_TEST_Dictionary1` set in slot 1. -/
def testDictCtx : sDZCOBS_ctx :=
  (dzcobs_encode_set_dictionary zeroCtx s_TEST_Dictionary1 DZCOBS_USING_DICT_1).2

/-- Destination memory filled with the guard byte of the tests, `UTEST_GUARD_BYTE`. -/
def guardMem : Nat → Nat := fun _ => 0xEE

/-- Loop invariant of the step functions for any sequence of feed calls. `Q` holds for
every byte stored below the write cursor outside the open code slot; the running hash is
the hash of those bytes plus a pending amount `δ`; after a dictionary token the open slot
is the last position and is not the first one. -/
structure FrameInv (Q : Nat → Prop) (δ : Nat) (s : sEncVars) : Prop where
  hslot : s.pCodeDst < s.pCurDst
  hcode : s.code < 256
  hbytes : ∀ i, i < s.pCurDst → i ≠ s.pCodeDst → Q (s.pDst i)
  hhash : s.hashsum =
    (hashSum (slice s.pDst 0 s.pCodeDst) +
      hashSum (slice s.pDst (s.pCodeDst + 1) (s.pCurDst - (s.pCodeDst + 1))) + δ) % 256
  hlast : s.isLastCodeDictionary = true → s.pCurDst = s.pCodeDst + 1 ∧ 1 ≤ s.pCodeDst

/-- Invariant of the encoder context between calls: the frame invariant with no pending
hash, and for the plain step function the dictionary flag is clear. -/
def CtxInv (Q : Nat → Prop) (c : sDZCOBS_ctx) : Prop :=
  FrameInv Q 0 (sEncVars.ofCtx c) ∧
    (c.encFunc = some dzcobs_encode_inc_funcPtr.plain → c.isLastCodeDictionary = false)

/-- The return codes the two mode decoders can produce. -/
def LoopRet (r : eDZCOBS_ret) : Prop :=
  r = DZCOBS_RET_SUCCESS ∨ r = DZCOBS_RET_ERR_BAD_ENCODED_PAYLOAD ∨
    r = DZCOBS_RET_ERR_WRITE_OVERFLOW ∨ r = DZCOBS_RET_ERR_READ_OVERFLOW ∨
    r = DZCOBS_RET_ERR_WORD_NOT_FOUND_ON_DICTIONARY

/-- What `dzcobs_decode` leaves behind when it returns `r` before any mode decoder ran:
no length, no user bits, no byte written. -/
def failResult (r : eDZCOBS_ret) : sDecodeResult :=
  { ret := r, outDecodedLen := none, outUser6bit := none, dstBufDecoded := [] }

/-- A frame with bit `k` of the byte at position `i` inverted. -/
def flipBit (F : List Nat) (i k : Nat) : List Nat := F.set i (F.getD i 0 ^^^ 2 ^ k)

/-- A context on which `dzcobs_encode_inc` runs a step function: the plain one, or the
dictionary one with the dictionary of the selected slot present and reporting sizes the
step function accepts. -/
def FeedReady (c : sDZCOBS_ctx) : Prop :=
  c.encFunc = some dzcobs_encode_inc_funcPtr.plain ∨
  (c.encFunc = some dzcobs_encode_inc_funcPtr.dictionary ∧
    ∃ d, c.pDict (c.encoding.toNat - DZCOBS_USING_DICT_1.toNat) = some d ∧ dictSizesOk d)

/-! ## test_checksum.cpp -/

/-- Function `hash8` of `test_checksum.cpp`; every assignment to the `uint8_t` variable
`byte` reduces modulo 256. -/
def hash8 (byte : Nat) : Nat :=
  let byte1 := (byte ^^^ (byte >>> 3)) % 256
  let byte2 := (byte1 * 167) % 256
  let byte3 := (byte2 ^^^ (byte2 <<< 1)) % 256
  byte3

/-- Loop of `multiset_hash`: `sum += hash8( data[i] )` on the `uint16_t` variable `sum`. -/
def multiset_hash_loop : List Nat → Nat → Nat
  | [], sum => sum
  | b :: data, sum => multiset_hash_loop data ((sum + hash8 b) % 65536)

/-- Function `multiset_hash` of `test_checksum.cpp`. -/
def multiset_hash (data : List Nat) : Nat := (multiset_hash_loop data 0 &&& 0xFF) % 256

/-! ## dictionary_default.c -/

/-- Constant `G_DZCOBS_DefaultDictionary`: each `DICT_ADD_WORD( len, word )` is the digit
character of `len` followed by the bytes of `word`; the string ends with its null. -/
def G_DZCOBS_DefaultDictionary : List Nat :=
  [0x32, 0x00, 0x00,
   0x32, 0x00, 0x01,
   0x32, 0x01, 0x00,
   0x32, 0x0D, 0x0A,
   0x33, 0x00, 0x00, 0x00,
   0x33, 0x00, 0x00, 0x01,
   0x33, 0x00, 0x01, 0x00,
   0x33, 0x01, 0x00, 0x00,
   0x00]

/-- Constant `G_DZCOBS_DefaultDictionary_size`, the `sizeof` of the string. -/
def G_DZCOBS_DefaultDictionary_size : Nat := G_DZCOBS_DefaultDictionary.length

/-- Modelled from the spec: the words of a dictionary blob, each stored as the character
`'0' + L` followed by `L` bytes, with `L` in 2..5; reading stops at the first byte that
does not start such an entry (the tolerated trailing `0x00`). The first argument is fuel. -/
def dictBlobWords : Nat → List Nat → List (List Nat)
  | 0, _ => []
  | _, [] => []
  | fuel + 1, c :: rest =>
    if 0x32 ≤ c ∧ c ≤ 0x35 ∧ c - 0x30 ≤ rest.length then
      rest.take (c - 0x30) :: dictBlobWords fuel (rest.drop (c - 0x30))
    else []

/-- Byte-lexicographic comparison of two words: whether `a` is strictly smaller than `b`
(what `memcmp( a, b, L ) < 0` tells for words of the same length `L`). -/
def lexLess : List Nat → List Nat → Bool
  | [], [] => false
  | [], _ :: _ => true
  | _ :: _, [] => false
  | x :: xs, y :: ys => if x < y then true else if y < x then false else lexLess xs ys

/-- Body of a frame for a run of literal bytes (non-zero, none starting a dictionary
word) under the jump code `J` of the mode: `lits` are the pending literals, the second
list is the unread input. A group is closed with code `J` when it holds `J - 1` literals
and input remains. -/
def runBody (J : Nat) : List Nat → List Nat → List Nat
  | lits, [] => (lits.length + 1) :: lits
  | lits, b :: rest =>
    if lits.length + 2 = J ∧ rest ≠ [] then (J :: (lits ++ [b])) ++ runBody J [] rest
    else runBody J (lits ++ [b]) rest

/-- Macro `Z_DZCOBS_DIV_ROUND_UP( n, d )` on `size_t` operands: the sum `n + d` and the
difference `- 1` wrap modulo `2^64` before the division. -/
def Z_DZCOBS_DIV_ROUND_UP_size_t (n d : Nat) : Nat :=
  (((n % SIZE_T_MOD + d % SIZE_T_MOD) % SIZE_T_MOD + SIZE_T_MOD - 1) % SIZE_T_MOD) /
    (d % SIZE_T_MOD)

/-- Macro `DZCOBS_MAX_OVERHEAD( size )` on a `size_t` operand. -/
def DZCOBS_MAX_OVERHEAD_size_t (size : Nat) : Nat :=
  Z_DZCOBS_DIV_ROUND_UP_size_t size DZCOBS_ONE_BYTE_OVERHEAD_EVERY

/-- Macro `DZCOBS_MAX_ENCODED_SIZE( size )` on a `size_t` operand: both additions wrap
modulo `2^64`; the comparison `size == 0` is `1` or `0`. -/
def DZCOBS_MAX_ENCODED_SIZE_size_t (size : Nat) : Nat :=
  ((size % SIZE_T_MOD + DZCOBS_MAX_OVERHEAD_size_t size) % SIZE_T_MOD +
    (if size % SIZE_T_MOD = 0 then 1 else 0)) % SIZE_T_MOD

/-! ## Lemmas and theorems -/

theorem frameOf_eq_slice (m : Nat → Nat) (n : Nat) : frameOf m n = slice m 0 n := by
  simp [frameOf, slice]

theorem slice_length (m : Nat → Nat) (a k : Nat) : (slice m a k).length = k := by
  simp [slice]

theorem slice_succ (m : Nat → Nat) (a k : Nat) :
    slice m a (k + 1) = slice m a k ++ [m (a + k)] := by
  simp [slice, List.range_succ]

theorem slice_add (m : Nat → Nat) (a k1 k2 : Nat) :
    slice m a (k1 + k2) = slice m a k1 ++ slice m (a + k1) k2 := by
  simp [slice, List.range_add, Nat.add_assoc]

theorem slice_store (m : Nat → Nat) (i v a k : Nat) (h : i < a ∨ a + k ≤ i) :
    slice (store m i v) a k = slice m a k := by
  unfold slice
  apply List.map_congr_left
  intro j hj
  have hj2 : j < k := List.mem_range.mp hj
  have : a + j ≠ i := by omega
  simp [store, this]

theorem store_same (m : Nat → Nat) (i v : Nat) : store m i v i = v := by
  simp [store]

theorem store_other (m : Nat → Nat) (i v j : Nat) (h : j ≠ i) : store m i v j = m j := by
  simp [store, h]

theorem checksumLoop_eq (l : List Nat) (c : Nat) :
    checksumLoop l c % 256 = (c + hashSum l) % 256 := by
  induction l generalizing c with
  | nil => simp [checksumLoop, hashSum]
  | cons v r ih =>
    simp only [checksumLoop, hashSum, List.map_cons, List.sum_cons] at *
    rw [ih]
    omega

theorem checksumLoop_lt (l : List Nat) (c : Nat) (hc : c < 256) : checksumLoop l c < 256 := by
  induction l generalizing c with
  | nil => simpa [checksumLoop] using hc
  | cons v r ih =>
    simp only [checksumLoop]
    apply ih
    omega

theorem hashSum_append (a b : List Nat) : hashSum (a ++ b) = hashSum a + hashSum b := by
  simp [hashSum]

theorem tag_bits : ∀ u, u < 64 → ∀ e, e < 4 →
    ((u <<< 2) % 256 ||| (e &&& 3)) &&& 3 = e ∧
    (((u <<< 2) % 256 ||| (e &&& 3)) >>> 2) &&& 63 = u ∧
    (1 ≤ u → ((u <<< 2) % 256 ||| (e &&& 3)) ≠ 0) := by
  decide

theorem slice_cons (m : Nat → Nat) (a k : Nat) :
    slice m a (k + 1) = m a :: slice m (a + 1) k := by
  rw [Nat.add_comm k 1, slice_add]
  simp [slice, List.range_succ]

theorem hashSum_cons (a : Nat) (l : List Nat) : hashSum (a :: l) = DZCOBS_HASH8 a + hashSum l := by
  simp [hashSum]

theorem hashSum_nil : hashSum [] = 0 := rfl

theorem encInv_close {s : sEncVars} {done lits : List Nat} (h : EncInv s done lits) :
    EncInv (closeGroup s) (done ++ (lits.length + 1) :: lits) [] := by
  obtain ⟨h1, h2, h3, h4, h5⟩ := h
  refine ⟨?_, ?_, ?_, ?_, ?_⟩
  · show slice (store s.pDst s.pCodeDst s.code) 0 s.pCurDst = _
    rw [h4, Nat.add_assoc, slice_add, Nat.add_comm 1 lits.length, slice_cons,
      slice_store _ _ _ _ _ (Or.inr (by omega)), slice_store _ _ _ _ _ (Or.inl (by omega)),
      Nat.zero_add, store_same, h1, h2, h3]
  · simp [slice]
  · simp [closeGroup]
  · simp [closeGroup]
  · show (s.hashsum + DZCOBS_HASH8 s.code) % 256 = _
    rw [h5, h3, hashSum_append, hashSum_cons, hashSum_nil]
    omega

theorem encInv_lit {s : sEncVars} {done lits : List Nat} (h : EncInv s done lits)
    (hk : lits.length ≤ 253) (b : Nat) : EncInv (putLiteral s b) done (lits ++ [b]) := by
  obtain ⟨h1, h2, h3, h4, h5⟩ := h
  refine ⟨?_, ?_, ?_, ?_, ?_⟩
  · show slice (store s.pDst s.pCurDst b) 0 s.pCodeDst = _
    rw [slice_store _ _ _ _ _ (Or.inr (by omega)), h1]
  · show slice (store s.pDst s.pCurDst b) (s.pCodeDst + 1) (lits ++ [b]).length = _
    rw [List.length_append, List.length_singleton, slice_succ,
      slice_store _ _ _ _ _ (Or.inr (by omega)), h2, ← h4, store_same]
  · show (s.code + 1) % 256 = _
    rw [h3, List.length_append, List.length_singleton]
    omega
  · show s.pCurDst + 1 = s.pCodeDst + 1 + (lits ++ [b]).length
    rw [h4, List.length_append, List.length_singleton]
    omega
  · show (s.hashsum + DZCOBS_HASH8 b) % 256 = _
    rw [h5, hashSum_append, hashSum_cons, hashSum_nil]
    omega

theorem plainBody_ne_nil (lits src : List Nat) : plainBody lits src ≠ [] := by
  induction src generalizing lits with
  | nil => simp [plainBody]
  | cons b rest ih =>
    unfold plainBody
    split
    · simp
    · split
      · simp
      · exact ih _

theorem plain_loop_inv (src : List Nat) : ∀ (s : sEncVars) (done lits : List Nat),
    EncInv s done lits → (lits.length ≤ 253 ∨ src = []) → lits.length ≤ 254 →
    ∃ done1 lits1, EncInv (dzcobs_encode_inc_plain_loop src s) done1 lits1 ∧
      done1 ++ (lits1.length + 1) :: lits1 = done ++ plainBody lits src ∧
      lits1.length ≤ 254 := by
  induction src with
  | nil =>
    intro s done lits h _ hk
    exact ⟨done, lits, by simpa [dzcobs_encode_inc_plain_loop] using h, by simp [plainBody], hk⟩
  | cons b rest ih =>
    intro s done lits h hk _
    have hk1 : lits.length ≤ 253 := by
      rcases hk with hk | hk
      · exact hk
      · cases hk
    unfold dzcobs_encode_inc_plain_loop plainBody
    by_cases hb : b = 0
    · simp only [hb, if_true]
      obtain ⟨d1, l1, hi, he, hl⟩ := ih _ _ _ (encInv_close h) (Or.inl (by simp)) (by simp)
      exact ⟨d1, l1, hi, by rw [he]; simp, hl⟩
    · simp only [hb, if_false]
      have h1 := encInv_lit h hk1 b
      have hc : (putLiteral s b).code = lits.length + 2 := by
        rw [h1.hcode]; simp
      by_cases hj : lits.length + 2 = 255 ∧ rest ≠ []
      · have hj2 : (putLiteral s b).code = DZCOBS_CODE_JUMP_PLAIN ∧ rest.length ≠ 0 := by
          refine ⟨by rw [hc, hj.1]; rfl, ?_⟩
          intro h0
          exact hj.2 (List.length_eq_zero.mp h0)
        simp only [hj2, hj, and_self, if_true, ne_eq, not_false_eq_true]
        obtain ⟨d1, l1, hi, he, hl⟩ := ih _ _ _ (encInv_close h1) (Or.inl (by simp)) (by simp)
        refine ⟨d1, l1, hi, ?_, hl⟩
        rw [he]
        simp
        omega
      · have hj2 : ¬ ((putLiteral s b).code = DZCOBS_CODE_JUMP_PLAIN ∧ rest.length ≠ 0) := by
          intro hh
          apply hj
          refine ⟨by rw [← hc, hh.1]; rfl, ?_⟩
          intro h0
          exact hh.2 (by simp [h0])
        simp only [hj2, hj, if_false]
        have hkk : (lits ++ [b]).length ≤ 253 ∨ rest = [] := by
          by_cases hr : rest = []
          · exact Or.inr hr
          · left
            simp only [List.length_append, List.length_singleton]
            have : ¬ (lits.length + 2 = 255) := fun h2 => hj ⟨h2, hr⟩
            omega
        exact ih _ _ _ h1 hkk (by simp; omega)

theorem decodeLiterals_ok (lits : List Nat) : ∀ (rest out : List Nat), (∀ b ∈ lits, b ≠ 0) →
    decodeLiterals lits.length (lits ++ rest) out = (true, rest, out ++ lits) := by
  induction lits with
  | nil => intro rest out _; simp [decodeLiterals]
  | cons b l ih =>
    intro rest out h
    have hb : b ≠ 0 := h b (by simp)
    show decodeLiterals (l.length + 1) (b :: (l ++ rest)) out = _
    rw [decodeLiterals, if_neg hb, ih rest (out ++ [b]) (fun x hx => h x (by simp [hx]))]
    simp

theorem remainOutput_of_le (size used : Nat) (h : used ≤ size) (hs : size < SIZE_T_MOD) :
    remainOutput size used = size - used := by
  unfold remainOutput SIZE_T_MOD at *
  omega

theorem plainBody_length (src : List Nat) : ∀ lits : List Nat,
    (plainBody lits src).length * 254 ≤
      (1 + lits.length + src.length) * 254 + (lits.length + src.length - 1) := by
  induction src with
  | nil => intro lits; simp [plainBody]; omega
  | cons b rest ih =>
    intro lits
    unfold plainBody
    split
    · have := ih []
      simp only [List.length_append, List.length_cons, List.length_nil] at *
      omega
    · split
      · next hj =>
        have := ih []
        have hr : 1 ≤ rest.length := by
          rcases rest with _ | ⟨x, r⟩
          · exact absurd rfl hj.2
          · simp
        simp only [List.length_append, List.length_cons, List.length_nil] at *
        omega
      · have := ih (lits ++ [b])
        simp only [List.length_append, List.length_cons, List.length_nil] at *
        omega

theorem plainBody_nonzero (src : List Nat) : ∀ lits : List Nat, (∀ b ∈ lits, b ≠ 0) →
    ∀ x ∈ plainBody lits src, x ≠ 0 := by
  induction src with
  | nil =>
    intro lits h x hx
    simp only [plainBody, List.mem_cons] at hx
    rcases hx with hx | hx
    · omega
    · exact h x hx
  | cons b rest ih =>
    intro lits h x hx
    unfold plainBody at hx
    split at hx
    · rcases List.mem_append.mp hx with hx | hx
      · rcases List.mem_cons.mp hx with hx | hx
        · omega
        · exact h x hx
      · exact ih [] (by simp) x hx
    · next hb =>
      split at hx
      · rcases List.mem_append.mp hx with hx | hx
        · rcases List.mem_cons.mp hx with hx | hx
          · omega
          · rcases List.mem_append.mp hx with hx | hx
            · exact h x hx
            · rw [List.mem_singleton.mp hx]; exact hb
        · exact ih [] (by simp) x hx
      · refine ih (lits ++ [b]) ?_ x hx
        intro y hy
        simp only [List.mem_append, List.mem_singleton] at hy
        rcases hy with hy | hy
        · exact h y hy
        · rw [hy]; exact hb

theorem decode_plain_group (dstSize fuel : Nat) (lits more out : List Nat)
    (hnz : ∀ b ∈ lits, b ≠ 0) (hcap : lits.length ≤ remainOutput dstSize out.length) :
    dzcobs_decode_plain_loop dstSize (fuel + 1) ((lits.length + 1) :: (lits ++ more)) out =
      if more.length = 0 then some (DZCOBS_RET_SUCCESS, out ++ lits)
      else if lits.length ≠ 254 then
        dzcobs_decode_plain_loop dstSize fuel more (out ++ lits ++ [0])
      else dzcobs_decode_plain_loop dstSize fuel more (out ++ lits) := by
  rw [dzcobs_decode_plain_loop]
  have h1 : ¬ (lits.length + 1 = 0) := by omega
  have h2 : ¬ (lits.length + 1 - 1 > remainOutput dstSize out.length) := by
    rw [Nat.add_sub_cancel]; omega
  have h3 : ¬ (lits.length + 1 - 1 > (lits ++ more).length) := by
    rw [Nat.add_sub_cancel, List.length_append]; omega
  rw [if_neg h1]
  simp only [h2, h3, if_false]
  rw [Nat.add_sub_cancel, decodeLiterals_ok lits more out hnz]
  simp only [DZCOBS_CODE_JUMP_PLAIN]

theorem decode_plainBody (dstSize : Nat) (hs : dstSize < SIZE_T_MOD) (src : List Nat) :
    ∀ (lits out : List Nat) (fuel : Nat), (∀ b ∈ lits, b ≠ 0) →
    (lits.length ≤ 253 ∨ (src = [] ∧ lits.length ≤ 254)) →
    (plainBody lits src).length ≤ fuel →
    out.length + lits.length + src.length ≤ dstSize →
    dzcobs_decode_plain_loop dstSize fuel (plainBody lits src) out =
      some (DZCOBS_RET_SUCCESS, out ++ lits ++ src) := by
  induction src with
  | nil =>
    intro lits out fuel hnz hk hf hcap
    simp only [plainBody] at hf ⊢
    obtain ⟨f, rfl⟩ : ∃ f, fuel = f + 1 := ⟨fuel - 1, by simp at hf; omega⟩
    have hr := remainOutput_of_le dstSize out.length (by omega) hs
    have hg := decode_plain_group dstSize f lits [] out hnz (by rw [hr]; omega)
    rw [List.append_nil] at hg
    rw [hg]
    simp
  | cons b rest ih =>
    intro lits out fuel hnz hk hf hcap
    have hk1 : lits.length ≤ 253 := by
      rcases hk with hk | hk
      · exact hk
      · cases hk.1
    simp only [List.length_cons] at hcap
    have hr := remainOutput_of_le dstSize out.length (by omega) hs
    have hne : (plainBody [] rest).length ≠ 0 := by
      intro h0; exact plainBody_ne_nil _ _ (List.length_eq_zero.mp h0)
    unfold plainBody at hf ⊢
    by_cases hb : b = 0
    · -- a zero byte closes the group
      rw [if_pos hb] at hf ⊢
      obtain ⟨f, rfl⟩ : ∃ f, fuel = f + 1 := ⟨fuel - 1, by simp at hf; omega⟩
      rw [List.cons_append, decode_plain_group dstSize f lits _ out hnz (by rw [hr]; omega),
        if_neg hne, if_pos (by omega),
        ih [] (out ++ lits ++ [0]) f (by simp) (Or.inl (by simp))
          (by simp at hf ⊢; omega) (by simp; omega)]
      simp [hb]
    · rw [if_neg hb] at hf ⊢
      have hnz1 : ∀ x ∈ lits ++ [b], x ≠ 0 := by
        intro y hy
        simp only [List.mem_append, List.mem_singleton] at hy
        rcases hy with hy | hy
        · exact hnz y hy
        · rw [hy]; exact hb
      by_cases hj : lits.length + 2 = 255 ∧ rest ≠ []
      · -- the group is full and more input follows: jump
        rw [if_pos hj] at hf ⊢
        obtain ⟨f, rfl⟩ : ∃ f, fuel = f + 1 := ⟨fuel - 1, by simp at hf; omega⟩
        have hl : (lits ++ [b]).length = 254 := by simp; omega
        have hr1 : 1 ≤ rest.length := by
          rcases rest with _ | ⟨x, r⟩
          · exact absurd rfl hj.2
          · simp
        have hg := decode_plain_group dstSize f (lits ++ [b]) (plainBody [] rest) out hnz1
          (by rw [hr, hl]; omega)
        rw [hl] at hg
        rw [List.cons_append, hg, if_neg hne, if_neg (by simp),
          ih [] (out ++ (lits ++ [b])) f (by simp) (Or.inl (by simp))
            (by simp at hf ⊢; omega) (by simp; omega)]
        simp
      · rw [if_neg hj] at hf ⊢
        rw [ih (lits ++ [b]) out fuel hnz1 ?_ hf (by simp; omega)]
        · simp
        · by_cases hr0 : rest = []
          · right; exact ⟨hr0, by simp; omega⟩
          · left
            have : ¬ (lits.length + 2 = 255) := fun h2 => hj ⟨h2, hr0⟩
            simp; omega

theorem plain_loop_flag (src : List Nat) : ∀ s : sEncVars,
    (dzcobs_encode_inc_plain_loop src s).isLastCodeDictionary = s.isLastCodeDictionary := by
  induction src with
  | nil => intro s; rfl
  | cons b rest ih =>
    intro s
    unfold dzcobs_encode_inc_plain_loop
    split
    · rw [ih]; rfl
    · simp only
      split
      · rw [ih]; rfl
      · rw [ih]; rfl

theorem encode_inc_plain_eq (c : sDZCOBS_ctx)
    (h : c.encFunc = some dzcobs_encode_inc_funcPtr.plain) (P : List Nat) :
    dzcobs_encode_inc c P =
      some (DZCOBS_RET_SUCCESS, (dzcobs_encode_inc_plain_loop P (sEncVars.ofCtx c)).toCtx c) := by
  unfold dzcobs_encode_inc
  rw [h]
  by_cases hP : P.length = 0
  · have : P = [] := List.length_eq_zero.mp hP
    subst this
    simp [dzcobs_encode_inc_plain_loop, sEncVars.toCtx, sEncVars.ofCtx]
  · simp [hP, dzcobs_encode_inc_plain]

theorem end_not_dict (c : sDZCOBS_ctx) (done lits : List Nat)
    (hinv : EncInv (sEncVars.ofCtx c) done lits) (hlast : c.isLastCodeDictionary = false)
    (hroom : c.pCurDst + 1 ≤ c.pDstEnd) (hu : c.user6bits ≠ 0) :
    (dzcobs_encode_inc_end c).ret = DZCOBS_RET_SUCCESS ∧
    (dzcobs_encode_inc_end c).outSizeEncoded =
      some ((done ++ (lits.length + 1) :: lits).length + 2) ∧
    (dzcobs_encode_inc_end c).frame =
      (done ++ (lits.length + 1) :: lits) ++
        [tagByte c.user6bits c.encoding,
         hashByte ((hashSum (done ++ (lits.length + 1) :: lits) +
            DZCOBS_HASH8 (tagByte c.user6bits c.encoding)) % 256)] := by
  have hcl := encInv_close hinv
  have hbody : slice (store c.pDst c.pCodeDst c.code) 0 c.pCurDst =
      done ++ (lits.length + 1) :: lits := hcl.hdone
  have hlen : (done ++ (lits.length + 1) :: lits).length = c.pCurDst := by
    rw [← hbody, slice_length]
  have hh : (c.hashsum + DZCOBS_HASH8 c.code) % 256 =
      (hashSum (done ++ (lits.length + 1) :: lits) + hashSum []) % 256 := hcl.hhash
  have hr : ¬ (c.pCurDst + 1 > c.pDstEnd) := by omega
  unfold sEndResult.frame dzcobs_encode_inc_end
  simp only [hr, hu, hlast, if_false, Bool.false_eq_true]
  refine ⟨trivial, ?_, ?_⟩
  · rw [hlen]
  · simp only [Option.getD_some, frameOf_eq_slice]
    rw [slice_succ, slice_succ, Nat.zero_add, Nat.zero_add, store_same,
      slice_store _ _ _ _ _ (Or.inr (by omega)), slice_store _ _ _ _ _ (Or.inr (by omega)),
      store_other _ _ _ _ (by omega), store_same, hbody, hh, hashSum_nil]
    simp [tagByte, hashByte]

theorem checksumLoop_zero (l : List Nat) : checksumLoop l 0 = hashSum l % 256 := by
  have h1 := checksumLoop_eq l 0
  have h2 := checksumLoop_lt l 0 (by omega)
  rw [Nat.zero_add] at h1
  rw [← h1]
  exact (Nat.mod_eq_of_lt h2).symm

theorem hashByte_ne_zero (h : Nat) : hashByte h ≠ 0 := by
  unfold hashByte DZCOBS_HASH_VALUE_WHEN_CRC_IS_ZERO
  split <;> omega

theorem decode_plain_frame (body : List Nat) (tag cap : Nat) (pd : Nat → Option sDICT_ctx)
    (hb : body ≠ []) (ht : tag ≠ 0) (htag : tag &&& 3 = 0) (hcap : cap ≠ 0) :
    dzcobs_decode
      { srcBufEncoded := body ++ [tag, hashByte ((hashSum body + DZCOBS_HASH8 tag) % 256)],
        dstBufDecodedSize := cap, pDict := pd } =
      (dzcobs_decode_plain_loop cap body.length body []).map (decodeReport tag) := by
  have hbl : 1 ≤ body.length := by
    rcases body with _ | ⟨x, r⟩
    · exact absurd rfl hb
    · simp
  generalize hH : hashByte ((hashSum body + DZCOBS_HASH8 tag) % 256) = h
  have hlen : (body ++ [tag, h]).length = body.length + 2 := by simp
  have hlast : (body ++ [tag, h]).getD (body.length + 2 - 1) 0 = h := by
    rw [List.getD_eq_getElem?_getD, List.getElem?_append_right (by omega)]
    simp
  have htg : (body ++ [tag, h]).getD (body.length + 2 - 2) 0 = tag := by
    rw [List.getD_eq_getElem?_getD, List.getElem?_append_right (by omega)]
    simp
  have htake1 : (body ++ [tag, h]).take (body.length + 2 - 1) = body ++ [tag] := by
    rw [List.take_append_eq_append_take]
    simp
  have htake2 : (body ++ [tag, h]).take (body.length + 2 - 2) = body := by
    simp
  have hck : checksumLoop (body ++ [tag]) 0 = (hashSum body + DZCOBS_HASH8 tag) % 256 := by
    rw [checksumLoop_zero, hashSum_append, hashSum_cons, hashSum_nil]
    simp
  have hh0 : h ≠ 0 := by rw [← hH]; exact hashByte_ne_zero _
  have hcrc : ¬ (((hashSum body + DZCOBS_HASH8 tag) % 256 ≠ 0 ∧
        (hashSum body + DZCOBS_HASH8 tag) % 256 ≠ h) ∨
      ((hashSum body + DZCOBS_HASH8 tag) % 256 = 0 ∧
        h ≠ DZCOBS_HASH_VALUE_WHEN_CRC_IS_ZERO)) := by
    rw [← hH]
    unfold hashByte
    split <;> simp_all
  have hargs : ¬ (cap = 0 ∨ body.length + 2 < 3) := by omega
  have hz : ¬ (h = 0 ∨ tag = 0) := by simp [hh0, ht]
  unfold dzcobs_decode
  simp only [hlen, hlast, htg, htake1, hck, hargs, hz, hcrc, if_false, htag]
  simp only [eDZCOBS_encoding.ofBits, if_true, dzcobs_decode_plain, hlen, htake2]

theorem begin_ok (ctx0 : sDZCOBS_ctx) (aEncoding : eDZCOBS_encoding) (aDstBuf : Nat → Nat)
    (aDstBufSize : Nat) (hsize : 2 ≤ aDstBufSize)
    (hd : ¬ ((aEncoding = DZCOBS_USING_DICT_1 ∧ (ctx0.pDict 0).isNone) ∨
      (aEncoding = DZCOBS_USING_DICT_2 ∧ (ctx0.pDict 1).isNone))) :
    dzcobs_encode_inc_begin ctx0 aEncoding aDstBuf aDstBufSize =
      (DZCOBS_RET_SUCCESS,
        { ctx0 with
          pDst := aDstBuf, pCodeDst := 0, pCurDst := 1, pDstEnd := aDstBufSize, code := 1,
          hashsum := 0, isLastCodeDictionary := false, encoding := aEncoding,
          encFunc := encFuncOf aEncoding }) := by
  have hlt : ¬ (aDstBufSize < 2) := by omega
  unfold dzcobs_encode_inc_begin
  rw [if_neg hlt, if_neg hd]
  cases aEncoding <;> rfl

theorem begunCtx_eq (ctx0 : sDZCOBS_ctx) (aEncoding : eDZCOBS_encoding) (aDstBuf : Nat → Nat)
    (aDstBufSize user6 : Nat) (hsize : 2 ≤ aDstBufSize)
    (hd : ¬ ((aEncoding = DZCOBS_USING_DICT_1 ∧ (ctx0.pDict 0).isNone) ∨
      (aEncoding = DZCOBS_USING_DICT_2 ∧ (ctx0.pDict 1).isNone))) :
    begunCtx ctx0 aEncoding aDstBuf aDstBufSize user6 =
      { ctx0 with
        pDst := aDstBuf, pCodeDst := 0, pCurDst := 1, pDstEnd := aDstBufSize, code := 1,
        hashsum := 0, isLastCodeDictionary := false, encoding := aEncoding,
        encFunc := encFuncOf aEncoding, user6bits := user6 % 256 } := by
  unfold begunCtx
  rw [begin_ok ctx0 aEncoding aDstBuf aDstBufSize hsize hd]

theorem encodeFrame_begun (ctx0 : sDZCOBS_ctx) (aEncoding : eDZCOBS_encoding)
    (aDstBuf : Nat → Nat) (aDstBufSize user6 : Nat) (chunks : List (List Nat))
    (hsize : 2 ≤ aDstBufSize)
    (hd : ¬ ((aEncoding = DZCOBS_USING_DICT_1 ∧ (ctx0.pDict 0).isNone) ∨
      (aEncoding = DZCOBS_USING_DICT_2 ∧ (ctx0.pDict 1).isNone))) :
    encodeFrame ctx0 aEncoding aDstBuf aDstBufSize user6 chunks =
      match feedAll chunks (begunCtx ctx0 aEncoding aDstBuf aDstBufSize user6) with
      | none => none
      | some (DZCOBS_RET_SUCCESS, ctx2) => some (dzcobs_encode_inc_end ctx2)
      | some (r, ctx2) => some { ret := r, outSizeEncoded := none, ctx := ctx2 } := by
  unfold encodeFrame begunCtx
  rw [begin_ok ctx0 aEncoding aDstBuf aDstBufSize hsize hd]

theorem encodeFrame_plain_single (ctx0 : sDZCOBS_ctx) (aDstBuf : Nat → Nat)
    (aDstBufSize user6 : Nat) (P : List Nat) (hsize : 2 ≤ aDstBufSize) :
    encodeFrame ctx0 DZCOBS_PLAIN aDstBuf aDstBufSize user6 [P] =
      some (dzcobs_encode_inc_end
        ((dzcobs_encode_inc_plain_loop P
          (sEncVars.ofCtx (begunCtx ctx0 DZCOBS_PLAIN aDstBuf aDstBufSize user6))).toCtx
          (begunCtx ctx0 DZCOBS_PLAIN aDstBuf aDstBufSize user6))) := by
  have hf : (begunCtx ctx0 DZCOBS_PLAIN aDstBuf aDstBufSize user6).encFunc =
      some dzcobs_encode_inc_funcPtr.plain := by
    rw [begunCtx_eq _ _ _ _ _ hsize (by simp)]
    rfl
  rw [encodeFrame_begun _ _ _ _ _ _ hsize (by simp)]
  simp only [feedAll]
  rw [encode_inc_plain_eq _ hf P]

theorem begunCtx_inv (ctx0 : sDZCOBS_ctx) (aEncoding : eDZCOBS_encoding) (aDstBuf : Nat → Nat)
    (aDstBufSize user6 : Nat) (hsize : 2 ≤ aDstBufSize)
    (hd : ¬ ((aEncoding = DZCOBS_USING_DICT_1 ∧ (ctx0.pDict 0).isNone) ∨
      (aEncoding = DZCOBS_USING_DICT_2 ∧ (ctx0.pDict 1).isNone))) :
    EncInv (sEncVars.ofCtx (begunCtx ctx0 aEncoding aDstBuf aDstBufSize user6)) [] [] := by
  rw [begunCtx_eq _ _ _ _ _ hsize hd]
  constructor <;> simp [sEncVars.ofCtx, slice, hashSum]

theorem max_size_bound (n k : Nat) (h : k * 254 ≤ (1 + n) * 254 + (n - 1)) :
    k + 2 ≤ DZCOBS_MAX_ENCODED_SIZE n + DZCOBS_FRAME_HEADER_SIZE := by
  unfold DZCOBS_MAX_ENCODED_SIZE DZCOBS_MAX_OVERHEAD Z_DZCOBS_DIV_ROUND_UP
    DZCOBS_ONE_BYTE_OVERHEAD_EVERY DZCOBS_FRAME_HEADER_SIZE
  split <;> omega

/-- C1. PLAIN round trip, single feed: for every payload `P` and every `user6` in 1..63,
begin(PLAIN), one feed carrying all of `P` and end, into a destination buffer of at least
`DZCOBS_MAX_ENCODED_SIZE(|P|) + DZCOBS_FRAME_HEADER_SIZE` bytes, succeed, and decoding the
frame with an output capacity of at least `max(|P|, 1)` returns SUCCESS with decoded
length `|P|`, decoded bytes `P` and user tag `user6`. -/
theorem plain_roundtrip_single_feed (ctx0 : sDZCOBS_ctx) (P : List Nat) (user6 : Nat)
    (hu1 : 1 ≤ user6) (hu2 : user6 ≤ 63) (aDstBuf : Nat → Nat) (aDstBufSize : Nat)
    (hsize : DZCOBS_MAX_ENCODED_SIZE P.length + DZCOBS_FRAME_HEADER_SIZE ≤ aDstBufSize)
    (dstBufDecodedSize : Nat) (hd : max P.length 1 ≤ dstBufDecodedSize)
    (hd2 : dstBufDecodedSize < SIZE_T_MOD) (pDict : Nat → Option sDICT_ctx) :
    ∃ r, encodeFrame ctx0 DZCOBS_PLAIN aDstBuf aDstBufSize user6 [P] = some r ∧
      r.ret = DZCOBS_RET_SUCCESS ∧
      dzcobs_decode
        { srcBufEncoded := r.frame, dstBufDecodedSize := dstBufDecodedSize, pDict := pDict } =
        some { ret := DZCOBS_RET_SUCCESS, outDecodedLen := some P.length,
               outUser6bit := some user6, dstBufDecoded := P } := by
  have hbound := max_size_bound P.length _ (by simpa using plainBody_length P [])
  have h2 : 2 ≤ aDstBufSize := by omega
  refine ⟨_, encodeFrame_plain_single ctx0 aDstBuf aDstBufSize user6 P h2, ?_⟩
  have hinv0 := begunCtx_inv ctx0 DZCOBS_PLAIN aDstBuf aDstBufSize user6 h2 (by simp)
  obtain ⟨d1, l1, hinv, hbody, _⟩ :=
    plain_loop_inv P _ [] [] hinv0 (Or.inl (by simp)) (by simp)
  rw [List.nil_append] at hbody
  generalize hc0 : begunCtx ctx0 DZCOBS_PLAIN aDstBuf aDstBufSize user6 = c0 at hinv ⊢
  generalize hs1 : dzcobs_encode_inc_plain_loop P (sEncVars.ofCtx c0) = s1 at hinv ⊢
  have hflag : s1.isLastCodeDictionary = false := by
    rw [← hs1, plain_loop_flag, ← hc0, begunCtx_eq _ _ _ _ _ h2 (by simp)]
    rfl
  have hu : (s1.toCtx c0).user6bits = user6 := by
    rw [← hc0, begunCtx_eq _ _ _ _ _ h2 (by simp)]
    show user6 % 256 = user6
    omega
  have henc : (s1.toCtx c0).encoding = DZCOBS_PLAIN := by
    rw [← hc0, begunCtx_eq _ _ _ _ _ h2 (by simp)]
    rfl
  have hend : (s1.toCtx c0).pDstEnd = aDstBufSize := by
    rw [← hc0, begunCtx_eq _ _ _ _ _ h2 (by simp)]
    rfl
  have hcur : (s1.toCtx c0).pCurDst = (plainBody [] P).length := by
    show s1.pCurDst = _
    rw [← hbody, hinv.hcur, ← hinv.hdone, List.length_append, slice_length, List.length_cons]
    omega
  obtain ⟨hr1, hr2, hr3⟩ := end_not_dict (s1.toCtx c0) d1 l1 hinv hflag
    (by rw [hcur, hend]; omega) (by rw [hu]; omega)
  refine ⟨hr1, ?_⟩
  rw [hr3, hbody, hu, henc]
  obtain ⟨ht1, ht2, ht3⟩ := tag_bits user6 (by omega) 0 (by omega)
  have hdec := decode_plain_frame (plainBody [] P) (tagByte user6 DZCOBS_PLAIN)
    dstBufDecodedSize pDict (plainBody_ne_nil _ _) (ht3 hu1) ht1 (by omega)
  rw [hdec, decode_plainBody dstBufDecodedSize hd2 P [] [] _ (by simp) (Or.inl (by simp))
    (Nat.le_refl _) (by simp; omega)]
  simp only [Option.map_some', decodeReport, if_true, List.nil_append, List.append_nil]
  have : (tagByte user6 DZCOBS_PLAIN >>> 2) &&& 0x3F = user6 := ht2
  rw [this]

theorem nzInv_close {s : sEncVars} (h : NZInv s) (hc : s.code ≠ 0) : NZInv (closeGroup s) := by
  refine ⟨?_, ?_⟩
  · show s.pCurDst < s.pCurDst + 1
    omega
  · intro i hi hne
    have hi1 : i < s.pCurDst + 1 := hi
    have hne1 : i ≠ s.pCurDst := hne
    show store s.pDst s.pCodeDst s.code i ≠ 0
    by_cases hs : i = s.pCodeDst
    · rw [hs, store_same]; exact hc
    · rw [store_other _ _ _ _ hs]
      exact h.hnz i (by omega) hs

theorem nzInv_lit {s : sEncVars} (h : NZInv s) (b : Nat) (hb : b ≠ 0) :
    NZInv (putLiteral s b) := by
  refine ⟨?_, ?_⟩
  · show s.pCodeDst < s.pCurDst + 1
    have := h.hslot
    omega
  · intro i hi hne
    have hi1 : i < s.pCurDst + 1 := hi
    have hne1 : i ≠ s.pCodeDst := hne
    show store s.pDst s.pCurDst b i ≠ 0
    by_cases hs : i = s.pCurDst
    · rw [hs, store_same]; exact hb
    · rw [store_other _ _ _ _ hs]
      exact h.hnz i (by omega) hne1

theorem dictEntry_ne_zero (x : Nat) : DZCOBS_DICTIONARY_BITMASK ||| x ≠ 0 := by
  intro h
  have h128 : Nat.testBit 128 7 = true := by decide
  have h7 : (DZCOBS_DICTIONARY_BITMASK ||| x).testBit 7 = true := by
    rw [Nat.testBit_or]
    simp [DZCOBS_DICTIONARY_BITMASK, h128]
  rw [h] at h7
  simp at h7

theorem dict_loop_inv (d : sDICT_ctx) : ∀ (fuel : Nat) (src : List Nat) (s s1 : sEncVars),
    DictInv s src → dzcobs_encode_inc_dictionary_loop d fuel src s = some s1 →
    DictInv s1 [] := by
  intro fuel
  induction fuel with
  | zero =>
    intro src s s1 hinv h
    cases src with
    | nil =>
      simp only [dzcobs_encode_inc_dictionary_loop, Option.some.injEq] at h
      subst h
      exact hinv
    | cons b rest => simp [dzcobs_encode_inc_dictionary_loop] at h
  | succ fuel ih =>
    intro src s s1 hinv h
    cases src with
    | nil =>
      simp only [dzcobs_encode_inc_dictionary_loop, Option.some.injEq] at h
      subst h
      exact hinv
    | cons b rest =>
      have hc126 : s.code ≤ 126 := by
        rcases hinv.hhi with h1 | h1
        · exact h1
        · cases h1.1
      simp only [dzcobs_encode_inc_dictionary_loop] at h
      split at h
      · -- a dictionary word was found
        split at h
        · cases h
        · refine ih _ _ _ ?_ h
          by_cases hc1 : s.code = 1
          · simp only [hc1, ne_eq, not_true_eq_false, if_false]
            refine ⟨⟨?_, ?_⟩, ?_, ?_, ?_⟩
            · show s.pCurDst < s.pCurDst + 1
              omega
            · intro i hi hne
              have hi1 : i < s.pCurDst + 1 := hi
              have hne1 : i ≠ s.pCurDst := hne
              show store s.pDst s.pCodeDst _ i ≠ 0
              by_cases hs : i = s.pCodeDst
              · rw [hs, store_same]; exact dictEntry_ne_zero _
              · rw [store_other _ _ _ _ hs]
                exact hinv.nz.hnz i (by omega) hs
            · show 1 ≤ 1
              omega
            · left
              show 1 ≤ 126
              omega
            · intro _
              rfl
          · simp only [hc1, ne_eq, not_false_eq_true, if_true]
            refine ⟨⟨?_, ?_⟩, ?_, ?_, ?_⟩
            · show s.pCurDst + 1 < s.pCurDst + 1 + 1
              omega
            · intro i hi hne
              have hi1 : i < s.pCurDst + 1 + 1 := hi
              have hne1 : i ≠ s.pCurDst + 1 := hne
              show store (store s.pDst s.pCodeDst s.code) s.pCurDst _ i ≠ 0
              by_cases hs : i = s.pCurDst
              · rw [hs, store_same]; exact dictEntry_ne_zero _
              · rw [store_other _ _ _ _ hs]
                by_cases hs2 : i = s.pCodeDst
                · rw [hs2, store_same]
                  have := hinv.hlo
                  omega
                · rw [store_other _ _ _ _ hs2]
                  exact hinv.nz.hnz i (by omega) hs2
            · show 1 ≤ 1
              omega
            · left
              show 1 ≤ 126
              omega
            · intro _
              rfl
      · -- no word: plain step
        have hnz0 : NZInv { s with isLastCodeDictionary := false } := ⟨hinv.nz.hslot, hinv.nz.hnz⟩
        split at h
        · refine ih _ _ _ ?_ h
          refine ⟨nzInv_close hnz0 (by have := hinv.hlo; show s.code ≠ 0; omega), ?_, ?_, ?_⟩
          · show 1 ≤ 1
            omega
          · left
            show 1 ≤ 126
            omega
          · intro hh
            cases hh
        · next hb =>
          have hnz1 := nzInv_lit hnz0 b hb
          have hcode : (putLiteral { s with isLastCodeDictionary := false } b).code =
              s.code + 1 := by
            show (s.code + 1) % 256 = s.code + 1
            omega
          split at h
          · next hj =>
            refine ih _ _ _ ?_ h
            refine ⟨nzInv_close hnz1 (by rw [hcode]; omega), ?_, ?_, ?_⟩
            · show 1 ≤ 1
              omega
            · left
              show 1 ≤ 126
              omega
            · intro hh
              cases hh
          · next hj =>
            refine ih _ _ _ ?_ h
            refine ⟨hnz1, by rw [hcode]; omega, ?_, ?_⟩
            · rw [hcode]
              by_cases hr : rest = []
              · right
                exact ⟨hr, by omega⟩
              · left
                have hne : rest.length ≠ 0 := fun h0 => hr (List.length_eq_zero.mp h0)
                have : ¬ (s.code + 1 = DZCOBS_CODE_JUMP_DICTIONARY) := by
                  intro h2
                  apply hj
                  exact ⟨by rw [hcode]; exact h2, hne⟩
                unfold DZCOBS_CODE_JUMP_DICTIONARY at this
                omega
            · intro hh
              cases hh

theorem dict_loop_some (d : sDICT_ctx) (hd : dictSizesOk d) :
    ∀ (fuel : Nat) (src : List Nat) (s : sEncVars), src.length ≤ fuel →
    ∃ s1, dzcobs_encode_inc_dictionary_loop d fuel src s = some s1 := by
  intro fuel
  induction fuel with
  | zero =>
    intro src s h
    have : src = [] := List.length_eq_zero.mp (by omega)
    subst this
    exact ⟨s, by simp [dzcobs_encode_inc_dictionary_loop]⟩
  | succ fuel ih =>
    intro src s h
    cases src with
    | nil => exact ⟨s, by simp [dzcobs_encode_inc_dictionary_loop]⟩
    | cons b rest =>
      simp only [List.length_cons] at h
      simp only [dzcobs_encode_inc_dictionary_loop]
      split
      · next hf =>
        obtain ⟨h1, h2⟩ := hd (b :: rest) hf
        simp only [List.length_cons] at h2
        have hno : ¬ ((d.search (b :: rest)).2 = 0 ∨
            (d.search (b :: rest)).2 > (b :: rest).length) := by
          simp only [List.length_cons]
          omega
        rw [if_neg hno]
        apply ih
        simp only [List.length_drop, List.length_cons]
        omega
      · split
        · exact ih _ _ (by omega)
        · split
          · exact ih _ _ (by omega)
          · exact ih _ _ (by omega)

theorem dictSearchFrom_cases (key : List Nat) (ws : List (List Nat)) :
    ∀ (i : Nat) (best : Nat × Nat),
    dictSearchFrom key ws i best = best ∨
      ∃ w ∈ ws, (dictSearchFrom key ws i best).2 = w.length ∧ w.length ≤ key.length := by
  induction ws with
  | nil => intro i best; left; rfl
  | cons w ws ih =>
    intro i best
    unfold dictSearchFrom
    split
    · next hc =>
      right
      rcases ih (i + 1) (i, w.length) with h | ⟨w1, hw1, h1, h2⟩
      · exact ⟨w, by simp, by rw [h], hc.1⟩
      · exact ⟨w1, by simp [hw1], h1, h2⟩
    · rcases ih (i + 1) best with h | ⟨w1, hw1, h1, h2⟩
      · left; exact h
      · right; exact ⟨w1, by simp [hw1], h1, h2⟩

theorem dictOfWords_sizesOk (ws : List (List Nat)) (h : ∀ w ∈ ws, 1 ≤ w.length) :
    dictSizesOk (dictOfWords ws) := by
  intro key hf
  have hs : (dictOfWords ws).search key = dictSearchFrom key ws 1 (0, 0) := rfl
  rw [hs] at hf ⊢
  rcases dictSearchFrom_cases key ws 1 (0, 0) with h0 | ⟨w, hw, h1, h2⟩
  · rw [h0] at hf
    exact absurd rfl hf
  · rw [h1]
    exact ⟨h w hw, h2⟩

theorem s_TEST_Dictionary1_sizesOk : dictSizesOk s_TEST_Dictionary1 := by
  apply dictOfWords_sizesOk
  decide

theorem end_success_inv (c : sDZCOBS_ctx)
    (h : (dzcobs_encode_inc_end c).ret = DZCOBS_RET_SUCCESS) :
    c.pCurDst + 1 ≤ c.pDstEnd ∧ c.user6bits ≠ 0 := by
  unfold dzcobs_encode_inc_end at h
  split at h
  · cases h
  · split at h
    · cases h
    · constructor <;> omega

theorem mem_frameOf {m : Nat → Nat} {n x : Nat} (h : x ∈ frameOf m n) : ∃ i, i < n ∧ m i = x := by
  unfold frameOf at h
  obtain ⟨i, hi, hx⟩ := List.mem_map.mp h
  exact ⟨i, List.mem_range.mp hi, hx⟩

theorem end_nonzero (c : sDZCOBS_ctx) (hnz : NZInv (sEncVars.ofCtx c)) (hcode : c.code ≠ 0)
    (hlast : c.isLastCodeDictionary = true → c.pCurDst = c.pCodeDst + 1)
    (htag : tagByte c.user6bits c.encoding ≠ 0)
    (hret : (dzcobs_encode_inc_end c).ret = DZCOBS_RET_SUCCESS) :
    ∀ x ∈ (dzcobs_encode_inc_end c).frame, x ≠ 0 := by
  obtain ⟨h1, h2⟩ := end_success_inv c hret
  have hr : ¬ (c.pCurDst + 1 > c.pDstEnd) := by omega
  have hslot : c.pCodeDst < c.pCurDst := hnz.hslot
  have hmem : ∀ i, i < c.pCurDst → i ≠ c.pCodeDst → c.pDst i ≠ 0 := hnz.hnz
  have htag1 : (c.user6bits <<< 2) % 256 ||| c.encoding.toNat &&& 3 ≠ 0 := htag
  intro x hx
  unfold sEndResult.frame dzcobs_encode_inc_end at hx
  simp only [hr, h2, if_false] at hx
  cases hfl : c.isLastCodeDictionary
  · simp only [hfl, if_false, Bool.false_eq_true, Option.getD_some] at hx
    obtain ⟨i, hi, rfl⟩ := mem_frameOf hx
    by_cases e1 : i = c.pCurDst + 1
    · rw [e1, store_same]
      split
      · simp [DZCOBS_HASH_VALUE_WHEN_CRC_IS_ZERO]
      · assumption
    · rw [store_other _ _ _ _ e1]
      by_cases e2 : i = c.pCurDst
      · rw [e2, store_same]; exact htag1
      · rw [store_other _ _ _ _ e2]
        by_cases e3 : i = c.pCodeDst
        · rw [e3, store_same]; exact hcode
        · rw [store_other _ _ _ _ e3]
          exact hmem i (by omega) e3
  · have hl := hlast hfl
    simp only [hfl, if_true, Option.getD_some] at hx
    obtain ⟨i, hi, rfl⟩ := mem_frameOf hx
    by_cases e1 : i = c.pCurDst - 1 + 1
    · rw [e1, store_same]
      split
      · simp [DZCOBS_HASH_VALUE_WHEN_CRC_IS_ZERO]
      · assumption
    · rw [store_other _ _ _ _ e1]
      by_cases e2 : i = c.pCurDst - 1
      · rw [e2, store_same]; exact htag1
      · rw [store_other _ _ _ _ e2]
        exact hmem i (by omega) (by omega)

theorem begunCtx_dictInv (ctx0 : sDZCOBS_ctx) (aEncoding : eDZCOBS_encoding)
    (aDstBuf : Nat → Nat) (aDstBufSize user6 : Nat) (hsize : 2 ≤ aDstBufSize)
    (hd : ¬ ((aEncoding = DZCOBS_USING_DICT_1 ∧ (ctx0.pDict 0).isNone) ∨
      (aEncoding = DZCOBS_USING_DICT_2 ∧ (ctx0.pDict 1).isNone)))
    (src : List Nat) :
    DictInv (sEncVars.ofCtx (begunCtx ctx0 aEncoding aDstBuf aDstBufSize user6)) src := by
  rw [begunCtx_eq _ _ _ _ _ hsize hd]
  refine ⟨⟨?_, ?_⟩, ?_, ?_, ?_⟩
  · show 0 < 1
    omega
  · intro i hi hne
    have h1 : i < 1 := hi
    have h2 : i ≠ 0 := hne
    omega
  · show 1 ≤ 1
    omega
  · left
    show 1 ≤ 126
    omega
  · intro h
    cases h

theorem plain_loop_nz (src : List Nat) : ∀ s : sEncVars, NZInv s → 1 ≤ s.code →
    (s.code ≤ 254 ∨ (src = [] ∧ s.code ≤ 255)) →
    NZInv (dzcobs_encode_inc_plain_loop src s) ∧
      (dzcobs_encode_inc_plain_loop src s).code ≠ 0 := by
  induction src with
  | nil =>
    intro s h h1 _
    exact ⟨h, by show s.code ≠ 0; omega⟩
  | cons b rest ih =>
    intro s h h1 h2
    have hc : s.code ≤ 254 := by
      rcases h2 with h2 | h2
      · exact h2
      · cases h2.1
    unfold dzcobs_encode_inc_plain_loop
    split
    · exact ih _ (nzInv_close h (by omega)) (by show 1 ≤ 1; omega) (Or.inl (by show 1 ≤ 254; omega))
    · next hb =>
      have hcode : (putLiteral s b).code = s.code + 1 := by
        show (s.code + 1) % 256 = s.code + 1
        omega
      simp only
      split
      · exact ih _ (nzInv_close (nzInv_lit h b hb) (by rw [hcode]; omega)) (by show 1 ≤ 1; omega)
          (Or.inl (by show 1 ≤ 254; omega))
      · next hj =>
        refine ih _ (nzInv_lit h b hb) (by rw [hcode]; omega) ?_
        rw [hcode]
        by_cases hr : rest = []
        · right
          exact ⟨hr, by omega⟩
        · left
          have hne : rest.length ≠ 0 := fun h0 => hr (List.length_eq_zero.mp h0)
          have : ¬ (s.code + 1 = DZCOBS_CODE_JUMP_PLAIN) := by
            intro h3
            apply hj
            exact ⟨by rw [hcode]; exact h3, hne⟩
          unfold DZCOBS_CODE_JUMP_PLAIN at this
          omega

theorem inc_single_ready (c0 : sDZCOBS_ctx) (P : List Nat)
    (hinv : DictInv (sEncVars.ofCtx c0) P) (hc : c0.code ≤ 126)
    (hfl : c0.isLastCodeDictionary = false)
    (c2 : sDZCOBS_ctx) (h : dzcobs_encode_inc c0 P = some (DZCOBS_RET_SUCCESS, c2)) :
    NZInv (sEncVars.ofCtx c2) ∧ c2.code ≠ 0 ∧
      (c2.isLastCodeDictionary = true → c2.pCurDst = c2.pCodeDst + 1) ∧
      c2.user6bits = c0.user6bits ∧ c2.encoding = c0.encoding := by
  have hlo : 1 ≤ c0.code := hinv.hlo
  unfold dzcobs_encode_inc at h
  split at h
  · simp at h
  · next f hf =>
    split at h
    · simp only [Option.some.injEq, Prod.mk.injEq, true_and] at h
      subst h
      exact ⟨hinv.nz, by omega, hinv.hlast, rfl, rfl⟩
    · split at h
      · simp only [dzcobs_encode_inc_plain, Option.some.injEq, Prod.mk.injEq, true_and] at h
        subst h
        obtain ⟨h1, h2⟩ := plain_loop_nz P (sEncVars.ofCtx c0) hinv.nz hlo
          (Or.inl (by show c0.code ≤ 254; omega))
        refine ⟨h1, h2, ?_, rfl, rfl⟩
        intro hh
        have : (dzcobs_encode_inc_plain_loop P (sEncVars.ofCtx c0)).isLastCodeDictionary
            = true := hh
        rw [plain_loop_flag] at this
        have : c0.isLastCodeDictionary = true := this
        rw [hfl] at this
        cases this
      · unfold dzcobs_encode_inc_dictionary at h
        split at h
        · cases h
        · next d hd =>
          split at h
          · cases h
          · next s hs =>
            simp only [Option.some.injEq, Prod.mk.injEq, true_and] at h
            subst h
            have hi := dict_loop_inv d _ _ _ _ hinv hs
            refine ⟨hi.nz, ?_, hi.hlast, rfl, rfl⟩
            have := hi.hlo
            show s.code ≠ 0
            omega

theorem feedAll_single (c : sDZCOBS_ctx) (P : List Nat) :
    feedAll [P] c = dzcobs_encode_inc c P := by
  unfold feedAll
  split
  · next h => rw [h]
  · next c1 h => rw [h]; rfl
  · next r c1 hne h => rw [h]

/-- C4. No zero byte in a frame: for every encoding, every `user6` in 1..63 and every
payload fed in one `dzcobs_encode_inc` call, when the sequence begin, feed, end returns
SUCCESS, a length `L` is reported and none of the bytes `0 .. L-1` of the destination
buffer is `0x00`. -/
theorem frame_has_no_zero_byte (ctx0 : sDZCOBS_ctx) (aEncoding : eDZCOBS_encoding)
    (aDstBuf : Nat → Nat) (aDstBufSize user6 : Nat) (hu1 : 1 ≤ user6) (hu2 : user6 ≤ 63)
    (P : List Nat) (r : sEndResult)
    (h : encodeFrame ctx0 aEncoding aDstBuf aDstBufSize user6 [P] = some r)
    (hr : r.ret = DZCOBS_RET_SUCCESS) :
    ∃ L, r.outSizeEncoded = some L ∧ ∀ i, i < L → r.ctx.pDst i ≠ 0 := by
  by_cases hsize : 2 ≤ aDstBufSize
  · by_cases hd : (aEncoding = DZCOBS_USING_DICT_1 ∧ (ctx0.pDict 0).isNone) ∨
        (aEncoding = DZCOBS_USING_DICT_2 ∧ (ctx0.pDict 1).isNone)
    · exfalso
      unfold encodeFrame dzcobs_encode_inc_begin at h
      rw [if_neg (by omega), if_pos hd] at h
      simp only [Option.some.injEq] at h
      rw [← h] at hr
      cases hr
    · rw [encodeFrame_begun _ _ _ _ _ _ hsize hd] at h
      have hinv := begunCtx_dictInv ctx0 aEncoding aDstBuf aDstBufSize user6 hsize hd P
      have hceq := begunCtx_eq ctx0 aEncoding aDstBuf aDstBufSize user6 hsize hd
      generalize begunCtx ctx0 aEncoding aDstBuf aDstBufSize user6 = c0 at h hinv hceq
      rw [feedAll_single] at h
      split at h
      · cases h
      · next c2 hinc =>
        simp only [Option.some.injEq] at h
        obtain ⟨k1, k2, k3, k4, k5⟩ := inc_single_ready c0 P hinv
          (by rw [hceq]; show 1 ≤ 126; omega) (by rw [hceq]) c2 hinc
        have hu : c2.user6bits = user6 := by
          rw [k4, hceq]
          show user6 % 256 = user6
          omega
        have htag : tagByte c2.user6bits c2.encoding ≠ 0 := by
          rw [hu]
          have he : c2.encoding.toNat < 4 := by
            cases c2.encoding <;> decide
          exact (tag_bits user6 (by omega) _ he).2.2 hu1
        rw [← h] at hr
        have hnz := end_nonzero c2 k1 k2 k3 htag hr
        subst h
        cases hL : (dzcobs_encode_inc_end c2).outSizeEncoded with
        | none =>
          exfalso
          obtain ⟨e1, e2⟩ := end_success_inv c2 hr
          unfold dzcobs_encode_inc_end at hL
          rw [if_neg (by omega), if_neg e2] at hL
          cases hL
        | some L =>
          refine ⟨L, rfl, ?_⟩
          intro i hi
          apply hnz
          unfold sEndResult.frame frameOf
          rw [hL]
          exact List.mem_map.mpr ⟨i, List.mem_range.mpr hi, rfl⟩
      · next r1 c2 hne hinc =>
        exfalso
        simp only [Option.some.injEq] at h
        rw [← h] at hr
        have : r1 = DZCOBS_RET_SUCCESS := hr
        subst this
        exact hne rfl
  · exfalso
    unfold encodeFrame dzcobs_encode_inc_begin at h
    rw [if_pos (by omega)] at h
    simp only [Option.some.injEq] at h
    rw [← h] at hr
    cases hr

/-- C8. Size bound, PLAIN: for every payload of length `n` encoded with `DZCOBS_PLAIN` in
a single feed, when `dzcobs_encode_inc_end` returns SUCCESS the encoded length it reports
is at most `DZCOBS_MAX_ENCODED_SIZE(n) + DZCOBS_FRAME_HEADER_SIZE`, which is
`n + ceil(n/127) + [n = 0] + 2`. -/
theorem plain_size_bound (ctx0 : sDZCOBS_ctx) (P : List Nat) (user6 : Nat)
    (aDstBuf : Nat → Nat) (aDstBufSize : Nat) (r : sEndResult)
    (h : encodeFrame ctx0 DZCOBS_PLAIN aDstBuf aDstBufSize user6 [P] = some r)
    (hr : r.ret = DZCOBS_RET_SUCCESS) :
    ∃ L, r.outSizeEncoded = some L ∧
      L ≤ DZCOBS_MAX_ENCODED_SIZE P.length + DZCOBS_FRAME_HEADER_SIZE ∧
      DZCOBS_MAX_ENCODED_SIZE P.length + DZCOBS_FRAME_HEADER_SIZE =
        P.length + (P.length + 126) / 127 + (if P.length = 0 then 1 else 0) + 2 := by
  by_cases hsize : 2 ≤ aDstBufSize
  · rw [encodeFrame_plain_single ctx0 aDstBuf aDstBufSize user6 P hsize] at h
    simp only [Option.some.injEq] at h
    subst h
    have hinv0 := begunCtx_inv ctx0 DZCOBS_PLAIN aDstBuf aDstBufSize user6 hsize (by simp)
    obtain ⟨d1, l1, hinv, hbody, _⟩ :=
      plain_loop_inv P _ [] [] hinv0 (Or.inl (by simp)) (by simp)
    rw [List.nil_append] at hbody
    have hceq := begunCtx_eq ctx0 DZCOBS_PLAIN aDstBuf aDstBufSize user6 hsize (by simp)
    generalize begunCtx ctx0 DZCOBS_PLAIN aDstBuf aDstBufSize user6 = c0 at hinv hr hceq ⊢
    generalize hs1 : dzcobs_encode_inc_plain_loop P (sEncVars.ofCtx c0) = s1 at hinv hr ⊢
    have hflag : s1.isLastCodeDictionary = false := by
      rw [← hs1, plain_loop_flag, hceq]
      rfl
    obtain ⟨e1, e2⟩ := end_success_inv _ hr
    obtain ⟨_, hr2, _⟩ := end_not_dict (s1.toCtx c0) d1 l1 hinv hflag e1 e2
    refine ⟨_, hr2, ?_, ?_⟩
    · rw [hbody]
      exact max_size_bound P.length _ (by simpa using plainBody_length P [])
    · unfold DZCOBS_MAX_ENCODED_SIZE DZCOBS_MAX_OVERHEAD Z_DZCOBS_DIV_ROUND_UP
        DZCOBS_ONE_BYTE_OVERHEAD_EVERY DZCOBS_FRAME_HEADER_SIZE
      rfl
  · exfalso
    unfold encodeFrame dzcobs_encode_inc_begin at h
    rw [if_pos (by omega)] at h
    simp only [Option.some.injEq] at h
    rw [← h] at hr
    cases hr

/-- C1, instance: payload `41 00 42`, `user6 = 0x3F`, a 7-byte destination buffer and a
3-byte output buffer. -/
theorem plain_roundtrip_single_feed_witness :
    (1 ≤ 0x3F ∧ 0x3F ≤ 63 ∧
      DZCOBS_MAX_ENCODED_SIZE [0x41, 0x00, 0x42].length + DZCOBS_FRAME_HEADER_SIZE ≤ 7 ∧
      max [0x41, 0x00, 0x42].length 1 ≤ 3 ∧ 3 < SIZE_T_MOD) ∧
    ∃ r, encodeFrame zeroCtx DZCOBS_PLAIN guardMem 7 0x3F [[0x41, 0x00, 0x42]] = some r ∧
      r.ret = DZCOBS_RET_SUCCESS ∧
      dzcobs_decode
        { srcBufEncoded := r.frame, dstBufDecodedSize := 3, pDict := fun _ => none } =
        some { ret := DZCOBS_RET_SUCCESS, outDecodedLen := some [0x41, 0x00, 0x42].length,
               outUser6bit := some 0x3F, dstBufDecoded := [0x41, 0x00, 0x42] } :=
  ⟨by decide,
   plain_roundtrip_single_feed zeroCtx [0x41, 0x00, 0x42] 0x3F (by decide) (by decide)
     guardMem 7 (by decide) 3 (by decide) (by decide) (fun _ => none)⟩

/-- C4, instance: payload `12 01 01 00 02 00 02` in dictionary mode with the test
dictionary gives the frame `02 12 80 01 81 FD 5C`. -/
theorem frame_has_no_zero_byte_witness :
    (1 ≤ 0x3F ∧ 0x3F ≤ 63) ∧
    ∃ r, encodeFrame testDictCtx DZCOBS_USING_DICT_1 guardMem 16 0x3F
        [[0x12, 0x01, 0x01, 0x00, 0x02, 0x00, 0x02]] = some r ∧
      r.ret = DZCOBS_RET_SUCCESS ∧
      ∃ L, r.outSizeEncoded = some L ∧ ∀ i, i < L → r.ctx.pDst i ≠ 0 :=
  ⟨by decide, _, rfl, rfl,
   frame_has_no_zero_byte testDictCtx DZCOBS_USING_DICT_1 guardMem 16 0x3F (by decide)
     (by decide) [0x12, 0x01, 0x01, 0x00, 0x02, 0x00, 0x02] _ rfl rfl⟩

/-- C8, instance: payload `41 42 00 43` gives a 7-byte frame, the bound being 7. -/
theorem plain_size_bound_witness :
    ∃ r, encodeFrame zeroCtx DZCOBS_PLAIN guardMem 16 0x3F [[0x41, 0x42, 0x00, 0x43]] = some r ∧
      r.ret = DZCOBS_RET_SUCCESS ∧
      ∃ L, r.outSizeEncoded = some L ∧
        L ≤ DZCOBS_MAX_ENCODED_SIZE [0x41, 0x42, 0x00, 0x43].length +
          DZCOBS_FRAME_HEADER_SIZE ∧
        DZCOBS_MAX_ENCODED_SIZE [0x41, 0x42, 0x00, 0x43].length + DZCOBS_FRAME_HEADER_SIZE =
          [0x41, 0x42, 0x00, 0x43].length + ([0x41, 0x42, 0x00, 0x43].length + 126) / 127 +
            (if [0x41, 0x42, 0x00, 0x43].length = 0 then 1 else 0) + 2 :=
  ⟨_, rfl, rfl,
   plain_size_bound zeroCtx [0x41, 0x42, 0x00, 0x43] 0x3F guardMem 16 _ rfl rfl⟩

/-- C2, failing input: payload `41 00 01 01` with the test dictionary (which finds no word
at `41 ..` and `00 ..`, finds word 1 = `01 01` at `01 01`, and returns that word for index
0). The encoder closes the literal group with code `02` and puts the token right after it,
giving `02 41 80 FD EB`; the decoder cancels the pending zero at the token and returns
SUCCESS with the three bytes `41 01 01`. -/
theorem dict_roundtrip_drops_zero_before_word :
    s_TEST_Dictionary1.search [0x41, 0x00, 0x01, 0x01] = (0, 0) ∧
    s_TEST_Dictionary1.search [0x00, 0x01, 0x01] = (0, 0) ∧
    s_TEST_Dictionary1.search [0x01, 0x01] = (1, 2) ∧
    s_TEST_Dictionary1.get 0 = some [0x01, 0x01] ∧
    (encodeFrame testDictCtx DZCOBS_USING_DICT_1 guardMem 16 0x3F
        [[0x41, 0x00, 0x01, 0x01]]).map (fun r => (r.ret, r.frame)) =
      some (DZCOBS_RET_SUCCESS, [0x02, 0x41, 0x80, 0xFD, 0xEB]) ∧
    dzcobs_decode { srcBufEncoded := [0x02, 0x41, 0x80, 0xFD, 0xEB], dstBufDecodedSize := 4,
                    pDict := testDictCtx.pDict } =
      some { ret := DZCOBS_RET_SUCCESS, outDecodedLen := some 3, outUser6bit := some 0x3F,
             dstBufDecoded := [0x41, 0x01, 0x01] } := by
  decide

/-- C3, failing input: 254 bytes `01` fed in one call and a byte `00` fed in a second
call. Both feeds and end return SUCCESS with a 258-byte frame, and decoding it returns
SUCCESS with only the 254 bytes `01`: the final zero of the payload is lost. -/
theorem chunked_plain_feed_breaks_roundtrip :
    (encodeFrame zeroCtx DZCOBS_PLAIN guardMem 300 0x3F
        [List.replicate 254 0x01, [0x00]]).map
      (fun r => (r.ret, r.outSizeEncoded,
        dzcobs_decode { srcBufEncoded := r.frame, dstBufDecodedSize := 255,
                        pDict := fun _ => none })) =
      some (DZCOBS_RET_SUCCESS, some 258,
        some { ret := DZCOBS_RET_SUCCESS, outDecodedLen := some 254, outUser6bit := some 0x3F,
               dstBufDecoded := List.replicate 254 0x01 }) := by
  decide!

/-- C5, failing inputs: capacity 2 with an empty PLAIN payload, and capacity 3 with the
PLAIN payload `41`. In both, begin, feed and end return SUCCESS, the reported length is
capacity + 1, and the byte at offset `capacity` holds the hash byte instead of the guard
byte that was there. -/
theorem encode_end_writes_past_capacity :
    (encodeFrame zeroCtx DZCOBS_PLAIN guardMem 2 0x3F [[]]).map
        (fun r => (r.ret, r.outSizeEncoded, r.ctx.pDstEnd, r.frame)) =
      some (DZCOBS_RET_SUCCESS, some 3, 2, [0x01, 0xFC, 0x92]) ∧
    (encodeFrame zeroCtx DZCOBS_PLAIN guardMem 3 0x3F [[0x41]]).map
        (fun r => (r.ret, r.outSizeEncoded, r.ctx.pDstEnd, r.frame)) =
      some (DZCOBS_RET_SUCCESS, some 4, 3, [0x02, 0x41, 0xFC, 0x54]) ∧
    guardMem 2 = 0xEE ∧ guardMem 3 = 0xEE := by
  decide

/-- C6, failing input: the frame `02 41 01 FC F9` (PLAIN) and the frame `02 41 01 FD A0`
(dictionary mode) decoded into a 1-byte output buffer. Both return SUCCESS with decoded
length 2: the synthesized zero was stored at output index 1. -/
theorem decode_writes_past_capacity :
    dzcobs_decode { srcBufEncoded := [0x02, 0x41, 0x01, 0xFC, 0xF9], dstBufDecodedSize := 1,
                    pDict := fun _ => none } =
      some { ret := DZCOBS_RET_SUCCESS, outDecodedLen := some 2, outUser6bit := some 0x3F,
             dstBufDecoded := [0x41, 0x00] } ∧
    dzcobs_decode { srcBufEncoded := [0x02, 0x41, 0x01, 0xFD, 0xA0], dstBufDecodedSize := 1,
                    pDict := testDictCtx.pDict } =
      some { ret := DZCOBS_RET_SUCCESS, outDecodedLen := some 2, outUser6bit := some 0x3F,
             dstBufDecoded := [0x41, 0x00] } := by
  decide

/-- C7, failing input: a context begun with capacity 2 (PLAIN) and the chunk `01 02 03`.
The feed returns SUCCESS, leaves the write cursor at offset 4, and the offsets 2 and 3,
which lie beyond the buffer, hold `02` and `03`. The same happens in dictionary mode. -/
theorem encode_inc_overruns_without_error :
    (dzcobs_encode_inc (begunCtx zeroCtx DZCOBS_PLAIN guardMem 2 0x3F)
        [0x01, 0x02, 0x03]).map
        (fun p => (p.1, p.2.pDstEnd, p.2.pCurDst, [p.2.pDst 1, p.2.pDst 2, p.2.pDst 3])) =
      some (DZCOBS_RET_SUCCESS, 2, 4, [0x01, 0x02, 0x03]) ∧
    (dzcobs_encode_inc (begunCtx testDictCtx DZCOBS_USING_DICT_1 guardMem 2 0x3F)
        [0x05, 0x06, 0x07]).map
        (fun p => (p.1, p.2.pDstEnd, p.2.pCurDst, [p.2.pDst 1, p.2.pDst 2, p.2.pDst 3])) =
      some (DZCOBS_RET_SUCCESS, 2, 4, [0x05, 0x06, 0x07]) := by
  decide

/-- C9, failing input: 127 bytes `41` in dictionary mode with the test dictionary, which
has no word starting with `41`. The frame has 131 bytes, one more than
`DZCOBS_MAX_ENCODED_SIZE( 127 ) + DZCOBS_FRAME_HEADER_SIZE = 130`. -/
theorem dict_frame_exceeds_max_encoded_size :
    (encodeFrame testDictCtx DZCOBS_USING_DICT_1 guardMem 200 0x3F
        [List.replicate 127 0x41]).map (fun r => (r.ret, r.outSizeEncoded)) =
      some (DZCOBS_RET_SUCCESS, some 131) ∧
    DZCOBS_MAX_ENCODED_SIZE (List.replicate 127 0x41).length + DZCOBS_FRAME_HEADER_SIZE = 130 := by
  decide!

/-- C10, failing input: `user6bits = 64` (and `255`) on a context that holds the PLAIN
payload `41`. End returns SUCCESS; with 64 the tag byte of the frame is `00`. -/
theorem encode_end_accepts_user6bits_64 :
    (encodeFrame zeroCtx DZCOBS_PLAIN guardMem 16 64 [[0x41]]).map
        (fun r => (r.ret, r.frame)) =
      some (DZCOBS_RET_SUCCESS, [0x02, 0x41, 0x00, 0x67]) ∧
    (encodeFrame zeroCtx DZCOBS_PLAIN guardMem 16 255 [[0x41]]).map
        (fun r => (r.ret, r.frame)) =
      some (DZCOBS_RET_SUCCESS, [0x02, 0x41, 0xFC, 0x54]) ∧
    (encodeFrame zeroCtx DZCOBS_PLAIN guardMem 16 0 [[0x41]]).map (fun r => r.ret) =
      some DZCOBS_RET_ERR_INVALID_USER6BITS := by
  decide

theorem slice_split (m : Nat → Nat) (a n : Nat) (h : a < n) :
    slice m 0 n = slice m 0 a ++ m a :: slice m (a + 1) (n - (a + 1)) := by
  have hn : n = a + ((n - (a + 1)) + 1) := by omega
  conv => lhs; rw [hn]
  rw [slice_add, Nat.zero_add, slice_cons]

theorem frameInv_close {Q : Nat → Prop} {δ : Nat} {s : sEncVars} (hQ : ∀ n, n < 256 → Q n)
    (h : FrameInv Q δ s) : FrameInv Q δ (closeGroup s) := by
  obtain ⟨h1, h2, h3, h4, h5⟩ := h
  refine ⟨?_, ?_, ?_, ?_, ?_⟩
  · show s.pCurDst < s.pCurDst + 1
    omega
  · show 1 < 256
    omega
  · intro i hi hne
    have hi1 : i < s.pCurDst + 1 := hi
    have hne1 : i ≠ s.pCurDst := hne
    show Q (store s.pDst s.pCodeDst s.code i)
    by_cases hs : i = s.pCodeDst
    · rw [hs, store_same]; exact hQ _ h2
    · rw [store_other _ _ _ _ hs]
      exact h3 i (by omega) hs
  · show (s.hashsum + DZCOBS_HASH8 s.code) % 256 =
      (hashSum (slice (store s.pDst s.pCodeDst s.code) 0 s.pCurDst) +
        hashSum (slice (store s.pDst s.pCodeDst s.code) (s.pCurDst + 1)
          (s.pCurDst + 1 - (s.pCurDst + 1))) + δ) % 256
    rw [slice_split _ s.pCodeDst s.pCurDst h1, store_same,
      slice_store _ _ _ _ _ (Or.inr (by omega)), slice_store _ _ _ _ _ (Or.inl (by omega)),
      Nat.sub_self, hashSum_append, hashSum_cons, h4]
    simp only [slice, List.range_zero, List.map_nil, hashSum_nil]
    omega
  · intro _
    exact ⟨rfl, by show 1 ≤ s.pCurDst; omega⟩

theorem frameInv_lit {Q : Nat → Prop} {δ : Nat} {s : sEncVars}
    (h : FrameInv Q δ s) (hf : s.isLastCodeDictionary = false) (b : Nat) (hb : Q b) :
    FrameInv Q δ (putLiteral s b) := by
  obtain ⟨h1, h2, h3, h4, h5⟩ := h
  refine ⟨?_, ?_, ?_, ?_, ?_⟩
  · show s.pCodeDst < s.pCurDst + 1
    omega
  · show (s.code + 1) % 256 < 256
    omega
  · intro i hi hne
    have hi1 : i < s.pCurDst + 1 := hi
    have hne1 : i ≠ s.pCodeDst := hne
    show Q (store s.pDst s.pCurDst b i)
    by_cases hs : i = s.pCurDst
    · rw [hs, store_same]; exact hb
    · rw [store_other _ _ _ _ hs]
      exact h3 i (by omega) hne1
  · show (s.hashsum + DZCOBS_HASH8 b) % 256 =
      (hashSum (slice (store s.pDst s.pCurDst b) 0 s.pCodeDst) +
        hashSum (slice (store s.pDst s.pCurDst b) (s.pCodeDst + 1)
          (s.pCurDst + 1 - (s.pCodeDst + 1))) + δ) % 256
    have hk : s.pCurDst + 1 - (s.pCodeDst + 1) = (s.pCurDst - (s.pCodeDst + 1)) + 1 := by omega
    rw [hk, slice_succ, slice_store _ _ _ _ _ (Or.inr (by omega)),
      slice_store _ _ _ _ _ (Or.inr (by omega)), hashSum_append, hashSum_cons, hashSum_nil,
      h4]
    have hidx : s.pCodeDst + 1 + (s.pCurDst - (s.pCodeDst + 1)) = s.pCurDst := by omega
    rw [hidx, store_same]
    omega
  · intro hh
    have : s.isLastCodeDictionary = true := hh
    rw [hf] at this
    cases this

theorem dictEntry_lt (x : Nat) (hx : x < 256) : DZCOBS_DICTIONARY_BITMASK ||| x < 256 := by
  have h1 : DZCOBS_DICTIONARY_BITMASK < 2 ^ 8 := by decide
  have h2 : x < 2 ^ 8 := by omega
  have := Nat.or_lt_two_pow h1 h2
  omega

theorem frameInv_pending {Q : Nat → Prop} {s : sEncVars} (h : FrameInv Q 0 s) (x : Nat) :
    FrameInv Q (DZCOBS_HASH8 x)
      { s with hashsum := (s.hashsum + DZCOBS_HASH8 x) % 256 } := by
  obtain ⟨h1, h2, h3, h4, h5⟩ := h
  refine ⟨h1, h2, h3, ?_, h5⟩
  show (s.hashsum + DZCOBS_HASH8 x) % 256 =
    (hashSum (slice s.pDst 0 s.pCodeDst) +
      hashSum (slice s.pDst (s.pCodeDst + 1) (s.pCurDst - (s.pCodeDst + 1))) +
      DZCOBS_HASH8 x) % 256
  rw [h4]
  omega

theorem frameInv_token {Q : Nat → Prop} {s : sEncVars} {tok : Nat}
    (hQ : ∀ n, n < 256 → Q n) (h : FrameInv Q (DZCOBS_HASH8 tok) s) (ht : tok < 256) :
    FrameInv Q 0
      { s with
        pDst := store s.pDst s.pCodeDst tok
        pCodeDst := s.pCurDst
        pCurDst := s.pCurDst + 1
        isLastCodeDictionary := true } := by
  obtain ⟨h1, h2, h3, h4, h5⟩ := h
  refine ⟨?_, h2, ?_, ?_, ?_⟩
  · show s.pCurDst < s.pCurDst + 1
    omega
  · intro i hi hne
    have hi1 : i < s.pCurDst + 1 := hi
    have hne1 : i ≠ s.pCurDst := hne
    show Q (store s.pDst s.pCodeDst tok i)
    by_cases hs : i = s.pCodeDst
    · rw [hs, store_same]; exact hQ _ ht
    · rw [store_other _ _ _ _ hs]
      exact h3 i (by omega) hs
  · show s.hashsum =
      (hashSum (slice (store s.pDst s.pCodeDst tok) 0 s.pCurDst) +
        hashSum (slice (store s.pDst s.pCodeDst tok) (s.pCurDst + 1)
          (s.pCurDst + 1 - (s.pCurDst + 1))) + 0) % 256
    rw [slice_split _ s.pCodeDst s.pCurDst h1, store_same,
      slice_store _ _ _ _ _ (Or.inr (by omega)), slice_store _ _ _ _ _ (Or.inl (by omega)),
      Nat.sub_self, hashSum_append, hashSum_cons, h4]
    simp only [slice, List.range_zero, List.map_nil, hashSum_nil]
    omega
  · intro _
    exact ⟨rfl, by show 1 ≤ s.pCurDst; omega⟩

theorem plain_loop_frameInv {Q : Nat → Prop} (hQ : ∀ n, n < 256 → Q n) (src : List Nat) :
    ∀ s : sEncVars, (∀ b ∈ src, Q b) → FrameInv Q 0 s → s.isLastCodeDictionary = false →
    FrameInv Q 0 (dzcobs_encode_inc_plain_loop src s) := by
  induction src with
  | nil => intro s _ h _; exact h
  | cons b rest ih =>
    intro s hb h hf
    have hrest : ∀ x ∈ rest, Q x := fun x hx => hb x (by simp [hx])
    unfold dzcobs_encode_inc_plain_loop
    split
    · exact ih _ hrest (frameInv_close hQ h) hf
    · simp only
      split
      · exact ih _ hrest (frameInv_close hQ (frameInv_lit h hf b (hb b (by simp)))) hf
      · exact ih _ hrest (frameInv_lit h hf b (hb b (by simp))) hf

theorem dict_loop_frameInv {Q : Nat → Prop} (hQ : ∀ n, n < 256 → Q n) (d : sDICT_ctx) :
    ∀ (fuel : Nat) (src : List Nat) (s s1 : sEncVars), (∀ b ∈ src, Q b) → FrameInv Q 0 s →
    dzcobs_encode_inc_dictionary_loop d fuel src s = some s1 → FrameInv Q 0 s1 := by
  intro fuel
  induction fuel with
  | zero =>
    intro src s s1 _ hinv h
    cases src with
    | nil =>
      simp only [dzcobs_encode_inc_dictionary_loop, Option.some.injEq] at h
      subst h
      exact hinv
    | cons b rest => simp [dzcobs_encode_inc_dictionary_loop] at h
  | succ fuel ih =>
    intro src s s1 hb hinv h
    cases src with
    | nil =>
      simp only [dzcobs_encode_inc_dictionary_loop, Option.some.injEq] at h
      subst h
      exact hinv
    | cons b rest =>
      have hrest : ∀ x ∈ rest, Q x := fun x hx => hb x (by simp [hx])
      simp only [dzcobs_encode_inc_dictionary_loop] at h
      split at h
      · split at h
        · cases h
        · refine ih _ _ _ ?_ ?_ h
          · intro x hx
            exact hb x (List.mem_of_mem_drop hx)
          · have htok : DZCOBS_DICTIONARY_BITMASK ||| ((d.search (b :: rest)).1 % 256 - 1) < 256 :=
              dictEntry_lt _ (by omega)
            have hp := frameInv_pending hinv
              (DZCOBS_DICTIONARY_BITMASK ||| ((d.search (b :: rest)).1 % 256 - 1))
            by_cases hc1 : s.code = 1
            · simp only [hc1, ne_eq, not_true_eq_false, if_false]
              have := frameInv_token hQ hp htok
              simp only [hc1] at this
              exact this
            · simp only [hc1, ne_eq, not_false_eq_true, if_true]
              exact frameInv_token hQ (frameInv_close hQ hp) htok
      · have h0 : FrameInv Q 0 { s with isLastCodeDictionary := false } :=
          ⟨hinv.hslot, hinv.hcode, hinv.hbytes, hinv.hhash, fun hh => by cases hh⟩
        split at h
        · exact ih _ _ _ hrest (frameInv_close hQ h0) h
        · split at h
          · exact ih _ _ _ hrest
              (frameInv_close hQ (frameInv_lit h0 rfl b (hb b (by simp)))) h
          · exact ih _ _ _ hrest (frameInv_lit h0 rfl b (hb b (by simp))) h

theorem inc_ctxInv {Q : Nat → Prop} (hQ : ∀ n, n < 256 → Q n) (c : sDZCOBS_ctx)
    (P : List Nat) (hP : ∀ b ∈ P, Q b) (hinv : CtxInv Q c) (r : eDZCOBS_ret)
    (c2 : sDZCOBS_ctx) (h : dzcobs_encode_inc c P = some (r, c2)) :
    CtxInv Q c2 ∧ c2.user6bits = c.user6bits ∧ c2.encoding = c.encoding ∧
      c2.encFunc = c.encFunc ∧ c2.pDict = c.pDict ∧ c2.pDstEnd = c.pDstEnd := by
  unfold dzcobs_encode_inc at h
  split at h
  · simp only [Option.some.injEq, Prod.mk.injEq] at h
    obtain ⟨_, rfl⟩ := h
    exact ⟨hinv, rfl, rfl, rfl, rfl, rfl⟩
  · next f hf =>
    split at h
    · simp only [Option.some.injEq, Prod.mk.injEq] at h
      obtain ⟨_, rfl⟩ := h
      exact ⟨hinv, rfl, rfl, rfl, rfl, rfl⟩
    · split at h
      · simp only [dzcobs_encode_inc_plain, Option.some.injEq, Prod.mk.injEq] at h
        obtain ⟨_, rfl⟩ := h
        have hfl : c.isLastCodeDictionary = false := hinv.2 hf
        refine ⟨⟨plain_loop_frameInv hQ P _ hP hinv.1 hfl, ?_⟩, rfl, rfl, rfl, rfl, rfl⟩
        intro _
        show (dzcobs_encode_inc_plain_loop P (sEncVars.ofCtx c)).isLastCodeDictionary = false
        rw [plain_loop_flag]
        exact hfl
      · unfold dzcobs_encode_inc_dictionary at h
        split at h
        · cases h
        · next d hd =>
          split at h
          · cases h
          · next s hs =>
            simp only [Option.some.injEq, Prod.mk.injEq] at h
            obtain ⟨_, rfl⟩ := h
            refine ⟨⟨dict_loop_frameInv hQ d _ _ _ _ hP hinv.1 hs, ?_⟩, rfl, rfl, rfl, rfl, rfl⟩
            intro hp
            have : c.encFunc = some dzcobs_encode_inc_funcPtr.plain := hp
            rw [hf] at this
            cases this

theorem feedAll_ctxInv {Q : Nat → Prop} (hQ : ∀ n, n < 256 → Q n) (chunks : List (List Nat)) :
    ∀ (c : sDZCOBS_ctx), (∀ chunk ∈ chunks, ∀ b ∈ chunk, Q b) → CtxInv Q c →
    ∀ (r : eDZCOBS_ret) (c2 : sDZCOBS_ctx), feedAll chunks c = some (r, c2) →
    CtxInv Q c2 ∧ c2.user6bits = c.user6bits ∧ c2.encoding = c.encoding ∧
      c2.encFunc = c.encFunc ∧ c2.pDict = c.pDict ∧ c2.pDstEnd = c.pDstEnd := by
  induction chunks with
  | nil =>
    intro c _ hinv r c2 h
    simp only [feedAll, Option.some.injEq, Prod.mk.injEq] at h
    obtain ⟨_, rfl⟩ := h
    exact ⟨hinv, rfl, rfl, rfl, rfl, rfl⟩
  | cons P rest ih =>
    intro c hb hinv r c2 h
    have hP : ∀ b ∈ P, Q b := hb P (by simp)
    have hrest : ∀ chunk ∈ rest, ∀ b ∈ chunk, Q b := fun ch hch => hb ch (by simp [hch])
    unfold feedAll at h
    split at h
    · cases h
    · next c1 hinc =>
      obtain ⟨k1, k2, k3, k4, k5, k6⟩ := inc_ctxInv hQ c P hP hinv _ c1 hinc
      obtain ⟨j1, j2, j3, j4, j5, j6⟩ := ih c1 hrest k1 r c2 h
      exact ⟨j1, by rw [j2, k2], by rw [j3, k3], by rw [j4, k4], by rw [j5, k5], by rw [j6, k6]⟩
    · next r1 c1 hne hinc =>
      simp only [Option.some.injEq, Prod.mk.injEq] at h
      obtain ⟨_, rfl⟩ := h
      exact inc_ctxInv hQ c P hP hinv _ _ hinc

theorem mem_slice {m : Nat → Nat} {a k x : Nat} (h : x ∈ slice m a k) :
    ∃ j, j < k ∧ m (a + j) = x := by
  unfold slice at h
  obtain ⟨j, hj, hx⟩ := List.mem_map.mp h
  exact ⟨j, List.mem_range.mp hj, hx⟩

theorem end_frame {Q : Nat → Prop} (hQ : ∀ n, n < 256 → Q n) (c : sDZCOBS_ctx)
    (hinv : FrameInv Q 0 (sEncVars.ofCtx c))
    (hret : (dzcobs_encode_inc_end c).ret = DZCOBS_RET_SUCCESS) :
    ∃ body, body ≠ [] ∧ (∀ b ∈ body, Q b) ∧
      (dzcobs_encode_inc_end c).outSizeEncoded = some (body.length + 2) ∧
      (dzcobs_encode_inc_end c).frame =
        body ++ [tagByte c.user6bits c.encoding,
          hashByte ((hashSum body + DZCOBS_HASH8 (tagByte c.user6bits c.encoding)) % 256)] := by
  obtain ⟨e1, e2⟩ := end_success_inv c hret
  have hr : ¬ (c.pCurDst + 1 > c.pDstEnd) := by omega
  have hslot : c.pCodeDst < c.pCurDst := hinv.hslot
  have hcode : c.code < 256 := hinv.hcode
  have hbytes : ∀ i, i < c.pCurDst → i ≠ c.pCodeDst → Q (c.pDst i) := hinv.hbytes
  have hhash : c.hashsum =
    (hashSum (slice c.pDst 0 c.pCodeDst) +
      hashSum (slice c.pDst (c.pCodeDst + 1) (c.pCurDst - (c.pCodeDst + 1))) + 0) % 256 :=
    hinv.hhash
  cases hfl : c.isLastCodeDictionary
  · refine ⟨slice (store c.pDst c.pCodeDst c.code) 0 c.pCurDst, ?_, ?_, ?_, ?_⟩
    · intro h0
      have := congrArg List.length h0
      rw [slice_length] at this
      simp at this
      omega
    · intro b hb
      obtain ⟨j, hj, rfl⟩ := mem_slice hb
      rw [Nat.zero_add]
      by_cases hs : j = c.pCodeDst
      · rw [hs, store_same]; exact hQ _ hcode
      · rw [store_other _ _ _ _ hs]
        exact hbytes j hj hs
    · unfold dzcobs_encode_inc_end
      simp only [hr, e2, hfl, if_false, Bool.false_eq_true, slice_length]
    · have hsum : hashSum (slice (store c.pDst c.pCodeDst c.code) 0 c.pCurDst) =
          hashSum (slice c.pDst 0 c.pCodeDst) + (DZCOBS_HASH8 c.code +
            hashSum (slice c.pDst (c.pCodeDst + 1) (c.pCurDst - (c.pCodeDst + 1)))) := by
        rw [slice_split _ c.pCodeDst c.pCurDst hslot, store_same,
          slice_store _ _ _ _ _ (Or.inr (by omega)), slice_store _ _ _ _ _ (Or.inl (by omega)),
          hashSum_append, hashSum_cons]
      unfold sEndResult.frame dzcobs_encode_inc_end
      simp only [hr, e2, hfl, if_false, Bool.false_eq_true, Option.getD_some,
        frameOf_eq_slice]
      rw [slice_succ, slice_succ, Nat.zero_add, Nat.zero_add, store_same,
        slice_store _ _ _ _ _ (Or.inr (by omega)), slice_store _ _ _ _ _ (Or.inr (by omega)),
        store_other _ _ _ _ (by omega), store_same, hsum, hhash]
      have hmod : ((hashSum (slice c.pDst 0 c.pCodeDst) +
            hashSum (slice c.pDst (c.pCodeDst + 1) (c.pCurDst - (c.pCodeDst + 1))) + 0) % 256 +
          DZCOBS_HASH8 c.code) % 256 =
          (hashSum (slice c.pDst 0 c.pCodeDst) + (DZCOBS_HASH8 c.code +
            hashSum (slice c.pDst (c.pCodeDst + 1) (c.pCurDst - (c.pCodeDst + 1))))) % 256 := by
        omega
      rw [hmod]
      simp [tagByte, hashByte]
  · obtain ⟨hl1, hl2⟩ := hinv.hlast hfl
    have hl : c.pCurDst = c.pCodeDst + 1 := hl1
    have hl0 : 1 ≤ c.pCodeDst := hl2
    have hcur : c.pCurDst - 1 = c.pCodeDst := by omega
    refine ⟨slice c.pDst 0 c.pCodeDst, ?_, ?_, ?_, ?_⟩
    · intro h0
      have := congrArg List.length h0
      rw [slice_length] at this
      simp at this
      omega
    · intro b hb
      obtain ⟨j, hj, rfl⟩ := mem_slice hb
      rw [Nat.zero_add]
      exact hbytes j (by omega) (by omega)
    · unfold dzcobs_encode_inc_end
      simp only [hr, e2, hfl, if_false, if_true, slice_length, hcur]
    · have hB : c.pCurDst - (c.pCodeDst + 1) = 0 := by omega
      rw [hB] at hhash
      simp only [slice, List.range_zero, List.map_nil, hashSum_nil, Nat.add_zero] at hhash
      unfold sEndResult.frame dzcobs_encode_inc_end
      simp only [hr, e2, hfl, if_false, if_true, Option.getD_some, frameOf_eq_slice, hcur]
      rw [slice_succ, slice_succ, Nat.zero_add, Nat.zero_add, store_same,
        slice_store _ _ _ _ _ (Or.inr (by omega)), slice_store _ _ _ _ _ (Or.inr (by omega)),
        store_other _ _ _ _ (by omega), store_same]
      simp only [slice] at hhash ⊢
      rw [hhash]
      simp [tagByte, hashByte]

theorem decodeLiterals_length (i : Nat) : ∀ (rd out : List Nat),
    (decodeLiterals i rd out).2.1.length ≤ rd.length := by
  induction i with
  | zero => intro rd out; simp [decodeLiterals]
  | succ i ih =>
    intro rd out
    cases rd with
    | nil => simp [decodeLiterals]
    | cons b rd =>
      simp only [decodeLiterals]
      split
      · simp
      · have := ih rd (out ++ [b])
        simp only [List.length_cons]
        omega

theorem decode_plain_loop_total (dsz : Nat) : ∀ (fuel : Nat) (rd out : List Nat),
    rd.length ≤ fuel →
    ∃ r, dzcobs_decode_plain_loop dsz fuel rd out = some r ∧ LoopRet r.1 := by
  intro fuel
  induction fuel with
  | zero =>
    intro rd out h
    have : rd = [] := List.length_eq_zero.mp (by omega)
    subst this
    exact ⟨(DZCOBS_RET_SUCCESS, out), by simp [dzcobs_decode_plain_loop], Or.inl rfl⟩
  | succ fuel ih =>
    intro rd out h
    cases rd with
    | nil =>
      exact ⟨(DZCOBS_RET_SUCCESS, out), by simp [dzcobs_decode_plain_loop], Or.inl rfl⟩
    | cons c rd =>
      simp only [List.length_cons] at h
      simp only [dzcobs_decode_plain_loop]
      have hlen := decodeLiterals_length (c - 1) rd out
      generalize decodeLiterals (c - 1) rd out = res at hlen ⊢
      obtain ⟨ok, rd1, out1⟩ := res
      simp only at hlen
      cases ok <;> simp only <;> split_ifs <;>
        first
          | exact ⟨_, rfl, by simp [LoopRet]⟩
          | exact ih _ _ (by omega)

theorem decode_dictionary_loop_total (dsz : Nat) (d : sDICT_ctx) :
    ∀ (fuel : Nat) (rd out : List Nat) (f1 f2 : Bool), rd.length ≤ fuel →
    ∃ r, dzcobs_decode_dictionary_loop dsz d fuel rd out f1 f2 = some r ∧ LoopRet r.1 := by
  intro fuel
  induction fuel with
  | zero =>
    intro rd out f1 f2 h
    have : rd = [] := List.length_eq_zero.mp (by omega)
    subst this
    exact ⟨(DZCOBS_RET_SUCCESS, out), by simp [dzcobs_decode_dictionary_loop], Or.inl rfl⟩
  | succ fuel ih =>
    intro rd out f1 f2 h
    cases rd with
    | nil =>
      exact ⟨(DZCOBS_RET_SUCCESS, out), by simp [dzcobs_decode_dictionary_loop], Or.inl rfl⟩
    | cons c rd =>
      simp only [List.length_cons] at h
      simp only [dzcobs_decode_dictionary_loop]
      by_cases h0 : c = 0
      · rw [if_pos h0]
        exact ⟨_, rfl, by simp [LoopRet]⟩
      rw [if_neg h0]
      by_cases h1 : remainOutput dsz out.length = 0 ∧ c ≠ 1 ∧ f1 = false
      · rw [if_pos h1]
        exact ⟨_, rfl, by simp [LoopRet]⟩
      rw [if_neg h1]
      by_cases h2 : c ≥ DZCOBS_DICTIONARY_BITMASK
      · rw [if_pos h2]
        repeat' split
        all_goals
          first
            | exact ⟨_, rfl, by simp [LoopRet]⟩
            | exact ih _ _ _ _ (by omega)
      rw [if_neg h2]
      have hlen := decodeLiterals_length (c - 1) rd (if f2 = true then out ++ [0] else out)
      generalize decodeLiterals (c - 1) rd (if f2 = true then out ++ [0] else out) = res
        at hlen ⊢
      obtain ⟨ok, rd1, out1⟩ := res
      simp only at hlen
      cases ok <;> simp only <;> split_ifs <;>
        first
          | exact ⟨_, rfl, by simp [LoopRet]⟩
          | exact ih _ _ _ _ (by omega)

theorem crc_rule (c recv : Nat) :
    ((c ≠ 0 ∧ c ≠ recv) ∨ (c = 0 ∧ recv ≠ DZCOBS_HASH_VALUE_WHEN_CRC_IS_ZERO)) ↔
      recv ≠ hashByte c := by
  unfold hashByte
  by_cases hc : c = 0
  · simp [hc]
  · simp only [hc, if_false, false_and, or_false, ne_eq, not_false_eq_true, true_and]
    constructor
    · intro h e; exact h e.symm
    · intro h e; exact h e.symm

theorem decode_bad_arg (ctx : sDZCOBS_decodectx)
    (h : ctx.dstBufDecodedSize = 0 ∨ ctx.srcBufEncoded.length < 3) :
    dzcobs_decode ctx = some (failResult DZCOBS_RET_ERR_BAD_ARG) := by
  unfold dzcobs_decode
  simp only [h, if_true, failResult]

theorem decode_zero_trailer (ctx : sDZCOBS_decodectx)
    (hargs : ¬ (ctx.dstBufDecodedSize = 0 ∨ ctx.srcBufEncoded.length < 3))
    (h : ctx.srcBufEncoded.getD (ctx.srcBufEncoded.length - 1) 0 = 0 ∨
      ctx.srcBufEncoded.getD (ctx.srcBufEncoded.length - 2) 0 = 0) :
    dzcobs_decode ctx = some (failResult DZCOBS_RET_ERR_BAD_ENCODED_PAYLOAD) := by
  unfold dzcobs_decode
  simp only [hargs, h, if_true, if_false, failResult]

theorem decode_crc (ctx : sDZCOBS_decodectx)
    (hargs : ¬ (ctx.dstBufDecodedSize = 0 ∨ ctx.srcBufEncoded.length < 3))
    (hz : ¬ (ctx.srcBufEncoded.getD (ctx.srcBufEncoded.length - 1) 0 = 0 ∨
      ctx.srcBufEncoded.getD (ctx.srcBufEncoded.length - 2) 0 = 0))
    (h : ctx.srcBufEncoded.getD (ctx.srcBufEncoded.length - 1) 0 ≠
      hashByte (hashSum (ctx.srcBufEncoded.take (ctx.srcBufEncoded.length - 1)) % 256)) :
    dzcobs_decode ctx = some (failResult DZCOBS_RET_ERR_CRC) := by
  have hc := (crc_rule _ _).mpr h
  rw [← checksumLoop_zero] at hc
  unfold dzcobs_decode
  simp only [hargs, hz, if_false]
  rw [if_pos hc]
  rfl

theorem decode_hash_ok (ctx : sDZCOBS_decodectx)
    (hargs : ¬ (ctx.dstBufDecodedSize = 0 ∨ ctx.srcBufEncoded.length < 3))
    (hz : ¬ (ctx.srcBufEncoded.getD (ctx.srcBufEncoded.length - 1) 0 = 0 ∨
      ctx.srcBufEncoded.getD (ctx.srcBufEncoded.length - 2) 0 = 0))
    (h : ctx.srcBufEncoded.getD (ctx.srcBufEncoded.length - 1) 0 =
      hashByte (hashSum (ctx.srcBufEncoded.take (ctx.srcBufEncoded.length - 1)) % 256)) :
    ∃ res, dzcobs_decode ctx = some res ∧ res.ret ≠ DZCOBS_RET_ERR_BAD_ARG ∧
      res.ret ≠ DZCOBS_RET_ERR_CRC ∧
      (res.ret = DZCOBS_RET_SUCCESS → res.outUser6bit =
        some ((ctx.srcBufEncoded.getD (ctx.srcBufEncoded.length - 2) 0 >>> 2) &&& 0x3F)) := by
  have hc : ¬ ((checksumLoop (ctx.srcBufEncoded.take (ctx.srcBufEncoded.length - 1)) 0 ≠ 0 ∧
      checksumLoop (ctx.srcBufEncoded.take (ctx.srcBufEncoded.length - 1)) 0 ≠
        ctx.srcBufEncoded.getD (ctx.srcBufEncoded.length - 1) 0) ∨
      (checksumLoop (ctx.srcBufEncoded.take (ctx.srcBufEncoded.length - 1)) 0 = 0 ∧
        ctx.srcBufEncoded.getD (ctx.srcBufEncoded.length - 1) 0 ≠
          DZCOBS_HASH_VALUE_WHEN_CRC_IS_ZERO)) := by
    intro hh
    have := (crc_rule _ _).mp hh
    rw [checksumLoop_zero] at this
    exact this h
  have hrep : ∀ (tag : Nat) (r : eDZCOBS_ret × List Nat), LoopRet r.1 →
      (decodeReport tag r).ret ≠ DZCOBS_RET_ERR_BAD_ARG ∧
      (decodeReport tag r).ret ≠ DZCOBS_RET_ERR_CRC ∧
      ((decodeReport tag r).ret = DZCOBS_RET_SUCCESS →
        (decodeReport tag r).outUser6bit = some ((tag >>> 2) &&& 0x3F)) := by
    intro tag r hr
    unfold decodeReport
    split
    · next hs => simp [hs]
    · next hs =>
      refine ⟨?_, ?_, fun h1 => absurd h1 hs⟩
      · rcases hr with h1 | h1 | h1 | h1 | h1 <;> simp [h1]
      · rcases hr with h1 | h1 | h1 | h1 | h1 <;> simp [h1]
  unfold dzcobs_decode
  simp only [hargs, hz, if_false]
  rw [if_neg hc]
  split
  · obtain ⟨r, hr1, hr2⟩ := decode_plain_loop_total ctx.dstBufDecodedSize
      (ctx.srcBufEncoded.take (ctx.srcBufEncoded.length - 2)).length
      (ctx.srcBufEncoded.take (ctx.srcBufEncoded.length - 2)) [] (Nat.le_refl _)
    refine ⟨decodeReport _ r, ?_, hrep _ r hr2⟩
    unfold dzcobs_decode_plain
    simp only [hr1, Option.map_some']
  · exact ⟨_, rfl, by simp, by simp, by simp⟩
  · split
    · exact ⟨_, rfl, by simp, by simp, by simp⟩
    · next d hd =>
      obtain ⟨r, hr1, hr2⟩ := decode_dictionary_loop_total ctx.dstBufDecodedSize d
        (ctx.srcBufEncoded.take (ctx.srcBufEncoded.length - 2)).length
        (ctx.srcBufEncoded.take (ctx.srcBufEncoded.length - 2)) [] false false (Nat.le_refl _)
      refine ⟨decodeReport _ r, ?_, hrep _ r hr2⟩
      unfold dzcobs_decode_dictionary
      simp only [hr1, Option.map_some']

/-- C11, failing input: the 3-byte frame `80 01 95` (token of word 1, tag byte `01`, i.e.
encoding DICT_1 with user bits 0, and a matching hash) decoded with the test dictionary in
slot 1. The tag byte is not zero, so the trailer check passes, and `dzcobs_decode` returns
SUCCESS with the bytes `01 01` and the user tag 0. -/
theorem decode_outputs_user_tag_zero :
    dzcobs_decode { srcBufEncoded := [0x80, 0x01, 0x95], dstBufDecodedSize := 4,
                    pDict := testDictCtx.pDict } =
      some { ret := DZCOBS_RET_SUCCESS, outDecodedLen := some 2, outUser6bit := some 0,
             dstBufDecoded := [0x01, 0x01] } := by
  decide

/-- C13, failing input: the payloads `41 01 01` and `41 00 01 01`, encoded in dictionary
mode with the test dictionary and `user6 = 0x3F`, one feed each. Both give the frame
`02 41 80 FD EB`. -/
theorem dict_encoding_not_injective :
    (encodeFrame testDictCtx DZCOBS_USING_DICT_1 guardMem 16 0x3F
        [[0x41, 0x01, 0x01]]).map (fun r => (r.ret, r.frame)) =
      some (DZCOBS_RET_SUCCESS, [0x02, 0x41, 0x80, 0xFD, 0xEB]) ∧
    (encodeFrame testDictCtx DZCOBS_USING_DICT_1 guardMem 16 0x3F
        [[0x41, 0x00, 0x01, 0x01]]).map (fun r => (r.ret, r.frame)) =
      some (DZCOBS_RET_SUCCESS, [0x02, 0x41, 0x80, 0xFD, 0xEB]) := by
  decide

/-- C15. Hash verification rule: for every input of at least 3 bytes with an output
capacity of at least 1 whose last two bytes are non-zero, `dzcobs_decode` returns a result,
and that result is `DZCOBS_RET_ERR_CRC` if and only if the last byte differs from
`hashByte h`, where `h` is the sum modulo 256 of `DZCOBS_HASH8` over the bytes `0 .. L-2`
and `hashByte` maps 0 to `0xFF` and every other value to itself. -/
theorem decode_crc_iff (ctx : sDZCOBS_decodectx) (hlen : 3 ≤ ctx.srcBufEncoded.length)
    (hcap : 1 ≤ ctx.dstBufDecodedSize)
    (hh : ctx.srcBufEncoded.getD (ctx.srcBufEncoded.length - 1) 0 ≠ 0)
    (ht : ctx.srcBufEncoded.getD (ctx.srcBufEncoded.length - 2) 0 ≠ 0) :
    ∃ res, dzcobs_decode ctx = some res ∧
      (res.ret = DZCOBS_RET_ERR_CRC ↔
        ctx.srcBufEncoded.getD (ctx.srcBufEncoded.length - 1) 0 ≠
          hashByte (hashSum (ctx.srcBufEncoded.take (ctx.srcBufEncoded.length - 1)) % 256)) := by
  have hargs : ¬ (ctx.dstBufDecodedSize = 0 ∨ ctx.srcBufEncoded.length < 3) := by omega
  have hz : ¬ (ctx.srcBufEncoded.getD (ctx.srcBufEncoded.length - 1) 0 = 0 ∨
      ctx.srcBufEncoded.getD (ctx.srcBufEncoded.length - 2) 0 = 0) := by
    intro h
    rcases h with h | h
    · exact hh h
    · exact ht h
  by_cases h : ctx.srcBufEncoded.getD (ctx.srcBufEncoded.length - 1) 0 =
      hashByte (hashSum (ctx.srcBufEncoded.take (ctx.srcBufEncoded.length - 1)) % 256)
  · obtain ⟨res, h1, _, h3, _⟩ := decode_hash_ok ctx hargs hz h
    exact ⟨res, h1, fun hc => absurd hc h3, fun hne => absurd h hne⟩
  · exact ⟨_, decode_crc ctx hargs hz h, fun _ => h, fun _ => rfl⟩

/-- C15, instance: the frame `02 41 FC 54` is accepted by the hash check, the same bytes
with the last one replaced by `55` are rejected with CRC. -/
theorem decode_crc_iff_witness :
    (3 ≤ [0x02, 0x41, 0xFC, 0x55].length ∧ 1 ≤ 1 ∧
      [0x02, 0x41, 0xFC, 0x55].getD ([0x02, 0x41, 0xFC, 0x55].length - 1) 0 ≠ 0 ∧
      [0x02, 0x41, 0xFC, 0x55].getD ([0x02, 0x41, 0xFC, 0x55].length - 2) 0 ≠ 0) ∧
    ∃ res, dzcobs_decode { srcBufEncoded := [0x02, 0x41, 0xFC, 0x55], dstBufDecodedSize := 1,
                           pDict := fun _ => none } = some res ∧
      (res.ret = DZCOBS_RET_ERR_CRC ↔
        [0x02, 0x41, 0xFC, 0x55].getD ([0x02, 0x41, 0xFC, 0x55].length - 1) 0 ≠
          hashByte (hashSum ([0x02, 0x41, 0xFC, 0x55].take
            ([0x02, 0x41, 0xFC, 0x55].length - 1)) % 256)) :=
  ⟨by decide,
   decode_crc_iff { srcBufEncoded := [0x02, 0x41, 0xFC, 0x55], dstBufDecodedSize := 1,
                    pDict := fun _ => none } (by decide) (by decide) (by decide) (by decide)⟩

/-- C16. Decoder argument validation: `dzcobs_decode` always returns a result; the result
is `DZCOBS_RET_ERR_BAD_ARG` if and only if `srcBufEncodedLen < 3` or
`dstBufDecodedSize = 0`; and in that case no length and no user bits are reported, no
output byte is written, and the result is the same whatever the input bytes are. -/
theorem decode_bad_arg_iff (ctx : sDZCOBS_decodectx) :
    ∃ res, dzcobs_decode ctx = some res ∧
      (res.ret = DZCOBS_RET_ERR_BAD_ARG ↔
        (ctx.srcBufEncoded.length < 3 ∨ ctx.dstBufDecodedSize = 0)) ∧
      (res.ret = DZCOBS_RET_ERR_BAD_ARG →
        res.outDecodedLen = none ∧ res.outUser6bit = none ∧ res.dstBufDecoded = [] ∧
        ∀ src : List Nat, src.length = ctx.srcBufEncoded.length →
          dzcobs_decode { ctx with srcBufEncoded := src } = some res) := by
  by_cases hargs : ctx.dstBufDecodedSize = 0 ∨ ctx.srcBufEncoded.length < 3
  · refine ⟨_, decode_bad_arg ctx hargs, ⟨fun _ => hargs.symm, fun _ => rfl⟩, ?_⟩
    intro _
    refine ⟨rfl, rfl, rfl, ?_⟩
    intro src hsrc
    apply decode_bad_arg
    show ctx.dstBufDecodedSize = 0 ∨ src.length < 3
    rw [hsrc]
    exact hargs
  · have hno : ¬ (ctx.srcBufEncoded.length < 3 ∨ ctx.dstBufDecodedSize = 0) :=
      fun h => hargs h.symm
    by_cases hz : ctx.srcBufEncoded.getD (ctx.srcBufEncoded.length - 1) 0 = 0 ∨
        ctx.srcBufEncoded.getD (ctx.srcBufEncoded.length - 2) 0 = 0
    · refine ⟨_, decode_zero_trailer ctx hargs hz, ⟨fun h => ?_, fun h => absurd h hno⟩,
        fun h => ?_⟩
      · cases h
      · cases h
    · by_cases h : ctx.srcBufEncoded.getD (ctx.srcBufEncoded.length - 1) 0 =
          hashByte (hashSum (ctx.srcBufEncoded.take (ctx.srcBufEncoded.length - 1)) % 256)
      · obtain ⟨res, h1, h2, _, _⟩ := decode_hash_ok ctx hargs hz h
        exact ⟨res, h1, ⟨fun hb => absurd hb h2, fun hb => absurd hb hno⟩,
          fun hb => absurd hb h2⟩
      · refine ⟨_, decode_crc ctx hargs hz h, ⟨fun hb => ?_, fun hb => absurd hb hno⟩,
          fun hb => ?_⟩
        · cases hb
        · cases hb

/-- C17. Zero trailer bytes are rejected first: for every input of at least 3 bytes with
an output capacity of at least 1 whose last byte or second-to-last byte is `0x00`,
`dzcobs_decode` returns `DZCOBS_RET_ERR_BAD_ENCODED_PAYLOAD` (and writes nothing),
whatever the hash and the body are. -/
theorem decode_rejects_zero_trailer (ctx : sDZCOBS_decodectx)
    (hlen : 3 ≤ ctx.srcBufEncoded.length) (hcap : 1 ≤ ctx.dstBufDecodedSize)
    (h : ctx.srcBufEncoded.getD (ctx.srcBufEncoded.length - 1) 0 = 0 ∨
      ctx.srcBufEncoded.getD (ctx.srcBufEncoded.length - 2) 0 = 0) :
    dzcobs_decode ctx = some (failResult DZCOBS_RET_ERR_BAD_ENCODED_PAYLOAD) :=
  decode_zero_trailer ctx (by omega) h

/-- C17, instance: the input `02 41 00 67`, whose tag byte is zero and whose hash byte
matches. -/
theorem decode_rejects_zero_trailer_witness :
    (3 ≤ [0x02, 0x41, 0x00, 0x67].length ∧ 1 ≤ 4 ∧
      ([0x02, 0x41, 0x00, 0x67].getD ([0x02, 0x41, 0x00, 0x67].length - 1) 0 = 0 ∨
        [0x02, 0x41, 0x00, 0x67].getD ([0x02, 0x41, 0x00, 0x67].length - 2) 0 = 0)) ∧
    dzcobs_decode { srcBufEncoded := [0x02, 0x41, 0x00, 0x67], dstBufDecodedSize := 4,
                    pDict := fun _ => none } =
      some (failResult DZCOBS_RET_ERR_BAD_ENCODED_PAYLOAD) :=
  ⟨by decide,
   decode_rejects_zero_trailer
     { srcBufEncoded := [0x02, 0x41, 0x00, 0x67], dstBufDecodedSize := 4,
       pDict := fun _ => none } (by decide) (by decide) (by decide)⟩

/-- C18. Begin argument validation: `dzcobs_encode_inc_begin` returns
`DZCOBS_RET_ERR_BAD_ARG` if and only if the capacity is below 2, or the encoding is
`DZCOBS_USING_DICT_1` with `pDict[0]` unset, or `DZCOBS_USING_DICT_2` with `pDict[1]`
unset; and when it returns `DZCOBS_RET_ERR_BAD_ARG` the context is unchanged. -/
theorem begin_bad_arg_iff (aCtx : sDZCOBS_ctx) (aEncoding : eDZCOBS_encoding)
    (aDstBuf : Nat → Nat) (aDstBufSize : Nat) :
    ((dzcobs_encode_inc_begin aCtx aEncoding aDstBuf aDstBufSize).1 = DZCOBS_RET_ERR_BAD_ARG ↔
      (aDstBufSize < 2 ∨ (aEncoding = DZCOBS_USING_DICT_1 ∧ aCtx.pDict 0 = none) ∨
        (aEncoding = DZCOBS_USING_DICT_2 ∧ aCtx.pDict 1 = none))) ∧
    ((dzcobs_encode_inc_begin aCtx aEncoding aDstBuf aDstBufSize).1 = DZCOBS_RET_ERR_BAD_ARG →
      (dzcobs_encode_inc_begin aCtx aEncoding aDstBuf aDstBufSize).2 = aCtx) := by
  by_cases hsize : aDstBufSize < 2
  · have : dzcobs_encode_inc_begin aCtx aEncoding aDstBuf aDstBufSize =
        (DZCOBS_RET_ERR_BAD_ARG, aCtx) := by
      unfold dzcobs_encode_inc_begin
      rw [if_pos hsize]
    rw [this]
    exact ⟨⟨fun _ => Or.inl hsize, fun _ => rfl⟩, fun _ => rfl⟩
  · by_cases hd : (aEncoding = DZCOBS_USING_DICT_1 ∧ (aCtx.pDict 0).isNone) ∨
        (aEncoding = DZCOBS_USING_DICT_2 ∧ (aCtx.pDict 1).isNone)
    · have : dzcobs_encode_inc_begin aCtx aEncoding aDstBuf aDstBufSize =
          (DZCOBS_RET_ERR_BAD_ARG, aCtx) := by
        unfold dzcobs_encode_inc_begin
        rw [if_neg hsize, if_pos hd]
      rw [this]
      refine ⟨⟨fun _ => Or.inr ?_, fun _ => rfl⟩, fun _ => rfl⟩
      rcases hd with ⟨h1, h2⟩ | ⟨h1, h2⟩
      · exact Or.inl ⟨h1, Option.isNone_iff_eq_none.mp h2⟩
      · exact Or.inr ⟨h1, Option.isNone_iff_eq_none.mp h2⟩
    · rw [begin_ok aCtx aEncoding aDstBuf aDstBufSize (by omega) hd]
      refine ⟨⟨fun h => ?_, fun h => ?_⟩, fun h => ?_⟩
      · cases h
      · exfalso
        rcases h with h | ⟨h1, h2⟩ | ⟨h1, h2⟩
        · exact hsize h
        · exact hd (Or.inl ⟨h1, by rw [h2]; rfl⟩)
        · exact hd (Or.inr ⟨h1, by rw [h2]; rfl⟩)
      · cases h

/-- C19, failing input: `dzcobs_encode_inc_begin` with `DZCOBS_RESERVED` and a 16-byte
buffer. It returns SUCCESS with `encFunc` left `NULL`, so the assertion
`encFunc != NULL` does not hold, and the next `dzcobs_encode_inc` returns
`DZCOBS_RET_ERR_NOTINITIALIZED`. -/
theorem begin_reserved_leaves_encFunc_null :
    (dzcobs_encode_inc_begin zeroCtx DZCOBS_RESERVED guardMem 16).1 = DZCOBS_RET_SUCCESS ∧
    (dzcobs_encode_inc_begin zeroCtx DZCOBS_RESERVED guardMem 16).2.encFunc = none ∧
    (dzcobs_encode_inc (dzcobs_encode_inc_begin zeroCtx DZCOBS_RESERVED guardMem 16).2
        [0x41]).map (fun p => p.1) = some DZCOBS_RET_ERR_NOTINITIALIZED := by
  decide

theorem frame_parts (body : List Nat) (t h : Nat) :
    (body ++ [t, h]).length = body.length + 2 ∧
    (body ++ [t, h]).getD (body.length + 2 - 1) 0 = h ∧
    (body ++ [t, h]).getD (body.length + 2 - 2) 0 = t ∧
    (body ++ [t, h]).take (body.length + 2 - 1) = body ++ [t] := by
  refine ⟨by simp, ?_, ?_, ?_⟩
  · rw [List.getD_eq_getElem?_getD, List.getElem?_append_right (by omega)]
    simp
  · rw [List.getD_eq_getElem?_getD, List.getElem?_append_right (by omega)]
    simp
  · rw [List.take_append_eq_append_take]
    simp

theorem begunCtx_ctxInv (Q : Nat → Prop) (ctx0 : sDZCOBS_ctx) (aEncoding : eDZCOBS_encoding)
    (aDstBuf : Nat → Nat) (aDstBufSize user6 : Nat) (hsize : 2 ≤ aDstBufSize)
    (hd : ¬ ((aEncoding = DZCOBS_USING_DICT_1 ∧ (ctx0.pDict 0).isNone) ∨
      (aEncoding = DZCOBS_USING_DICT_2 ∧ (ctx0.pDict 1).isNone))) :
    CtxInv Q (begunCtx ctx0 aEncoding aDstBuf aDstBufSize user6) := by
  rw [begunCtx_eq _ _ _ _ _ hsize hd]
  refine ⟨⟨?_, ?_, ?_, ?_, ?_⟩, fun _ => rfl⟩
  · show 0 < 1
    omega
  · show 1 < 256
    omega
  · intro i hi hne
    have h1 : i < 1 := hi
    have h2 : i ≠ 0 := hne
    omega
  · show 0 = (hashSum (slice aDstBuf 0 0) + hashSum (slice aDstBuf (0 + 1) (1 - (0 + 1))) + 0) % 256
    simp [slice, hashSum]
  · intro h
    cases h

theorem encodeFrame_success_shape {Q : Nat → Prop} (hQ : ∀ n, n < 256 → Q n)
    (ctx0 : sDZCOBS_ctx) (aEncoding : eDZCOBS_encoding) (aDstBuf : Nat → Nat)
    (aDstBufSize user6 : Nat) (chunks : List (List Nat)) (r : sEndResult)
    (hchunks : ∀ chunk ∈ chunks, ∀ b ∈ chunk, Q b)
    (h : encodeFrame ctx0 aEncoding aDstBuf aDstBufSize user6 chunks = some r)
    (hr : r.ret = DZCOBS_RET_SUCCESS) :
    ∃ body, body ≠ [] ∧ (∀ b ∈ body, Q b) ∧ r.outSizeEncoded = some (body.length + 2) ∧
      r.frame = body ++ [tagByte (user6 % 256) aEncoding,
        hashByte ((hashSum body + DZCOBS_HASH8 (tagByte (user6 % 256) aEncoding)) % 256)] := by
  by_cases hsize : 2 ≤ aDstBufSize
  · by_cases hd : (aEncoding = DZCOBS_USING_DICT_1 ∧ (ctx0.pDict 0).isNone) ∨
        (aEncoding = DZCOBS_USING_DICT_2 ∧ (ctx0.pDict 1).isNone)
    · exfalso
      unfold encodeFrame dzcobs_encode_inc_begin at h
      rw [if_neg (by omega), if_pos hd] at h
      simp only [Option.some.injEq] at h
      rw [← h] at hr
      cases hr
    · rw [encodeFrame_begun _ _ _ _ _ _ hsize hd] at h
      have hinv := begunCtx_ctxInv Q ctx0 aEncoding aDstBuf aDstBufSize user6 hsize hd
      have hceq := begunCtx_eq ctx0 aEncoding aDstBuf aDstBufSize user6 hsize hd
      generalize begunCtx ctx0 aEncoding aDstBuf aDstBufSize user6 = c0 at h hinv hceq
      split at h
      · cases h
      · next c2 hfeed =>
        simp only [Option.some.injEq] at h
        obtain ⟨k1, k2, k3, _, _, _⟩ := feedAll_ctxInv hQ chunks c0 hchunks hinv _ c2 hfeed
        subst h
        obtain ⟨body, b1, b2, b3, b4⟩ := end_frame hQ c2 k1.1 hr
        have hu : c2.user6bits = user6 % 256 := by rw [k2, hceq]
        have he : c2.encoding = aEncoding := by rw [k3, hceq]
        rw [hu, he] at b4
        exact ⟨body, b1, b2, b3, b4⟩
      · next r1 c2 hne hfeed =>
        exfalso
        simp only [Option.some.injEq] at h
        rw [← h] at hr
        have : r1 = DZCOBS_RET_SUCCESS := hr
        subst this
        exact hne rfl
  · exfalso
    unfold encodeFrame dzcobs_encode_inc_begin at h
    rw [if_pos (by omega)] at h
    simp only [Option.some.injEq] at h
    rw [← h] at hr
    cases hr

theorem tag_form : ∀ u, u < 64 → ∀ e, e < 4 →
    ((u <<< 2) % 256 ||| (e &&& 3)) = (u <<< 2) ||| e ∧
    ((u <<< 2) % 256 ||| (e &&& 3)) < 256 := by
  decide

theorem frameOf_succ (m : Nat → Nat) (n : Nat) : frameOf m (n + 1) = frameOf m n ++ [m n] := by
  simp [frameOf, List.range_succ]

theorem frameOf_length (m : Nat → Nat) (n : Nat) : (frameOf m n).length = n := by
  simp [frameOf]

/-- C14. Trailer layout and hash consistency: for every encoding, every `user6` in 1..63
and every sequence of feed calls, when `dzcobs_encode_inc_end` returns SUCCESS it reports
a length `L >= 3`, byte `L-2` is `(user6 << 2) | encoding`, byte `L-1` is `h` if `h != 0`
and `0xFF` if `h = 0`, where `h` is the sum modulo 256 of `DZCOBS_HASH8` over the bytes
`0 .. L-2`; and `dzcobs_decode` of the frame returns a result that is never
`DZCOBS_RET_ERR_CRC`, whatever the output capacity and the dictionaries. -/
theorem trailer_and_hash_consistent (ctx0 : sDZCOBS_ctx) (aEncoding : eDZCOBS_encoding)
    (aDstBuf : Nat → Nat) (aDstBufSize user6 : Nat) (hu1 : 1 ≤ user6) (hu2 : user6 ≤ 63)
    (chunks : List (List Nat)) (r : sEndResult)
    (h : encodeFrame ctx0 aEncoding aDstBuf aDstBufSize user6 chunks = some r)
    (hr : r.ret = DZCOBS_RET_SUCCESS) :
    ∃ L, r.outSizeEncoded = some L ∧ 3 ≤ L ∧
      r.ctx.pDst (L - 2) = (user6 <<< 2) ||| aEncoding.toNat ∧
      r.ctx.pDst (L - 1) =
        (if hashSum (frameOf r.ctx.pDst (L - 1)) % 256 = 0 then 0xFF
         else hashSum (frameOf r.ctx.pDst (L - 1)) % 256) ∧
      ∀ (dstBufDecodedSize : Nat) (pDict : Nat → Option sDICT_ctx),
        ∃ res, dzcobs_decode { srcBufEncoded := frameOf r.ctx.pDst L,
                               dstBufDecodedSize := dstBufDecodedSize, pDict := pDict } =
            some res ∧ res.ret ≠ DZCOBS_RET_ERR_CRC := by
  obtain ⟨body, b1, _, b3, b4⟩ := encodeFrame_success_shape (Q := fun _ => True)
    (fun _ _ => trivial) ctx0 aEncoding aDstBuf aDstBufSize user6 chunks r
    (fun _ _ _ _ => trivial) h hr
  have he : aEncoding.toNat < 4 := by cases aEncoding <;> decide
  have hmod : user6 % 256 = user6 := by omega
  rw [hmod] at b4
  obtain ⟨t1, _⟩ := tag_form user6 (by omega) _ he
  obtain ⟨_, _, t3⟩ := tag_bits user6 (by omega) _ he
  have hbl : 1 ≤ body.length := by
    rcases body with _ | ⟨x, l⟩
    · exact absurd rfl b1
    · simp
  unfold sEndResult.frame at b4
  rw [b3, Option.getD_some, frameOf_succ, frameOf_succ, List.append_assoc] at b4
  have hsplit := List.append_inj b4 (by rw [frameOf_length])
  obtain ⟨hbody, htail⟩ := hsplit
  simp only [List.singleton_append, List.cons.injEq, and_true] at htail
  obtain ⟨htag, hhb⟩ := htail
  have hfr1 : frameOf r.ctx.pDst (body.length + 2 - 1) = body ++ [tagByte user6 aEncoding] := by
    rw [show body.length + 2 - 1 = body.length + 1 by omega, frameOf_succ, hbody, htag]
  have hsum : hashSum (body ++ [tagByte user6 aEncoding]) =
      hashSum body + DZCOBS_HASH8 (tagByte user6 aEncoding) := by
    rw [hashSum_append, hashSum_cons, hashSum_nil, Nat.add_zero]
  refine ⟨body.length + 2, b3, by omega, ?_, ?_, ?_⟩
  · rw [show body.length + 2 - 2 = body.length by omega, htag]
    exact t1
  · rw [hfr1, hsum, show body.length + 2 - 1 = body.length + 1 by omega, hhb]
    rfl
  · intro dsz pd
    have hfr : frameOf r.ctx.pDst (body.length + 2) = body ++ [tagByte user6 aEncoding,
        hashByte ((hashSum body + DZCOBS_HASH8 (tagByte user6 aEncoding)) % 256)] := by
      rw [frameOf_succ, frameOf_succ, hbody, htag, hhb, List.append_assoc]
      rfl
    rw [hfr]
    obtain ⟨p1, p2, p3, p4⟩ := frame_parts body (tagByte user6 aEncoding)
      (hashByte ((hashSum body + DZCOBS_HASH8 (tagByte user6 aEncoding)) % 256))
    by_cases hargs : dsz = 0 ∨ (body ++ [tagByte user6 aEncoding,
        hashByte ((hashSum body + DZCOBS_HASH8 (tagByte user6 aEncoding)) % 256)]).length < 3
    · exact ⟨_, decode_bad_arg _ hargs, by simp [failResult]⟩
    · have hz : ¬ ((body ++ [tagByte user6 aEncoding,
            hashByte ((hashSum body + DZCOBS_HASH8 (tagByte user6 aEncoding)) % 256)]).getD
              ((body ++ [tagByte user6 aEncoding,
                hashByte ((hashSum body + DZCOBS_HASH8 (tagByte user6 aEncoding)) % 256)]).length
                  - 1) 0 = 0 ∨
          (body ++ [tagByte user6 aEncoding,
            hashByte ((hashSum body + DZCOBS_HASH8 (tagByte user6 aEncoding)) % 256)]).getD
              ((body ++ [tagByte user6 aEncoding,
                hashByte ((hashSum body + DZCOBS_HASH8 (tagByte user6 aEncoding)) % 256)]).length
                  - 2) 0 = 0) := by
        rw [p1, p2, p3]
        intro hh
        rcases hh with hh | hh
        · exact hashByte_ne_zero _ hh
        · exact t3 hu1 hh
      obtain ⟨res, r1, _, r3, _⟩ := decode_hash_ok
        { srcBufEncoded := body ++ [tagByte user6 aEncoding,
            hashByte ((hashSum body + DZCOBS_HASH8 (tagByte user6 aEncoding)) % 256)],
          dstBufDecodedSize := dsz, pDict := pd } hargs hz
        (by
          show (body ++ [tagByte user6 aEncoding,
            hashByte ((hashSum body + DZCOBS_HASH8 (tagByte user6 aEncoding)) % 256)]).getD
              ((body ++ [tagByte user6 aEncoding,
                hashByte ((hashSum body + DZCOBS_HASH8 (tagByte user6 aEncoding)) % 256)]).length
                  - 1) 0 = _
          rw [p1, p2, p4, hsum])
      exact ⟨res, r1, r3⟩

/-- C14, instance: payload `41`, then `42 00`, fed in two calls in plain mode with
`user6 = 0x3F`. -/
theorem trailer_and_hash_consistent_witness :
    (1 ≤ 0x3F ∧ 0x3F ≤ 63) ∧
    ∃ r, encodeFrame zeroCtx DZCOBS_PLAIN guardMem 16 0x3F [[0x41], [0x42, 0x00]] = some r ∧
      r.ret = DZCOBS_RET_SUCCESS ∧
      ∃ L, r.outSizeEncoded = some L ∧ 3 ≤ L ∧
        r.ctx.pDst (L - 2) = (0x3F <<< 2) ||| DZCOBS_PLAIN.toNat ∧
        r.ctx.pDst (L - 1) =
          (if hashSum (frameOf r.ctx.pDst (L - 1)) % 256 = 0 then 0xFF
           else hashSum (frameOf r.ctx.pDst (L - 1)) % 256) ∧
        ∀ (dstBufDecodedSize : Nat) (pDict : Nat → Option sDICT_ctx),
          ∃ res, dzcobs_decode { srcBufEncoded := frameOf r.ctx.pDst L,
                                 dstBufDecodedSize := dstBufDecodedSize, pDict := pDict } =
              some res ∧ res.ret ≠ DZCOBS_RET_ERR_CRC :=
  ⟨by decide, _, rfl, rfl,
   trailer_and_hash_consistent zeroCtx DZCOBS_PLAIN guardMem 16 0x3F (by decide) (by decide)
     [[0x41], [0x42, 0x00]] _ rfl rfl⟩

theorem hash8_flip : ∀ b, b < 256 → ∀ k, k < 8 →
    b ^^^ 2 ^ k ≠ b ∧ b ^^^ 2 ^ k < 256 ∧
    DZCOBS_HASH8 (b ^^^ 2 ^ k) % 256 ≠ DZCOBS_HASH8 b % 256 ∧
    (DZCOBS_HASH8 (b ^^^ 2 ^ k) + 1) % 256 ≠ DZCOBS_HASH8 b % 256 ∧
    (DZCOBS_HASH8 b + 1) % 256 ≠ DZCOBS_HASH8 (b ^^^ 2 ^ k) % 256 := by
  decide!

theorem hashSum_set (v : Nat) : ∀ (l : List Nat) (i : Nat), i < l.length →
    hashSum (l.set i v) + DZCOBS_HASH8 (l.getD i 0) = hashSum l + DZCOBS_HASH8 v := by
  intro l
  induction l with
  | nil => intro i hi; simp at hi
  | cons x l ih =>
    intro i hi
    cases i with
    | zero =>
      simp only [List.set_cons_zero, List.getD_cons_zero, hashSum_cons]
      omega
    | succ j =>
      have hj : j < l.length := by simpa using hi
      have := ih j hj
      simp only [List.set_cons_succ, List.getD_cons_succ, hashSum_cons]
      omega

theorem hashByte_shift (S T a b : Nat) (hST : T + a = S + b)
    (h1 : b % 256 ≠ a % 256) (h2 : (b + 1) % 256 ≠ a % 256) (h3 : (a + 1) % 256 ≠ b % 256) :
    hashByte (S % 256) ≠ hashByte (T % 256) := by
  unfold hashByte DZCOBS_HASH_VALUE_WHEN_CRC_IS_ZERO
  split <;> split <;> omega

theorem hashByte_lt (h : Nat) : hashByte (h % 256) < 256 := by
  unfold hashByte DZCOBS_HASH_VALUE_WHEN_CRC_IS_ZERO
  split <;> omega

theorem decode_trailer_cases (body : List Nat) (t h dsz : Nat) (pd : Nat → Option sDICT_ctx)
    (hbl : 1 ≤ body.length) (hdsz : 1 ≤ dsz)
    (hne : t ≠ 0 → h ≠ 0 → h ≠ hashByte ((hashSum body + DZCOBS_HASH8 t) % 256)) :
    dzcobs_decode { srcBufEncoded := body ++ [t, h], dstBufDecodedSize := dsz, pDict := pd } =
        some (failResult DZCOBS_RET_ERR_CRC) ∨
      dzcobs_decode { srcBufEncoded := body ++ [t, h], dstBufDecodedSize := dsz, pDict := pd } =
        some (failResult DZCOBS_RET_ERR_BAD_ENCODED_PAYLOAD) := by
  obtain ⟨p1, p2, p3, p4⟩ := frame_parts body t h
  have hargs : ¬ (dsz = 0 ∨ (body ++ [t, h]).length < 3) := by
    rw [p1]
    omega
  by_cases hz : (body ++ [t, h]).getD ((body ++ [t, h]).length - 1) 0 = 0 ∨
      (body ++ [t, h]).getD ((body ++ [t, h]).length - 2) 0 = 0
  · exact Or.inr (decode_zero_trailer
      { srcBufEncoded := body ++ [t, h], dstBufDecodedSize := dsz, pDict := pd } hargs hz)
  · refine Or.inl (decode_crc
      { srcBufEncoded := body ++ [t, h], dstBufDecodedSize := dsz, pDict := pd } hargs hz ?_)
    show (body ++ [t, h]).getD ((body ++ [t, h]).length - 1) 0 ≠
      hashByte (hashSum ((body ++ [t, h]).take ((body ++ [t, h]).length - 1)) % 256)
    rw [p1, p2, p3] at hz
    rw [p1, p2, p4, hashSum_append, hashSum_cons, hashSum_nil, Nat.add_zero]
    exact hne (fun e => hz (Or.inr e)) (fun e => hz (Or.inl e))

theorem flip_detected (body : List Nat) (t dsz i k : Nat) (pd : Nat → Option sDICT_ctx)
    (hbl : 1 ≤ body.length) (hdsz : 1 ≤ dsz) (hbody : ∀ b ∈ body, b < 256) (ht : t < 256)
    (hi : i < body.length + 2) (hk : k < 8) :
    dzcobs_decode
        { srcBufEncoded :=
            flipBit (body ++ [t, hashByte ((hashSum body + DZCOBS_HASH8 t) % 256)]) i k,
          dstBufDecodedSize := dsz, pDict := pd } = some (failResult DZCOBS_RET_ERR_CRC) ∨
      dzcobs_decode
        { srcBufEncoded :=
            flipBit (body ++ [t, hashByte ((hashSum body + DZCOBS_HASH8 t) % 256)]) i k,
          dstBufDecodedSize := dsz, pDict := pd } =
        some (failResult DZCOBS_RET_ERR_BAD_ENCODED_PAYLOAD) := by
  generalize hH : hashByte ((hashSum body + DZCOBS_HASH8 t) % 256) = h
  have hh : h < 256 := by rw [← hH]; exact hashByte_lt _
  unfold flipBit
  by_cases h1 : i < body.length
  · have hb : body.getD i 0 < 256 := by
      rw [List.getD_eq_getElem _ _ h1]
      exact hbody _ (List.getElem_mem h1)
    obtain ⟨_, _, f3, f4, f5⟩ := hash8_flip _ hb k hk
    have hset := hashSum_set (body.getD i 0 ^^^ 2 ^ k) body i h1
    rw [List.set_append, if_pos h1, List.getD_append _ _ _ _ h1]
    refine decode_trailer_cases _ t h dsz pd (by rw [List.length_set]; exact hbl) hdsz ?_
    intro _ _
    rw [← hH]
    exact hashByte_shift _ _ _ _
      (by
        show hashSum (body.set i (body.getD i 0 ^^^ 2 ^ k)) + DZCOBS_HASH8 t +
          DZCOBS_HASH8 (body.getD i 0) = hashSum body + DZCOBS_HASH8 t +
            DZCOBS_HASH8 (body.getD i 0 ^^^ 2 ^ k)
        omega) f3 f4 f5
  · have hget : ∀ j, (body ++ [t, h]).getD (body.length + j) 0 = [t, h].getD j 0 := by
      intro j
      rw [List.getD_append_right _ _ _ _ (by omega)]
      congr 1
      omega
    rw [List.set_append, if_neg h1]
    by_cases h2 : i = body.length
    · subst h2
      obtain ⟨_, _, f3, f4, f5⟩ := hash8_flip _ ht k hk
      have := hget 0
      rw [Nat.add_zero] at this
      rw [this, Nat.sub_self]
      refine decode_trailer_cases body (t ^^^ 2 ^ k) h dsz pd hbl hdsz ?_
      intro _ _
      rw [← hH]
      exact hashByte_shift _ _ _ _
        (by
          show hashSum body + DZCOBS_HASH8 (t ^^^ 2 ^ k) + DZCOBS_HASH8 t =
            hashSum body + DZCOBS_HASH8 t + DZCOBS_HASH8 (t ^^^ 2 ^ k)
          omega) f3 f4 f5
    · have h3 : i = body.length + 1 := by omega
      subst h3
      obtain ⟨f1, _, _, _, _⟩ := hash8_flip _ hh k hk
      rw [hget 1, show body.length + 1 - body.length = 1 by omega]
      refine decode_trailer_cases body t (h ^^^ 2 ^ k) dsz pd hbl hdsz ?_
      intro _ _
      rw [hH]
      exact f1

/-- C12. Single-bit corruption is detected: for every frame produced by a successful
single-feed encoding (any encoding, `user6` in 1..63, payload bytes below 256), every byte
position `i` of the frame and every bit `k` in 0..7, `dzcobs_decode` called with a non-zero
output capacity on the frame with bit `k` of byte `i` inverted returns
`DZCOBS_RET_ERR_CRC` or `DZCOBS_RET_ERR_BAD_ENCODED_PAYLOAD`, never SUCCESS, whatever
the value of the original hash byte. -/
theorem single_bit_flip_detected (ctx0 : sDZCOBS_ctx) (aEncoding : eDZCOBS_encoding)
    (aDstBuf : Nat → Nat) (aDstBufSize user6 : Nat) (hu1 : 1 ≤ user6) (hu2 : user6 ≤ 63)
    (payload : List Nat) (hpay : ∀ b ∈ payload, b < 256) (r : sEndResult)
    (h : encodeFrame ctx0 aEncoding aDstBuf aDstBufSize user6 [payload] = some r)
    (hr : r.ret = DZCOBS_RET_SUCCESS) (i k : Nat) (hi : i < r.frame.length) (hk : k < 8)
    (dstBufDecodedSize : Nat) (hdsz : 1 ≤ dstBufDecodedSize)
    (pDict : Nat → Option sDICT_ctx) :
    ∃ res, dzcobs_decode { srcBufEncoded := flipBit r.frame i k,
                           dstBufDecodedSize := dstBufDecodedSize, pDict := pDict } =
        some res ∧
      (res.ret = DZCOBS_RET_ERR_CRC ∨ res.ret = DZCOBS_RET_ERR_BAD_ENCODED_PAYLOAD) ∧
      res.ret ≠ DZCOBS_RET_SUCCESS := by
  obtain ⟨body, b1, b2, _, b4⟩ := encodeFrame_success_shape (Q := fun n => n < 256)
    (fun _ hn => hn) ctx0 aEncoding aDstBuf aDstBufSize user6 [payload] r
    (by
      intro chunk hc b hb
      rw [List.mem_singleton] at hc
      subst hc
      exact hpay b hb) h hr
  have he : aEncoding.toNat < 4 := by cases aEncoding <;> decide
  have hmod : user6 % 256 = user6 := by omega
  rw [hmod] at b4
  obtain ⟨_, t2⟩ := tag_form user6 (by omega) _ he
  have hbl : 1 ≤ body.length := by
    rcases body with _ | ⟨x, l⟩
    · exact absurd rfl b1
    · simp
  rw [b4] at hi ⊢
  rw [(frame_parts body _ _).1] at hi
  rcases flip_detected body (tagByte user6 aEncoding) dstBufDecodedSize i k pDict hbl hdsz b2
    t2 hi hk with hres | hres
  · exact ⟨_, hres, Or.inl rfl, by simp [failResult]⟩
  · exact ⟨_, hres, Or.inr rfl, by simp [failResult]⟩

/-- C12, instance: payload `41 42` in plain mode gives the frame `03 41 42 FC BF`;
inverting bit 0 of byte 1 is answered with an error. -/
theorem single_bit_flip_detected_witness :
    (1 ≤ 0x3F ∧ 0x3F ≤ 63) ∧ (∀ b ∈ [0x41, 0x42], b < 256) ∧
    ∃ r, encodeFrame zeroCtx DZCOBS_PLAIN guardMem 16 0x3F [[0x41, 0x42]] = some r ∧
      r.ret = DZCOBS_RET_SUCCESS ∧ 1 < r.frame.length ∧ 0 < 8 ∧ 1 ≤ 16 ∧
      ∃ res, dzcobs_decode { srcBufEncoded := flipBit r.frame 1 0,
                             dstBufDecodedSize := 16, pDict := fun _ => none } = some res ∧
        (res.ret = DZCOBS_RET_ERR_CRC ∨ res.ret = DZCOBS_RET_ERR_BAD_ENCODED_PAYLOAD) ∧
        res.ret ≠ DZCOBS_RET_SUCCESS :=
  ⟨by decide, by decide, _, rfl, rfl, by decide, by decide, by decide,
   single_bit_flip_detected zeroCtx DZCOBS_PLAIN guardMem 16 0x3F (by decide) (by decide)
     [0x41, 0x42] (by decide) _ rfl rfl 1 0 (by decide) (by decide) 16 (by decide)
     (fun _ => none)⟩

theorem plain_loop_cur (src : List Nat) :
    ∀ s : sEncVars, s.pCurDst + min 1 src.length ≤ (dzcobs_encode_inc_plain_loop src s).pCurDst := by
  induction src with
  | nil => intro s; simp [dzcobs_encode_inc_plain_loop]
  | cons b rest ih =>
    intro s
    simp only [List.length_cons]
    unfold dzcobs_encode_inc_plain_loop
    split
    · have := ih (closeGroup s)
      have e : (closeGroup s).pCurDst = s.pCurDst + 1 := rfl
      omega
    · simp only
      split
      · have := ih (closeGroup (putLiteral s b))
        have e : (closeGroup (putLiteral s b)).pCurDst = s.pCurDst + 1 + 1 := rfl
        omega
      · have := ih (putLiteral s b)
        have e : (putLiteral s b).pCurDst = s.pCurDst + 1 := rfl
        omega

theorem dict_loop_cur (d : sDICT_ctx) :
    ∀ (fuel : Nat) (src : List Nat) (s s1 : sEncVars),
    dzcobs_encode_inc_dictionary_loop d fuel src s = some s1 →
    s.pCurDst + min 1 src.length ≤ s1.pCurDst := by
  intro fuel
  induction fuel with
  | zero =>
    intro src s s1 h
    cases src with
    | nil =>
      simp only [dzcobs_encode_inc_dictionary_loop, Option.some.injEq] at h
      subst h
      simp
    | cons b rest => simp [dzcobs_encode_inc_dictionary_loop] at h
  | succ fuel ih =>
    intro src s s1 h
    cases src with
    | nil =>
      simp only [dzcobs_encode_inc_dictionary_loop, Option.some.injEq] at h
      subst h
      simp
    | cons b rest =>
      simp only [List.length_cons]
      simp only [dzcobs_encode_inc_dictionary_loop] at h
      split at h
      · split at h
        · cases h
        · have hge : ∀ (v : Nat) (c : Prop) [Decidable c],
              s.pCurDst ≤ (if c then closeGroup { s with hashsum := v }
                else { s with hashsum := v }).pCurDst := by
            intro v c _
            split
            · show s.pCurDst ≤ s.pCurDst + 1
              omega
            · exact Nat.le_refl _
          have := ih _ _ _ h
          refine Nat.le_trans ?_ (Nat.le_trans (Nat.le_add_right _ _) this)
          refine Nat.le_trans (?_ : _ ≤ s.pCurDst + 1) (Nat.succ_le_succ (hge _ _))
          omega
      · split at h
        · have := ih _ _ _ h
          have e : (closeGroup { s with isLastCodeDictionary := false }).pCurDst =
            s.pCurDst + 1 := rfl
          omega
        · split at h
          · have := ih _ _ _ h
            have e : (closeGroup (putLiteral { s with isLastCodeDictionary := false } b)).pCurDst
              = s.pCurDst + 1 + 1 := rfl
            omega
          · have := ih _ _ _ h
            have e : (putLiteral { s with isLastCodeDictionary := false } b).pCurDst =
              s.pCurDst + 1 := rfl
            omega

theorem inc_ready (c : sDZCOBS_ctx) (P : List Nat) (hr : FeedReady c) :
    ∃ c2, dzcobs_encode_inc c P = some (DZCOBS_RET_SUCCESS, c2) ∧
      c.pCurDst + min 1 P.length ≤ c2.pCurDst ∧ FeedReady c2 ∧ c2.pDstEnd = c.pDstEnd := by
  unfold dzcobs_encode_inc
  rcases hr with hp | ⟨hdm, d, hd, hok⟩
  · rw [hp]
    simp only
    by_cases hl : P.length = 0
    · rw [if_pos hl]
      exact ⟨c, rfl, by rw [hl]; simp, Or.inl hp, rfl⟩
    · rw [if_neg hl]
      refine ⟨_, rfl, ?_, Or.inl hp, rfl⟩
      exact plain_loop_cur P (sEncVars.ofCtx c)
  · rw [hdm]
    simp only
    by_cases hl : P.length = 0
    · rw [if_pos hl]
      exact ⟨c, rfl, by rw [hl]; simp, Or.inr ⟨hdm, d, hd, hok⟩, rfl⟩
    · rw [if_neg hl]
      obtain ⟨s1, hs1⟩ := dict_loop_some d hok P.length P (sEncVars.ofCtx c) (Nat.le_refl _)
      unfold dzcobs_encode_inc_dictionary
      rw [hd]
      simp only
      rw [hs1]
      refine ⟨_, rfl, ?_, Or.inr ⟨hdm, d, hd, hok⟩, rfl⟩
      exact dict_loop_cur d P.length P (sEncVars.ofCtx c) s1 hs1

theorem feedAll_ready (chunks : List (List Nat)) :
    ∀ c : sDZCOBS_ctx, FeedReady c →
    ∃ c2, feedAll chunks c = some (DZCOBS_RET_SUCCESS, c2) ∧ c.pCurDst ≤ c2.pCurDst ∧
      ((∃ chunk ∈ chunks, chunk ≠ []) → c.pCurDst + 1 ≤ c2.pCurDst) ∧
      c2.pDstEnd = c.pDstEnd := by
  induction chunks with
  | nil =>
    intro c _
    exact ⟨c, rfl, Nat.le_refl _, by simp, rfl⟩
  | cons P rest ih =>
    intro c hr
    obtain ⟨c1, h1, h2, h3, h4⟩ := inc_ready c P hr
    obtain ⟨c2, k1, k2, k3, k4⟩ := ih c1 h3
    refine ⟨c2, ?_, by omega, ?_, by rw [k4, h4]⟩
    · unfold feedAll
      rw [h1]
      exact k1
    · rintro ⟨chunk, hmem, hne⟩
      rcases List.mem_cons.mp hmem with e | hin
      · subst e
        have : 1 ≤ chunk.length := by
          rcases chunk with _ | ⟨x, l⟩
          · exact absurd rfl hne
          · simp
        have hm : min 1 chunk.length = 1 := by omega
        omega
      · have := k3 ⟨chunk, hin, hne⟩
        omega

/-- C20. Capacity 2: for each encoding for which `dzcobs_encode_inc_begin` meets its own
assertion `encFunc != NULL` (PLAIN, DICT_1, DICT_2) and whose begin preconditions hold (for
a dictionary encoding the slot is set, and its search reports sizes between 1 and the
remaining length, as the step function asserts) and every sequence of feeds with at least
one non-empty chunk, `dzcobs_encode_inc_begin` with capacity exactly 2 returns SUCCESS,
every feed returns SUCCESS, and `dzcobs_encode_inc_end` returns
`DZCOBS_RET_ERR_WRITE_OVERFLOW` without reporting a length. -/
theorem capacity_two_overflows (ctx0 : sDZCOBS_ctx) (aEncoding : eDZCOBS_encoding)
    (aDstBuf : Nat → Nat) (user6 : Nat) (chunks : List (List Nat))
    (henc : aEncoding ≠ DZCOBS_RESERVED)
    (hd1 : aEncoding = DZCOBS_USING_DICT_1 → ∃ d, ctx0.pDict 0 = some d ∧ dictSizesOk d)
    (hd2 : aEncoding = DZCOBS_USING_DICT_2 → ∃ d, ctx0.pDict 1 = some d ∧ dictSizesOk d)
    (hne : ∃ chunk ∈ chunks, chunk ≠ []) :
    (dzcobs_encode_inc_begin ctx0 aEncoding aDstBuf 2).1 = DZCOBS_RET_SUCCESS ∧
    ∃ c2, feedAll chunks (begunCtx ctx0 aEncoding aDstBuf 2 user6) =
        some (DZCOBS_RET_SUCCESS, c2) ∧
      encodeFrame ctx0 aEncoding aDstBuf 2 user6 chunks = some (dzcobs_encode_inc_end c2) ∧
      (dzcobs_encode_inc_end c2).ret = DZCOBS_RET_ERR_WRITE_OVERFLOW ∧
      (dzcobs_encode_inc_end c2).outSizeEncoded = none := by
  have hd : ¬ ((aEncoding = DZCOBS_USING_DICT_1 ∧ (ctx0.pDict 0).isNone) ∨
      (aEncoding = DZCOBS_USING_DICT_2 ∧ (ctx0.pDict 1).isNone)) := by
    rintro (⟨e, hn⟩ | ⟨e, hn⟩)
    · obtain ⟨d, hd, _⟩ := hd1 e
      rw [hd] at hn
      cases hn
    · obtain ⟨d, hd, _⟩ := hd2 e
      rw [hd] at hn
      cases hn
  have hceq := begunCtx_eq ctx0 aEncoding aDstBuf 2 user6 (Nat.le_refl _) hd
  have hready : FeedReady (begunCtx ctx0 aEncoding aDstBuf 2 user6) := by
    rw [hceq]
    cases aEncoding with
    | DZCOBS_PLAIN => exact Or.inl rfl
    | DZCOBS_USING_DICT_1 =>
      obtain ⟨d, hd, hok⟩ := hd1 rfl
      exact Or.inr ⟨rfl, d, hd, hok⟩
    | DZCOBS_USING_DICT_2 =>
      obtain ⟨d, hd, hok⟩ := hd2 rfl
      exact Or.inr ⟨rfl, d, hd, hok⟩
    | DZCOBS_RESERVED => exact absurd rfl henc
  obtain ⟨c2, k1, _, k3, k4⟩ := feedAll_ready chunks _ hready
  have hcur := k3 hne
  rw [hceq] at hcur k4
  have hcur2 : 2 ≤ c2.pCurDst := hcur
  have hend : c2.pDstEnd = 2 := k4
  have hov : c2.pCurDst + 1 > c2.pDstEnd := by omega
  refine ⟨by rw [begin_ok ctx0 aEncoding aDstBuf 2 (Nat.le_refl _) hd], c2, k1, ?_, ?_, ?_⟩
  · rw [encodeFrame_begun _ _ _ _ _ _ (Nat.le_refl _) hd, k1]
  · unfold dzcobs_encode_inc_end
    rw [if_pos hov]
  · unfold dzcobs_encode_inc_end
    rw [if_pos hov]

/-- C20, instance: dictionary encoding with the test dictionary, capacity 2, payload
`01 01` (one token) fed after an empty chunk. -/
theorem capacity_two_overflows_witness :
    DZCOBS_USING_DICT_1 ≠ DZCOBS_RESERVED ∧
    (∃ d, testDictCtx.pDict 0 = some d ∧ dictSizesOk d) ∧
    (∃ chunk ∈ [[], [0x01, 0x01]], chunk ≠ ([] : List Nat)) ∧
    (dzcobs_encode_inc_begin testDictCtx DZCOBS_USING_DICT_1 guardMem 2).1 =
      DZCOBS_RET_SUCCESS ∧
    ∃ c2, feedAll [[], [0x01, 0x01]] (begunCtx testDictCtx DZCOBS_USING_DICT_1 guardMem 2 0x3F)
        = some (DZCOBS_RET_SUCCESS, c2) ∧
      encodeFrame testDictCtx DZCOBS_USING_DICT_1 guardMem 2 0x3F [[], [0x01, 0x01]] =
        some (dzcobs_encode_inc_end c2) ∧
      (dzcobs_encode_inc_end c2).ret = DZCOBS_RET_ERR_WRITE_OVERFLOW ∧
      (dzcobs_encode_inc_end c2).outSizeEncoded = none :=
  ⟨by decide, ⟨s_TEST_Dictionary1, rfl, s_TEST_Dictionary1_sizesOk⟩,
   ⟨[0x01, 0x01], by simp, by simp⟩,
   capacity_two_overflows testDictCtx DZCOBS_USING_DICT_1 guardMem 0x3F [[], [0x01, 0x01]]
     (by decide) (fun _ => ⟨s_TEST_Dictionary1, rfl, s_TEST_Dictionary1_sizesOk⟩)
     (fun e => by cases e) ⟨[0x01, 0x01], by simp, by simp⟩⟩

theorem end_success_encFunc (c : sDZCOBS_ctx)
    (h : (dzcobs_encode_inc_end c).ret = DZCOBS_RET_SUCCESS) :
    (dzcobs_encode_inc_end c).ctx.encFunc = none := by
  unfold dzcobs_encode_inc_end at h ⊢
  split
  · rename_i h1
    rw [if_pos h1] at h
    cases h
  · rename_i h1
    split
    · rename_i h2
      rw [if_neg h1, if_pos h2] at h
      cases h
    · rfl

theorem inc_user6 (c : sDZCOBS_ctx) (P : List Nat) (r : eDZCOBS_ret) (c2 : sDZCOBS_ctx)
    (h : dzcobs_encode_inc c P = some (r, c2)) :
    c2.user6bits = c.user6bits ∧ c2.pDict = c.pDict := by
  unfold dzcobs_encode_inc at h
  split at h
  · simp only [Option.some.injEq, Prod.mk.injEq] at h
    obtain ⟨_, rfl⟩ := h
    exact ⟨rfl, rfl⟩
  · split at h
    · simp only [Option.some.injEq, Prod.mk.injEq] at h
      obtain ⟨_, rfl⟩ := h
      exact ⟨rfl, rfl⟩
    · split at h
      · simp only [dzcobs_encode_inc_plain, Option.some.injEq, Prod.mk.injEq] at h
        obtain ⟨_, rfl⟩ := h
        exact ⟨rfl, rfl⟩
      · unfold dzcobs_encode_inc_dictionary at h
        split at h
        · cases h
        · split at h
          · cases h
          · simp only [Option.some.injEq, Prod.mk.injEq] at h
            obtain ⟨_, rfl⟩ := h
            exact ⟨rfl, rfl⟩

/-- C21. End invalidates the context for feeding: when `dzcobs_encode_inc_end` returns
SUCCESS, `dzcobs_encode_inc` on the context it leaves returns
`DZCOBS_RET_ERR_NOTINITIALIZED` for every source buffer, of any length including 0, and
returns the context unchanged, so the same holds for every further call. -/
theorem end_invalidates_feed (c : sDZCOBS_ctx)
    (h : (dzcobs_encode_inc_end c).ret = DZCOBS_RET_SUCCESS) (aSrcBuf : List Nat) :
    dzcobs_encode_inc (dzcobs_encode_inc_end c).ctx aSrcBuf =
      some (DZCOBS_RET_ERR_NOTINITIALIZED, (dzcobs_encode_inc_end c).ctx) := by
  have hnone := end_success_encFunc c h
  unfold dzcobs_encode_inc
  rw [hnone]

/-- C21, instance: a frame begun in plain mode with `user6 = 0x3F` and ended; feeding
`41` afterwards. -/
theorem end_invalidates_feed_witness :
    (dzcobs_encode_inc_end (begunCtx zeroCtx DZCOBS_PLAIN guardMem 16 0x3F)).ret =
      DZCOBS_RET_SUCCESS ∧
    dzcobs_encode_inc (dzcobs_encode_inc_end (begunCtx zeroCtx DZCOBS_PLAIN guardMem 16 0x3F)).ctx
        [0x41] =
      some (DZCOBS_RET_ERR_NOTINITIALIZED,
        (dzcobs_encode_inc_end (begunCtx zeroCtx DZCOBS_PLAIN guardMem 16 0x3F)).ctx) :=
  ⟨by decide,
   end_invalidates_feed (begunCtx zeroCtx DZCOBS_PLAIN guardMem 16 0x3F) (by decide) [0x41]⟩

/-- C22, failing input: plain mode, capacity 16, `user6 = 0x3F`, payload `41`, then
`dzcobs_encode_inc_end` twice. The first call returns SUCCESS with length 4 (frame
`02 41 FC 54`) and clears `encFunc`; the second call does not look at `encFunc`, returns
SUCCESS again and reports length 6 (bytes `02 41 FC 54 FC 8B`). On a zeroed, never begun
context the call returns `DZCOBS_RET_ERR_WRITE_OVERFLOW`, and with a non-zero `user6bits`
and end pointer it returns SUCCESS; it never returns `DZCOBS_RET_ERR_NOTINITIALIZED`. -/
theorem second_end_returns_success :
    (encodeFrame zeroCtx DZCOBS_PLAIN guardMem 16 0x3F [[0x41]]).map
        (fun r => ([r.ret, (dzcobs_encode_inc_end r.ctx).ret],
          [r.outSizeEncoded, (dzcobs_encode_inc_end r.ctx).outSizeEncoded],
          r.ctx.encFunc, (dzcobs_encode_inc_end r.ctx).frame)) =
      some ([DZCOBS_RET_SUCCESS, DZCOBS_RET_SUCCESS], [some 4, some 6], none,
        [0x02, 0x41, 0xFC, 0x54, 0xFC, 0x8B]) ∧
    (dzcobs_encode_inc_end zeroCtx).ret = DZCOBS_RET_ERR_WRITE_OVERFLOW ∧
    (dzcobs_encode_inc_end { zeroCtx with user6bits := 0x3F, pDstEnd := 16 }).ret =
      DZCOBS_RET_SUCCESS := by
  decide

/-- C24. PLAIN test vectors, as `EncodePlainManual` and `DecodePlainManual` run them
(`user6 = 0x3F`, destination capacity 1024, decode capacity equal to the payload length):
each payload fed in one call gives SUCCESS, the listed length and the listed frame, and
each listed frame decodes to SUCCESS, the payload length, user tag `0x3F` and the payload,
for `41`, `41 42 43 44`, `41 42 00 43`, `00` and `00 00`. -/
theorem plain_test_vectors :
    [[0x41], [0x41, 0x42, 0x43, 0x44], [0x41, 0x42, 0x00, 0x43], [0x00], [0x00, 0x00]].map
        (fun P => (encodeFrame zeroCtx DZCOBS_PLAIN guardMem 1024 0x3F [P]).map
          (fun r => (r.ret, r.outSizeEncoded, r.frame))) =
      [some (DZCOBS_RET_SUCCESS, some 4, [0x02, 0x41, 0xFC, 0x54]),
       some (DZCOBS_RET_SUCCESS, some 7, [0x05, 0x41, 0x42, 0x43, 0x44, 0xFC, 0x9C]),
       some (DZCOBS_RET_SUCCESS, some 7, [0x03, 0x41, 0x42, 0x02, 0x43, 0xFC, 0x74]),
       some (DZCOBS_RET_SUCCESS, some 4, [0x01, 0x01, 0xFC, 0x37]),
       some (DZCOBS_RET_SUCCESS, some 5, [0x01, 0x01, 0x01, 0xFC, 0xDC])] ∧
    [([0x02, 0x41, 0xFC, 0x54], 1), ([0x05, 0x41, 0x42, 0x43, 0x44, 0xFC, 0x9C], 4),
     ([0x03, 0x41, 0x42, 0x02, 0x43, 0xFC, 0x74], 4), ([0x01, 0x01, 0xFC, 0x37], 1),
     ([0x01, 0x01, 0x01, 0xFC, 0xDC], 2)].map
        (fun F => dzcobs_decode { srcBufEncoded := F.1, dstBufDecodedSize := F.2,
                                  pDict := fun _ => none }) =
      [some { ret := DZCOBS_RET_SUCCESS, outDecodedLen := some 1, outUser6bit := some 0x3F,
              dstBufDecoded := [0x41] },
       some { ret := DZCOBS_RET_SUCCESS, outDecodedLen := some 4, outUser6bit := some 0x3F,
              dstBufDecoded := [0x41, 0x42, 0x43, 0x44] },
       some { ret := DZCOBS_RET_SUCCESS, outDecodedLen := some 4, outUser6bit := some 0x3F,
              dstBufDecoded := [0x41, 0x42, 0x00, 0x43] },
       some { ret := DZCOBS_RET_SUCCESS, outDecodedLen := some 1, outUser6bit := some 0x3F,
              dstBufDecoded := [0x00] },
       some { ret := DZCOBS_RET_SUCCESS, outDecodedLen := some 2, outUser6bit := some 0x3F,
              dstBufDecoded := [0x00, 0x00] }] := by
  decide

/-- C25. Dictionary test vectors, as `EncodeDictionaryManual` and
`DecodedictionaryManual` run them (test dictionary in slot 1, `user6 = 0x3F`,
destination capacity `DZCOBS_MAX_ENCODED_SIZE( n ) + 2`, decode capacity equal to the
payload length): each payload fed in one call gives SUCCESS, the listed length and the
listed frame, and each listed frame decodes to SUCCESS, user tag `0x3F` and the payload,
for `01 01`, `01 01 01 01`, `12 01 01 01 01` and `12 01 01 00 02 00 02`. -/
theorem dictionary_test_vectors :
    [[0x01, 0x01], [0x01, 0x01, 0x01, 0x01], [0x12, 0x01, 0x01, 0x01, 0x01],
     [0x12, 0x01, 0x01, 0x00, 0x02, 0x00, 0x02]].map
        (fun P => (encodeFrame testDictCtx DZCOBS_USING_DICT_1 guardMem
            (DZCOBS_MAX_ENCODED_SIZE P.length + DZCOBS_FRAME_HEADER_SIZE) 0x3F [P]).map
          (fun r => (r.ret, r.outSizeEncoded, r.frame))) =
      [some (DZCOBS_RET_SUCCESS, some 3, [0x80, 0xFD, 0x84]),
       some (DZCOBS_RET_SUCCESS, some 4, [0x80, 0x80, 0xFD, 0x74]),
       some (DZCOBS_RET_SUCCESS, some 6, [0x02, 0x12, 0x80, 0x80, 0xFD, 0x12]),
       some (DZCOBS_RET_SUCCESS, some 7, [0x02, 0x12, 0x80, 0x01, 0x81, 0xFD, 0x5C])] ∧
    [([0x80, 0xFD, 0x84], 2), ([0x80, 0x80, 0xFD, 0x74], 4),
     ([0x02, 0x12, 0x80, 0x80, 0xFD, 0x12], 5),
     ([0x02, 0x12, 0x80, 0x01, 0x81, 0xFD, 0x5C], 7)].map
        (fun F => dzcobs_decode { srcBufEncoded := F.1, dstBufDecodedSize := F.2,
                                  pDict := testDictCtx.pDict }) =
      [some { ret := DZCOBS_RET_SUCCESS, outDecodedLen := some 2, outUser6bit := some 0x3F,
              dstBufDecoded := [0x01, 0x01] },
       some { ret := DZCOBS_RET_SUCCESS, outDecodedLen := some 4, outUser6bit := some 0x3F,
              dstBufDecoded := [0x01, 0x01, 0x01, 0x01] },
       some { ret := DZCOBS_RET_SUCCESS, outDecodedLen := some 5, outUser6bit := some 0x3F,
              dstBufDecoded := [0x12, 0x01, 0x01, 0x01, 0x01] },
       some { ret := DZCOBS_RET_SUCCESS, outDecodedLen := some 7, outUser6bit := some 0x3F,
              dstBufDecoded := [0x12, 0x01, 0x01, 0x00, 0x02, 0x00, 0x02] }] := by
  decide

/-- C27. Begin keeps the caller's settings: `dzcobs_encode_inc_begin`, whatever it
returns, leaves `user6bits` and both dictionary slots of the context as they were; so do
`dzcobs_encode_inc_end` and every `dzcobs_encode_inc` call that returns. -/
theorem begin_keeps_settings (aCtx : sDZCOBS_ctx) (aEncoding : eDZCOBS_encoding)
    (aDstBuf : Nat → Nat) (aDstBufSize : Nat) (aSrcBuf : List Nat) :
    ((dzcobs_encode_inc_begin aCtx aEncoding aDstBuf aDstBufSize).2.user6bits = aCtx.user6bits ∧
      (dzcobs_encode_inc_begin aCtx aEncoding aDstBuf aDstBufSize).2.pDict 0 = aCtx.pDict 0 ∧
      (dzcobs_encode_inc_begin aCtx aEncoding aDstBuf aDstBufSize).2.pDict 1 = aCtx.pDict 1) ∧
    ((dzcobs_encode_inc_end aCtx).ctx.user6bits = aCtx.user6bits ∧
      (dzcobs_encode_inc_end aCtx).ctx.pDict 0 = aCtx.pDict 0 ∧
      (dzcobs_encode_inc_end aCtx).ctx.pDict 1 = aCtx.pDict 1) ∧
    (dzcobs_encode_inc aCtx aSrcBuf).map (fun p => (p.2.user6bits, p.2.pDict 0, p.2.pDict 1)) =
      (dzcobs_encode_inc aCtx aSrcBuf).map
        (fun _ => (aCtx.user6bits, aCtx.pDict 0, aCtx.pDict 1)) := by
  refine ⟨?_, ?_, ?_⟩
  · unfold dzcobs_encode_inc_begin
    split
    · exact ⟨rfl, rfl, rfl⟩
    · split
      · exact ⟨rfl, rfl, rfl⟩
      · exact ⟨rfl, rfl, rfl⟩
  · unfold dzcobs_encode_inc_end
    split
    · exact ⟨rfl, rfl, rfl⟩
    · split
      · exact ⟨rfl, rfl, rfl⟩
      · simp only
        split <;> exact ⟨rfl, rfl, rfl⟩
  · cases hres : dzcobs_encode_inc aCtx aSrcBuf with
    | none => rfl
    | some p =>
      obtain ⟨a1, a2⟩ := inc_user6 aCtx aSrcBuf p.1 p.2 hres
      simp only [Option.map_some', a1, a2]

/-- C28, failing input: dictionary mode with the test dictionary, capacity 200,
`user6 = 0x3F`, 126 bytes `41` fed in one call and one more byte `41` fed in a second
call. The first call ends with the pending code `0x7F` (the group is closed only when
more input remains in the call), the second call counts on to `0x80`; both feeds and end
return SUCCESS, the length is 130 and the code byte stored in slot 0 is `0x80`, which has
the shape of a dictionary token, with 127 literals behind it; `dzcobs_decode` with the
same dictionary answers the frame with `DZCOBS_RET_ERR_READ_OVERFLOW`. -/
theorem dict_chunked_feed_code_reaches_0x80 :
    (feedAll [List.replicate 126 0x41]
        (begunCtx testDictCtx DZCOBS_USING_DICT_1 guardMem 200 0x3F)).map
        (fun p => (p.1, p.2.code)) = some (DZCOBS_RET_SUCCESS, 0x7F) ∧
    (feedAll [List.replicate 126 0x41, [0x41]]
        (begunCtx testDictCtx DZCOBS_USING_DICT_1 guardMem 200 0x3F)).map
        (fun p => (p.1, p.2.code, p.2.pCodeDst, p.2.pCurDst)) =
      some (DZCOBS_RET_SUCCESS, 0x80, 0, 128) ∧
    (encodeFrame testDictCtx DZCOBS_USING_DICT_1 guardMem 200 0x3F
        [List.replicate 126 0x41, [0x41]]).map
        (fun r => (r.ret, r.outSizeEncoded, r.frame.take 2, r.frame.drop 127,
          (dzcobs_decode { srcBufEncoded := r.frame, dstBufDecodedSize := 200,
                           pDict := testDictCtx.pDict }).map (fun d => d.ret))) =
      some (DZCOBS_RET_SUCCESS, some 130, [0x80, 0x41], [0x41, 0xFD, 0xE7],
        some DZCOBS_RET_ERR_READ_OVERFLOW) := by
  decide!

theorem hashSum_perm (l l2 : List Nat) (h : l.Perm l2) : hashSum l = hashSum l2 := by
  unfold hashSum
  exact (h.map DZCOBS_HASH8).sum_eq

theorem decode_same_crc_verdict (pre pre2 : List Nat) (t t2 hb dsz : Nat)
    (pd pd2 : Nat → Option sDICT_ctx)
    (hsum : hashSum (pre ++ [t]) = hashSum (pre2 ++ [t2])) (hlen : 1 ≤ pre.length)
    (hlen2 : 1 ≤ pre2.length) (hdsz : 1 ≤ dsz) (ht : t ≠ 0) (ht2 : t2 ≠ 0) (hhb : hb ≠ 0) :
    ∃ res res2,
      dzcobs_decode { srcBufEncoded := pre ++ [t, hb], dstBufDecodedSize := dsz, pDict := pd } =
        some res ∧
      dzcobs_decode { srcBufEncoded := pre2 ++ [t2, hb], dstBufDecodedSize := dsz,
                      pDict := pd2 } = some res2 ∧
      (res.ret = DZCOBS_RET_ERR_CRC ↔ res2.ret = DZCOBS_RET_ERR_CRC) := by
  obtain ⟨p1, p2, p3, p4⟩ := frame_parts pre t hb
  obtain ⟨q1, q2, q3, q4⟩ := frame_parts pre2 t2 hb
  have hargs : ¬ (dsz = 0 ∨ (pre ++ [t, hb]).length < 3) := by rw [p1]; omega
  have hargs2 : ¬ (dsz = 0 ∨ (pre2 ++ [t2, hb]).length < 3) := by rw [q1]; omega
  have hz : ¬ ((pre ++ [t, hb]).getD ((pre ++ [t, hb]).length - 1) 0 = 0 ∨
      (pre ++ [t, hb]).getD ((pre ++ [t, hb]).length - 2) 0 = 0) := by
    rw [p1, p2, p3]
    rintro (e | e)
    · exact hhb e
    · exact ht e
  have hz2 : ¬ ((pre2 ++ [t2, hb]).getD ((pre2 ++ [t2, hb]).length - 1) 0 = 0 ∨
      (pre2 ++ [t2, hb]).getD ((pre2 ++ [t2, hb]).length - 2) 0 = 0) := by
    rw [q1, q2, q3]
    rintro (e | e)
    · exact hhb e
    · exact ht2 e
  by_cases heq : hb = hashByte (hashSum (pre ++ [t]) % 256)
  · obtain ⟨res, r1, _, r3, _⟩ := decode_hash_ok
      { srcBufEncoded := pre ++ [t, hb], dstBufDecodedSize := dsz, pDict := pd } hargs hz
      (by
        show (pre ++ [t, hb]).getD ((pre ++ [t, hb]).length - 1) 0 =
          hashByte (hashSum ((pre ++ [t, hb]).take ((pre ++ [t, hb]).length - 1)) % 256)
        rw [p1, p2, p4]
        exact heq)
    obtain ⟨res2, s1, _, s3, _⟩ := decode_hash_ok
      { srcBufEncoded := pre2 ++ [t2, hb], dstBufDecodedSize := dsz, pDict := pd2 } hargs2 hz2
      (by
        show (pre2 ++ [t2, hb]).getD ((pre2 ++ [t2, hb]).length - 1) 0 =
          hashByte (hashSum ((pre2 ++ [t2, hb]).take ((pre2 ++ [t2, hb]).length - 1)) % 256)
        rw [q1, q2, q4, ← hsum]
        exact heq)
    exact ⟨res, res2, r1, s1, fun e => absurd e r3, fun e => absurd e s3⟩
  · have r1 := decode_crc
      { srcBufEncoded := pre ++ [t, hb], dstBufDecodedSize := dsz, pDict := pd } hargs hz
      (by
        show (pre ++ [t, hb]).getD ((pre ++ [t, hb]).length - 1) 0 ≠
          hashByte (hashSum ((pre ++ [t, hb]).take ((pre ++ [t, hb]).length - 1)) % 256)
        rw [p1, p2, p4]
        exact heq)
    have s1 := decode_crc
      { srcBufEncoded := pre2 ++ [t2, hb], dstBufDecodedSize := dsz, pDict := pd2 } hargs2 hz2
      (by
        show (pre2 ++ [t2, hb]).getD ((pre2 ++ [t2, hb]).length - 1) 0 ≠
          hashByte (hashSum ((pre2 ++ [t2, hb]).take ((pre2 ++ [t2, hb]).length - 1)) % 256)
        rw [q1, q2, q4, ← hsum]
        exact heq)
    exact ⟨_, _, r1, s1, fun _ => rfl, fun _ => rfl⟩

/-- C29. Hash is order-independent: for every two byte sequences that are permutations
of each other, the checksum loop of `dzcobs_decode` gives the same value (the sum modulo
256 of `DZCOBS_HASH8` over the bytes); and for two inputs of at least 3 bytes with the same
non-zero last byte whose bytes `0 .. L-2` are these two sequences, each with a non-zero
byte in position `L-2`, `dzcobs_decode` with a non-zero output capacity returns a result
for both, and it is `DZCOBS_RET_ERR_CRC` for the one if and only if it is for the other:
a reordering of an input that passes the hash check passes it too. -/
theorem hash_order_independent (l l2 : List Nat) (hperm : l.Perm l2) :
    checksumLoop l 0 = checksumLoop l2 0 ∧
    checksumLoop l 0 = hashSum l % 256 ∧
    ∀ (pre pre2 : List Nat) (t t2 hb dsz : Nat) (pd pd2 : Nat → Option sDICT_ctx),
      l = pre ++ [t] → l2 = pre2 ++ [t2] → 1 ≤ pre.length → 1 ≤ dsz →
      t ≠ 0 → t2 ≠ 0 → hb ≠ 0 →
      ∃ res res2,
        dzcobs_decode { srcBufEncoded := pre ++ [t, hb], dstBufDecodedSize := dsz,
                        pDict := pd } = some res ∧
        dzcobs_decode { srcBufEncoded := pre2 ++ [t2, hb], dstBufDecodedSize := dsz,
                        pDict := pd2 } = some res2 ∧
        (res.ret = DZCOBS_RET_ERR_CRC ↔ res2.ret = DZCOBS_RET_ERR_CRC) := by
  have hsum := hashSum_perm l l2 hperm
  refine ⟨by rw [checksumLoop_zero, checksumLoop_zero, hsum], checksumLoop_zero l, ?_⟩
  intro pre pre2 t t2 hb dsz pd pd2 e1 e2 hlen hdsz ht ht2 hhb
  have hl := hperm.length_eq
  rw [e1, e2] at hsum hl
  simp only [List.length_append, List.length_singleton] at hl
  exact decode_same_crc_verdict pre pre2 t t2 hb dsz pd pd2 hsum hlen (by omega) hdsz ht ht2
    hhb

/-- C29, instance: the bytes `02 41 FC` of the frame `02 41 FC 54`, reordered to
`FC 02 41`. -/
theorem hash_order_independent_witness :
    [0x02, 0x41, 0xFC].Perm [0xFC, 0x02, 0x41] ∧
    checksumLoop [0x02, 0x41, 0xFC] 0 = checksumLoop [0xFC, 0x02, 0x41] 0 ∧
    checksumLoop [0x02, 0x41, 0xFC] 0 = hashSum [0x02, 0x41, 0xFC] % 256 ∧
    ∀ (pre pre2 : List Nat) (t t2 hb dsz : Nat) (pd pd2 : Nat → Option sDICT_ctx),
      [0x02, 0x41, 0xFC] = pre ++ [t] → [0xFC, 0x02, 0x41] = pre2 ++ [t2] → 1 ≤ pre.length →
      1 ≤ dsz → t ≠ 0 → t2 ≠ 0 → hb ≠ 0 →
      ∃ res res2,
        dzcobs_decode { srcBufEncoded := pre ++ [t, hb], dstBufDecodedSize := dsz,
                        pDict := pd } = some res ∧
        dzcobs_decode { srcBufEncoded := pre2 ++ [t2, hb], dstBufDecodedSize := dsz,
                        pDict := pd2 } = some res2 ∧
        (res.ret = DZCOBS_RET_ERR_CRC ↔ res2.ret = DZCOBS_RET_ERR_CRC) :=
  ⟨by decide, hash_order_independent [0x02, 0x41, 0xFC] [0xFC, 0x02, 0x41] (by decide)⟩

theorem prefix_iff_take (w key : List Nat) :
    w <+: key ↔ w.length ≤ key.length ∧ key.take w.length = w := by
  constructor
  · intro h
    exact ⟨h.length_le, (List.prefix_iff_eq_take.mp h).symm⟩
  · rintro ⟨_, h⟩
    exact List.prefix_iff_eq_take.mpr h.symm

theorem dictSearchFrom_inv (key : List Nat) :
    ∀ (ws done : List (List Nat)) (best : Nat × Nat),
    (∀ w ∈ done, 1 ≤ w.length) → (∀ w ∈ ws, 1 ≤ w.length) →
    ((best.1 = 0 ∧ best.2 = 0 ∧ ∀ w ∈ done, ¬ w <+: key) ∨
      (1 ≤ best.1 ∧ best.1 ≤ done.length ∧ done.get? (best.1 - 1) = some (key.take best.2) ∧
        best.2 ≤ key.length ∧ 1 ≤ best.2 ∧ ∀ w ∈ done, w <+: key → w.length ≤ best.2)) →
    (((dictSearchFrom key ws (done.length + 1) best).1 = 0 ∧
        (dictSearchFrom key ws (done.length + 1) best).2 = 0 ∧
        ∀ w ∈ done ++ ws, ¬ w <+: key) ∨
      (1 ≤ (dictSearchFrom key ws (done.length + 1) best).1 ∧
        (dictSearchFrom key ws (done.length + 1) best).1 ≤ (done ++ ws).length ∧
        (done ++ ws).get? ((dictSearchFrom key ws (done.length + 1) best).1 - 1) =
          some (key.take (dictSearchFrom key ws (done.length + 1) best).2) ∧
        (dictSearchFrom key ws (done.length + 1) best).2 ≤ key.length ∧
        1 ≤ (dictSearchFrom key ws (done.length + 1) best).2 ∧
        ∀ w ∈ done ++ ws, w <+: key →
          w.length ≤ (dictSearchFrom key ws (done.length + 1) best).2)) := by
  intro ws
  induction ws with
  | nil =>
    intro done best _ _ h
    simpa [dictSearchFrom] using h
  | cons w ws ih =>
    intro done best hdone hws h
    have hw : 1 ≤ w.length := hws w (by simp)
    have hrest : ∀ x ∈ ws, 1 ≤ x.length := fun x hx => hws x (by simp [hx])
    have hdone2 : ∀ x ∈ done ++ [w], 1 ≤ x.length := by
      intro x hx
      rcases List.mem_append.mp hx with hx | hx
      · exact hdone x hx
      · rw [List.mem_singleton] at hx
        rw [hx]
        exact hw
    have happ : done ++ w :: ws = (done ++ [w]) ++ ws := by simp
    have hlen : (done ++ [w]).length + 1 = done.length + 1 + 1 := by simp
    unfold dictSearchFrom
    rw [happ, ← hlen]
    split
    · next hc =>
      obtain ⟨c1, c2, c3⟩ := hc
      apply ih (done ++ [w]) _ hdone2 hrest
      refine Or.inr ⟨by show 1 ≤ done.length + 1; omega, by simp, ?_, c1, hw, ?_⟩
      · show (done ++ [w]).get? (done.length + 1 - 1) = some (key.take w.length)
        rw [Nat.add_sub_cancel, c2, List.get?_eq_getElem?,
          List.getElem?_append_right (Nat.le_refl _)]
        simp
      · intro x hx hpre
        show x.length ≤ w.length
        rcases List.mem_append.mp hx with hx | hx
        · rcases h with ⟨_, _, h3⟩ | ⟨_, _, _, _, _, h6⟩
          · exact absurd hpre (h3 x hx)
          · have := h6 x hx hpre
            omega
        · rw [List.mem_singleton] at hx
          rw [hx]
    · next hc =>
      apply ih (done ++ [w]) _ hdone2 hrest
      rcases h with ⟨h1, h2, h3⟩ | ⟨h1, h2, h3, h4, h5, h6⟩
      · refine Or.inl ⟨h1, h2, ?_⟩
        intro x hx hpre
        rcases List.mem_append.mp hx with hx | hx
        · exact h3 x hx hpre
        · rw [List.mem_singleton] at hx
          subst hx
          obtain ⟨p1, p2⟩ := (prefix_iff_take x key).mp hpre
          exact hc ⟨p1, p2, by omega⟩
      · refine Or.inr ⟨h1, by simp; omega, ?_, h4, h5, ?_⟩
        · rw [List.get?_eq_getElem?, List.getElem?_append_left (by omega),
            ← List.get?_eq_getElem?]
          exact h3
        · intro x hx hpre
          rcases List.mem_append.mp hx with hx | hx
          · exact h6 x hx hpre
          · rw [List.mem_singleton] at hx
            subst hx
            obtain ⟨p1, p2⟩ := (prefix_iff_take x key).mp hpre
            by_contra hlt
            exact hc ⟨p1, p2, by omega⟩

/-- C30. Dictionary search is longest-match, on the dictionary modelled from the spec:
for every word list of at most 127 words, each of at least 2 bytes, and every key, the
search returns index 0 exactly when no word is an initial segment of the key; otherwise
the index is in 1..127, the reported length is at most the key length, the word
`dzcobs_dictionary_get` returns for the index minus 1 is the initial segment of the key
of the reported length, and no word that is an initial segment of the key is longer. -/
theorem dictionary_search_longest_match (ws : List (List Nat)) (key : List Nat)
    (hcount : ws.length ≤ 127) (hwords : ∀ w ∈ ws, 2 ≤ w.length) :
    (((dictOfWords ws).search key).1 = 0 ↔ ∀ w ∈ ws, ¬ w <+: key) ∧
    (((dictOfWords ws).search key).1 ≠ 0 →
      1 ≤ ((dictOfWords ws).search key).1 ∧ ((dictOfWords ws).search key).1 ≤ 127 ∧
      1 ≤ ((dictOfWords ws).search key).2 ∧
      ((dictOfWords ws).search key).2 ≤ key.length ∧
      (dictOfWords ws).get (((dictOfWords ws).search key).1 - 1) =
        some (key.take ((dictOfWords ws).search key).2) ∧
      ∀ w ∈ ws, w <+: key → w.length ≤ ((dictOfWords ws).search key).2) := by
  have h := dictSearchFrom_inv key ws [] (0, 0) (by simp)
    (fun w hw => by have := hwords w hw; omega) (Or.inl ⟨rfl, rfl, by simp⟩)
  simp only [List.length_nil, Nat.zero_add, List.nil_append] at h
  show ((dictSearchFrom key ws 1 (0, 0)).1 = 0 ↔ ∀ w ∈ ws, ¬ w <+: key) ∧
    ((dictSearchFrom key ws 1 (0, 0)).1 ≠ 0 →
      1 ≤ (dictSearchFrom key ws 1 (0, 0)).1 ∧ (dictSearchFrom key ws 1 (0, 0)).1 ≤ 127 ∧
      1 ≤ (dictSearchFrom key ws 1 (0, 0)).2 ∧
      (dictSearchFrom key ws 1 (0, 0)).2 ≤ key.length ∧
      ws.get? ((dictSearchFrom key ws 1 (0, 0)).1 - 1) =
        some (key.take (dictSearchFrom key ws 1 (0, 0)).2) ∧
      ∀ w ∈ ws, w <+: key → w.length ≤ (dictSearchFrom key ws 1 (0, 0)).2)
  rcases h with ⟨h1, _, h3⟩ | ⟨h1, h2, h3, h4, h5, h6⟩
  · exact ⟨⟨fun _ => h3, fun _ => h1⟩, fun hne => absurd h1 hne⟩
  · refine ⟨⟨fun h0 => by omega, fun hno => ?_⟩, fun _ => ⟨h1, by omega, h5, h4, h3, h6⟩⟩
    exfalso
    exact hno _ (List.get?_mem h3) (List.take_prefix _ _)

/-- C30, instance: the test dictionary and the key `02 00 02 09`, for which the search
returns index 2 and length 3. -/
theorem dictionary_search_longest_match_witness :
    ([[1, 1], [2, 0, 2], [3, 0, 0, 3], [4, 0, 0, 0, 4]] : List (List Nat)).length ≤ 127 ∧
    (∀ w ∈ ([[1, 1], [2, 0, 2], [3, 0, 0, 3], [4, 0, 0, 0, 4]] : List (List Nat)),
      2 ≤ w.length) ∧
    s_TEST_Dictionary1.search [2, 0, 2, 9] = (2, 3) ∧
    ((s_TEST_Dictionary1.search [2, 0, 2, 9]).1 = 0 ↔
      ∀ w ∈ ([[1, 1], [2, 0, 2], [3, 0, 0, 3], [4, 0, 0, 0, 4]] : List (List Nat)),
        ¬ w <+: [2, 0, 2, 9]) ∧
    ((s_TEST_Dictionary1.search [2, 0, 2, 9]).1 ≠ 0 →
      1 ≤ (s_TEST_Dictionary1.search [2, 0, 2, 9]).1 ∧
      (s_TEST_Dictionary1.search [2, 0, 2, 9]).1 ≤ 127 ∧
      1 ≤ (s_TEST_Dictionary1.search [2, 0, 2, 9]).2 ∧
      (s_TEST_Dictionary1.search [2, 0, 2, 9]).2 ≤ [2, 0, 2, 9].length ∧
      s_TEST_Dictionary1.get ((s_TEST_Dictionary1.search [2, 0, 2, 9]).1 - 1) =
        some ([2, 0, 2, 9].take (s_TEST_Dictionary1.search [2, 0, 2, 9]).2) ∧
      ∀ w ∈ ([[1, 1], [2, 0, 2], [3, 0, 0, 3], [4, 0, 0, 0, 4]] : List (List Nat)),
        w <+: [2, 0, 2, 9] → w.length ≤ (s_TEST_Dictionary1.search [2, 0, 2, 9]).2) :=
  ⟨by decide, by decide, by decide,
   dictionary_search_longest_match [[1, 1], [2, 0, 2], [3, 0, 0, 3], [4, 0, 0, 0, 4]]
     [2, 0, 2, 9] (by decide) (by decide)⟩

/-- C35. Per-byte hash separates single-bit neighbours: for every byte `b` in 0..255 and
every bit `k` in 0..7, `DZCOBS_HASH8( b )` and `DZCOBS_HASH8( b xor 2^k )` differ modulo
256; and inverting one bit of one byte of a sequence of bytes changes the value the
checksum loop of `dzcobs_decode` computes over the sequence. -/
theorem hash8_separates_bit_neighbours :
    (∀ b, b < 256 → ∀ k, k < 8 →
      DZCOBS_HASH8 b % 256 ≠ DZCOBS_HASH8 (b ^^^ 2 ^ k) % 256) ∧
    ∀ (l : List Nat) (i k : Nat), (∀ b ∈ l, b < 256) → i < l.length → k < 8 →
      checksumLoop (flipBit l i k) 0 ≠ checksumLoop l 0 := by
  refine ⟨fun b hb k hk => fun e => (hash8_flip b hb k hk).2.2.1 e.symm, ?_⟩
  intro l i k hl hi hk
  have hb : l.getD i 0 < 256 := by
    rw [List.getD_eq_getElem _ _ hi]
    exact hl _ (List.getElem_mem hi)
  obtain ⟨_, _, f3, _, _⟩ := hash8_flip _ hb k hk
  have hset := hashSum_set (l.getD i 0 ^^^ 2 ^ k) l i hi
  rw [checksumLoop_zero, checksumLoop_zero]
  unfold flipBit
  omega

/-- C36, failing input: the byte `01`. `DZCOBS_HASH8( 1 )` is `( 1 * 167 ) ^ ( 1 << 1 )`,
165 modulo 256, while `hash8( 1 )` of `test_checksum.cpp` is 233: the macro combines the
product with the shifted input byte, the function with the shifted product. The two agree
on the byte `00` only, and the hashes of the one-byte sequence `01` differ. -/
theorem hash8_macro_differs_from_study :
    DZCOBS_HASH8 1 % 256 = 165 ∧ hash8 1 = 233 ∧
    checksumLoop [1] 0 = 165 ∧ multiset_hash [1] = 233 ∧
    (List.range 256).filter (fun b => DZCOBS_HASH8 b % 256 = hash8 b) = [0] := by
  decide!

/-- C37, failing input: the constant itself. `G_DZCOBS_DefaultDictionary` holds the words
`00 00`, `00 01`, `01 00`, `0D 0A`, `00 00 00`, `00 00 01`, `00 01 00`, `01 00 00`: the
runs are in ascending length order (2 then 3, four words each), and for every word and
the word before it in its run, the earlier one is strictly smaller and the later one is not:
the order is ascending, not descending as the comment on the constant says. -/
theorem default_dictionary_is_ascending :
    G_DZCOBS_DefaultDictionary_size = 29 ∧
    dictBlobWords G_DZCOBS_DefaultDictionary_size G_DZCOBS_DefaultDictionary =
      [[0x00, 0x00], [0x00, 0x01], [0x01, 0x00], [0x0D, 0x0A],
       [0x00, 0x00, 0x00], [0x00, 0x00, 0x01], [0x00, 0x01, 0x00], [0x01, 0x00, 0x00]] ∧
    [2, 3].map (fun L =>
        ((dictBlobWords G_DZCOBS_DefaultDictionary_size G_DZCOBS_DefaultDictionary).filter
          (fun w => w.length = L)).length) = [4, 4] ∧
    [2, 3].map (fun L =>
        let run := (dictBlobWords G_DZCOBS_DefaultDictionary_size
          G_DZCOBS_DefaultDictionary).filter (fun w => w.length = L)
        (run.zip run.tail).map (fun p => (lexLess p.1 p.2, lexLess p.2 p.1))) =
      [[(true, false), (true, false), (true, false)],
       [(true, false), (true, false), (true, false)]] ∧
    lexLess [0x00, 0x01] [0x00, 0x00] = false := by
  decide

theorem decodeLiterals_cases (i : Nat) : ∀ (rd out : List Nat), i ≤ rd.length →
    ((∀ b ∈ rd.take i, b ≠ 0) ∧
        decodeLiterals i rd out = (true, rd.drop i, out ++ rd.take i)) ∨
      ((∃ b ∈ rd.take i, b = 0) ∧ (decodeLiterals i rd out).1 = false) := by
  induction i with
  | zero =>
    intro rd out _
    exact Or.inl ⟨by simp, by simp [decodeLiterals]⟩
  | succ i ih =>
    intro rd out h
    cases rd with
    | nil => simp at h
    | cons b rd =>
      simp only [List.length_cons] at h
      simp only [decodeLiterals, List.take_succ_cons, List.drop_succ_cons]
      by_cases hb : b = 0
      · rw [if_pos hb]
        exact Or.inr ⟨⟨b, by simp, hb⟩, rfl⟩
      · rw [if_neg hb]
        rcases ih rd (out ++ [b]) (by omega) with ⟨h1, h2⟩ | ⟨⟨x, hx, hx0⟩, h2⟩
        · refine Or.inl ⟨?_, ?_⟩
          · intro x hx
            rcases List.mem_cons.mp hx with e | e
            · rw [e]; exact hb
            · exact h1 x e
          · rw [h2]
            simp
        · exact Or.inr ⟨⟨x, by simp [hx], hx0⟩, h2⟩

theorem plain_loop_step_error (dsz fuel code0 : Nat) (rest out : List Nat) :
    (code0 = 0 →
      dzcobs_decode_plain_loop dsz (fuel + 1) (code0 :: rest) out =
        some (DZCOBS_RET_ERR_BAD_ENCODED_PAYLOAD, out)) ∧
    (code0 ≠ 0 → remainOutput dsz out.length < code0 - 1 →
      dzcobs_decode_plain_loop dsz (fuel + 1) (code0 :: rest) out =
        some (DZCOBS_RET_ERR_WRITE_OVERFLOW, out)) ∧
    (code0 ≠ 0 → code0 - 1 ≤ remainOutput dsz out.length → rest.length < code0 - 1 →
      dzcobs_decode_plain_loop dsz (fuel + 1) (code0 :: rest) out =
        some (DZCOBS_RET_ERR_READ_OVERFLOW, out)) ∧
    (code0 ≠ 0 → code0 - 1 ≤ remainOutput dsz out.length → code0 - 1 ≤ rest.length →
      (∃ b ∈ rest.take (code0 - 1), b = 0) →
      ∃ out1, dzcobs_decode_plain_loop dsz (fuel + 1) (code0 :: rest) out =
        some (DZCOBS_RET_ERR_BAD_ENCODED_PAYLOAD, out1)) := by
  refine ⟨?_, ?_, ?_, ?_⟩
  · intro h0
    rw [dzcobs_decode_plain_loop, if_pos h0]
  · intro h0 hw
    rw [dzcobs_decode_plain_loop, if_neg h0]
    simp only
    rw [if_pos hw]
  · intro h0 hw hr
    rw [dzcobs_decode_plain_loop, if_neg h0]
    simp only
    rw [if_neg (by omega), if_pos hr]
  · intro h0 hw hr hz
    rw [dzcobs_decode_plain_loop, if_neg h0]
    simp only
    rw [if_neg (by omega), if_neg (by omega)]
    rcases decodeLiterals_cases (code0 - 1) rest out hr with ⟨h1, _⟩ | ⟨_, h2⟩
    · obtain ⟨b, hb, hb0⟩ := hz
      exact absurd hb0 (h1 b hb)
    · generalize decodeLiterals (code0 - 1) rest out = res at h2 ⊢
      obtain ⟨ok, rd1, out1⟩ := res
      simp only at h2
      subst h2
      exact ⟨out1, rfl⟩

theorem decodeReport_ret (t : Nat) (r : eDZCOBS_ret × List Nat) : (decodeReport t r).ret = r.1 := by
  unfold decodeReport
  split <;> rfl

theorem decodeReport_success (t : Nat) (r : eDZCOBS_ret × List Nat) (res : sDecodeResult)
    (h : decodeReport t r = res) (hs : res.ret = DZCOBS_RET_SUCCESS) :
    r.1 = DZCOBS_RET_SUCCESS ∧ res.outDecodedLen = some r.2.length ∧ res.dstBufDecoded = r.2 := by
  have h1 : r.1 = DZCOBS_RET_SUCCESS := by
    rw [← decodeReport_ret t r, h]
    exact hs
  subst h
  unfold decodeReport
  rw [if_pos h1]
  exact ⟨h1, rfl, rfl⟩

theorem decode_success_inv (ctx : sDZCOBS_decodectx) (res : sDecodeResult)
    (h : dzcobs_decode ctx = some res) (hs : res.ret = DZCOBS_RET_SUCCESS) :
    3 ≤ ctx.srcBufEncoded.length ∧ 1 ≤ ctx.dstBufDecodedSize ∧
    ctx.srcBufEncoded.getD (ctx.srcBufEncoded.length - 1) 0 ≠ 0 ∧
    ctx.srcBufEncoded.getD (ctx.srcBufEncoded.length - 2) 0 ≠ 0 ∧
    ((eDZCOBS_encoding.ofBits
          (ctx.srcBufEncoded.getD (ctx.srcBufEncoded.length - 2) 0 &&& 0x03) = DZCOBS_PLAIN ∧
        ∃ final, dzcobs_decode_plain_loop ctx.dstBufDecodedSize
            (ctx.srcBufEncoded.take (ctx.srcBufEncoded.length - 2)).length
            (ctx.srcBufEncoded.take (ctx.srcBufEncoded.length - 2)) [] =
              some (DZCOBS_RET_SUCCESS, final) ∧
          res.outDecodedLen = some final.length ∧ res.dstBufDecoded = final) ∨
      (eDZCOBS_encoding.ofBits
          (ctx.srcBufEncoded.getD (ctx.srcBufEncoded.length - 2) 0 &&& 0x03) ≠ DZCOBS_PLAIN ∧
        ∃ d final, dzcobs_decode_dictionary_loop ctx.dstBufDecodedSize d
            (ctx.srcBufEncoded.take (ctx.srcBufEncoded.length - 2)).length
            (ctx.srcBufEncoded.take (ctx.srcBufEncoded.length - 2)) [] false false =
              some (DZCOBS_RET_SUCCESS, final) ∧
          res.outDecodedLen = some final.length ∧ res.dstBufDecoded = final)) := by
  by_cases hargs : ctx.dstBufDecodedSize = 0 ∨ ctx.srcBufEncoded.length < 3
  · rw [decode_bad_arg ctx hargs] at h
    simp only [Option.some.injEq] at h
    subst h
    cases hs
  · by_cases hz : ctx.srcBufEncoded.getD (ctx.srcBufEncoded.length - 1) 0 = 0 ∨
        ctx.srcBufEncoded.getD (ctx.srcBufEncoded.length - 2) 0 = 0
    · rw [decode_zero_trailer ctx hargs hz] at h
      simp only [Option.some.injEq] at h
      subst h
      cases hs
    · refine ⟨by omega, by omega, fun e => hz (Or.inl e), fun e => hz (Or.inr e), ?_⟩
      unfold dzcobs_decode at h
      simp only [hargs, hz, if_false] at h
      split at h
      · simp only [Option.some.injEq] at h
        subst h
        cases hs
      · split at h
        · next henc =>
          obtain ⟨a, ha, hrep⟩ := Option.map_eq_some'.mp h
          obtain ⟨r1, r2, r3⟩ := decodeReport_success _ a res hrep hs
          refine Or.inl ⟨henc, a.2, ?_, r2, r3⟩
          unfold dzcobs_decode_plain at ha
          rw [ha, ← r1]
        · simp only [Option.some.injEq] at h
          subst h
          cases hs
        · next hne1 hne2 =>
          split at h
          · simp only [Option.some.injEq] at h
            subst h
            cases hs
          · next d hd =>
            obtain ⟨a, ha, hrep⟩ := Option.map_eq_some'.mp h
            obtain ⟨r1, r2, r3⟩ := decodeReport_success _ a res hrep hs
            refine Or.inr ⟨hne1, d, a.2, ?_, r2, r3⟩
            unfold dzcobs_decode_dictionary at ha
            rw [ha, ← r1]

theorem plain_loop_success (dsz : Nat) : ∀ (fuel : Nat) (rd out final : List Nat),
    dzcobs_decode_plain_loop dsz fuel rd out = some (DZCOBS_RET_SUCCESS, final) →
    (∀ b ∈ rd, b ≠ 0) ∧ out.length ≤ final.length ∧
      (rd ≠ [] → final.length + 1 ≤ out.length + rd.length) ∧
      ∀ dsz2, final.length ≤ dsz2 → dsz2 < SIZE_T_MOD →
        dzcobs_decode_plain_loop dsz2 fuel rd out = some (DZCOBS_RET_SUCCESS, final) := by
  intro fuel
  induction fuel with
  | zero =>
    intro rd out final h
    cases rd with
    | nil =>
      simp only [dzcobs_decode_plain_loop, Option.some.injEq, Prod.mk.injEq, true_and] at h
      subst h
      exact ⟨by simp, Nat.le_refl _, fun hne => absurd rfl hne,
        fun _ _ _ => by simp [dzcobs_decode_plain_loop]⟩
    | cons b rest => simp [dzcobs_decode_plain_loop] at h
  | succ fuel ih =>
    intro rd out final h
    cases rd with
    | nil =>
      simp only [dzcobs_decode_plain_loop, Option.some.injEq, Prod.mk.injEq, true_and] at h
      subst h
      exact ⟨by simp, Nat.le_refl _, fun hne => absurd rfl hne,
        fun _ _ _ => by simp [dzcobs_decode_plain_loop]⟩
    | cons code0 rest =>
      rw [dzcobs_decode_plain_loop] at h
      by_cases h0 : code0 = 0
      · rw [if_pos h0] at h
        cases h
      · rw [if_neg h0] at h
        simp only at h
        by_cases hw : code0 - 1 > remainOutput dsz out.length
        · rw [if_pos hw] at h
          cases h
        · rw [if_neg hw] at h
          by_cases hr : code0 - 1 > rest.length
          · rw [if_pos hr] at h
            cases h
          · rw [if_neg hr] at h
            rcases decodeLiterals_cases (code0 - 1) rest out (by omega) with ⟨h1, h2⟩ | ⟨_, h2⟩
            · rw [h2] at h
              simp only at h
              have hsplit : rest = rest.take (code0 - 1) ++ rest.drop (code0 - 1) :=
                (List.take_append_drop _ _).symm
              have hlen : rest.length =
                  (rest.take (code0 - 1)).length + (rest.drop (code0 - 1)).length := by
                rw [← List.length_append, List.take_append_drop]
              have htk : (rest.take (code0 - 1)).length = code0 - 1 := by
                rw [List.length_take]
                omega
              have hnz : (∀ b ∈ rest.drop (code0 - 1), b ≠ 0) → ∀ b ∈ code0 :: rest, b ≠ 0 := by
                intro hd b hb
                rcases List.mem_cons.mp hb with e | e
                · rw [e]; exact h0
                · rw [hsplit] at e
                  rcases List.mem_append.mp e with e | e
                  · exact h1 b e
                  · exact hd b e
              have hstep : ∀ dsz2, out.length + (code0 - 1) ≤ dsz2 → dsz2 < SIZE_T_MOD →
                  dzcobs_decode_plain_loop dsz2 (fuel + 1) (code0 :: rest) out =
                    (if (rest.drop (code0 - 1)).length = 0 then
                      some (DZCOBS_RET_SUCCESS, out ++ rest.take (code0 - 1))
                    else if code0 - 1 ≠ DZCOBS_CODE_JUMP_PLAIN - 1 then
                      dzcobs_decode_plain_loop dsz2 fuel (rest.drop (code0 - 1))
                        (out ++ rest.take (code0 - 1) ++ [0])
                    else
                      dzcobs_decode_plain_loop dsz2 fuel (rest.drop (code0 - 1))
                        (out ++ rest.take (code0 - 1))) := by
                intro dsz2 hcap hlt
                rw [dzcobs_decode_plain_loop, if_neg h0]
                simp only
                rw [remainOutput_of_le dsz2 out.length (by omega) hlt, if_neg (by omega),
                  if_neg hr, h2]
              by_cases he : (rest.drop (code0 - 1)).length = 0
              · rw [if_pos he] at h
                simp only [Option.some.injEq, Prod.mk.injEq, true_and] at h
                subst h
                have hd : rest.drop (code0 - 1) = [] := List.length_eq_zero.mp he
                refine ⟨hnz (by rw [hd]; simp), by simp, fun _ => ?_, fun dsz2 hcap hlt => ?_⟩
                · simp only [List.length_append, List.length_cons]
                  omega
                · rw [hstep dsz2 (by
                    simp only [List.length_append] at hcap
                    omega) hlt, if_pos he]
              · rw [if_neg he] at h
                split at h
                · obtain ⟨i1, i2, i3, i4⟩ := ih _ _ _ h
                  have hne : rest.drop (code0 - 1) ≠ [] := fun e => he (by rw [e]; rfl)
                  have i3 := i3 hne
                  simp only [List.length_append, List.length_cons, List.length_nil] at i2 i3
                  refine ⟨hnz i1, by omega, fun _ => ?_, fun dsz2 hcap hlt => ?_⟩
                  · simp only [List.length_cons]
                    omega
                  · rw [hstep dsz2 (by omega) hlt, if_neg he, if_pos (by assumption)]
                    exact i4 dsz2 hcap hlt
                · obtain ⟨i1, i2, i3, i4⟩ := ih _ _ _ h
                  have hne : rest.drop (code0 - 1) ≠ [] := fun e => he (by rw [e]; rfl)
                  have i3 := i3 hne
                  simp only [List.length_append] at i2 i3
                  refine ⟨hnz i1, by omega, fun _ => ?_, fun dsz2 hcap hlt => ?_⟩
                  · simp only [List.length_cons]
                    omega
                  · rw [hstep dsz2 (by omega) hlt, if_neg he, if_neg (by assumption)]
                    exact i4 dsz2 hcap hlt
            · generalize decodeLiterals (code0 - 1) rest out = res at h h2
              obtain ⟨ok, rd1, out1⟩ := res
              simp only at h2
              subst h2
              simp only at h
              cases h

theorem dict_loop_success_nz (dsz : Nat) (d : sDICT_ctx) :
    ∀ (fuel : Nat) (rd out : List Nat) (f1 f2 : Bool) (final : List Nat),
    dzcobs_decode_dictionary_loop dsz d fuel rd out f1 f2 = some (DZCOBS_RET_SUCCESS, final) →
    ∀ b ∈ rd, b ≠ 0 := by
  intro fuel
  induction fuel with
  | zero =>
    intro rd out f1 f2 final h
    cases rd with
    | nil => simp
    | cons b rest => simp [dzcobs_decode_dictionary_loop] at h
  | succ fuel ih =>
    intro rd out f1 f2 final h
    cases rd with
    | nil => simp
    | cons code0 rest =>
      rw [dzcobs_decode_dictionary_loop] at h
      by_cases h0 : code0 = 0
      · rw [if_pos h0] at h
        cases h
      · rw [if_neg h0] at h
        simp only at h
        have hcons : (∀ b ∈ rest, b ≠ 0) → ∀ b ∈ code0 :: rest, b ≠ 0 := by
          intro hr b hb
          rcases List.mem_cons.mp hb with e | e
          · rw [e]; exact h0
          · exact hr b e
        by_cases hw : remainOutput dsz out.length = 0 ∧ code0 ≠ 1 ∧ f1 = false
        · rw [if_pos hw] at h
          cases h
        · rw [if_neg hw] at h
          by_cases ht : code0 ≥ DZCOBS_DICTIONARY_BITMASK
          · rw [if_pos ht] at h
            split at h
            · cases h
            · split at h
              · cases h
              · split at h
                · next he =>
                  have : rest = [] := List.length_eq_zero.mp he
                  exact hcons (by rw [this]; simp)
                · exact hcons (ih _ _ _ _ _ h)
          · rw [if_neg ht] at h
            generalize (if f2 = true then out ++ [0] else out) = out0 at h
            generalize (if f2 = true then
              (remainOutput dsz out.length + SIZE_T_MOD - 1) % SIZE_T_MOD
              else remainOutput dsz out.length) = rem0 at h
            by_cases hwo : code0 - 1 > rem0
            · rw [if_pos hwo] at h
              cases h
            · rw [if_neg hwo] at h
              by_cases hr : code0 - 1 > rest.length
              · rw [if_pos hr] at h
                cases h
              · rw [if_neg hr] at h
                rcases decodeLiterals_cases (code0 - 1) rest out0 (by omega) with
                  ⟨h1, h2⟩ | ⟨_, h2⟩
                · rw [h2] at h
                  simp only at h
                  have hsplit : rest = rest.take (code0 - 1) ++ rest.drop (code0 - 1) :=
                    (List.take_append_drop _ _).symm
                  have hnz : (∀ b ∈ rest.drop (code0 - 1), b ≠ 0) → ∀ b ∈ rest, b ≠ 0 := by
                    intro hd b hb
                    rw [hsplit] at hb
                    rcases List.mem_append.mp hb with e | e
                    · exact h1 b e
                    · exact hd b e
                  split at h
                  · next he =>
                    have : rest.drop (code0 - 1) = [] := List.length_eq_zero.mp he
                    exact hcons (hnz (by rw [this]; simp))
                  · split at h
                    · exact hcons (hnz (ih _ _ _ _ _ h))
                    · split at h
                      · exact hcons (hnz (ih _ _ _ _ _ h))
                      · exact hcons (hnz (ih _ _ _ _ _ h))
                · generalize decodeLiterals (code0 - 1) rest out0 = res at h h2
                  obtain ⟨ok, rd1, out1⟩ := res
                  simp only at h2
                  subst h2
                  simp only at h
                  cases h

theorem trailer_split (src : List Nat) (h : 2 ≤ src.length) :
    src = src.take (src.length - 2) ++
      [src.getD (src.length - 2) 0, src.getD (src.length - 1) 0] := by
  have hd : (src.drop (src.length - 2)).length = 2 := by
    rw [List.length_drop]
    omega
  have hsplit := List.take_append_drop (src.length - 2) src
  have hbl : (src.take (src.length - 2)).length = src.length - 2 := by
    rw [List.length_take]
    omega
  generalize src.drop (src.length - 2) = tl at hd hsplit
  match tl, hd with
  | [a, b], _ =>
    obtain ⟨_, p2, p3, _⟩ := frame_parts (src.take (src.length - 2)) a b
    rw [hsplit, hbl] at p2 p3
    have e1 : src.length - 2 + 2 - 1 = src.length - 1 := by omega
    have e2 : src.length - 2 + 2 - 2 = src.length - 2 := by omega
    rw [e1] at p2
    rw [e2] at p3
    rw [p2, p3]
    exact hsplit.symm

/-- C31. A successfully decoded frame contains no zero byte: for every input, dictionary
table and output capacity, if `dzcobs_decode` returns SUCCESS, in PLAIN or in dictionary
mode, then none of the `srcBufEncodedLen` input bytes is `0x00`. -/
theorem decode_success_no_zero_byte (ctx : sDZCOBS_decodectx) (res : sDecodeResult)
    (h : dzcobs_decode ctx = some res) (hs : res.ret = DZCOBS_RET_SUCCESS) :
    ∀ b ∈ ctx.srcBufEncoded, b ≠ 0 := by
  obtain ⟨h1, _, h3, h4, h5⟩ := decode_success_inv ctx res h hs
  have hbody : ∀ b ∈ ctx.srcBufEncoded.take (ctx.srcBufEncoded.length - 2), b ≠ 0 := by
    rcases h5 with ⟨_, final, hl, _⟩ | ⟨_, d, final, hl, _⟩
    · exact (plain_loop_success _ _ _ _ _ hl).1
    · exact dict_loop_success_nz _ d _ _ _ _ _ _ hl
  intro b hb
  rw [trailer_split ctx.srcBufEncoded (by omega)] at hb
  rcases List.mem_append.mp hb with e | e
  · exact hbody b e
  · simp only [List.mem_cons, List.mem_singleton, List.not_mem_nil, or_false] at e
    rcases e with e | e
    · rw [e]; exact h4
    · rw [e]; exact h3

/-- C31, instance: the frame `02 12 80 01 81 FD 5C` of the dictionary tests. -/
theorem decode_success_no_zero_byte_witness :
    ∃ res, dzcobs_decode { srcBufEncoded := [0x02, 0x12, 0x80, 0x01, 0x81, 0xFD, 0x5C],
                           dstBufDecodedSize := 7, pDict := testDictCtx.pDict } = some res ∧
      res.ret = DZCOBS_RET_SUCCESS ∧
      ∀ b ∈ [0x02, 0x12, 0x80, 0x01, 0x81, 0xFD, 0x5C], b ≠ 0 :=
  ⟨_, rfl, rfl,
   decode_success_no_zero_byte
     { srcBufEncoded := [0x02, 0x12, 0x80, 0x01, 0x81, 0xFD, 0x5C],
       dstBufDecodedSize := 7, pDict := testDictCtx.pDict } _ rfl rfl⟩

theorem decode_plain_eq (ctx : sDZCOBS_decodectx)
    (hargs : ¬ (ctx.dstBufDecodedSize = 0 ∨ ctx.srcBufEncoded.length < 3))
    (hz : ¬ (ctx.srcBufEncoded.getD (ctx.srcBufEncoded.length - 1) 0 = 0 ∨
      ctx.srcBufEncoded.getD (ctx.srcBufEncoded.length - 2) 0 = 0))
    (hh : ctx.srcBufEncoded.getD (ctx.srcBufEncoded.length - 1) 0 =
      hashByte (hashSum (ctx.srcBufEncoded.take (ctx.srcBufEncoded.length - 1)) % 256))
    (hplain : ctx.srcBufEncoded.getD (ctx.srcBufEncoded.length - 2) 0 &&& 0x03 = 0) :
    dzcobs_decode ctx =
      (dzcobs_decode_plain_loop ctx.dstBufDecodedSize
        (ctx.srcBufEncoded.take (ctx.srcBufEncoded.length - 2)).length
        (ctx.srcBufEncoded.take (ctx.srcBufEncoded.length - 2)) []).map
        (decodeReport (ctx.srcBufEncoded.getD (ctx.srcBufEncoded.length - 2) 0)) := by
  have hc : ¬ ((checksumLoop (ctx.srcBufEncoded.take (ctx.srcBufEncoded.length - 1)) 0 ≠ 0 ∧
      checksumLoop (ctx.srcBufEncoded.take (ctx.srcBufEncoded.length - 1)) 0 ≠
        ctx.srcBufEncoded.getD (ctx.srcBufEncoded.length - 1) 0) ∨
      (checksumLoop (ctx.srcBufEncoded.take (ctx.srcBufEncoded.length - 1)) 0 = 0 ∧
        ctx.srcBufEncoded.getD (ctx.srcBufEncoded.length - 1) 0 ≠
          DZCOBS_HASH_VALUE_WHEN_CRC_IS_ZERO)) := by
    intro hx
    have := (crc_rule _ _).mp hx
    rw [checksumLoop_zero] at this
    exact this hh
  unfold dzcobs_decode
  simp only [hargs, hz, if_false]
  rw [if_neg hc, hplain]
  rfl

/-- C39. PLAIN decoding never expands: for every input of length `L` (a `size_t`) whose
tag byte selects PLAIN and for which `dzcobs_decode` returns SUCCESS, the decoded length is
at most `L - 3`, it is the number of bytes written, and `dzcobs_decode` with an output
buffer of `max( L - 3, 1 )` bytes returns the same result. -/
theorem plain_decode_never_expands (ctx : sDZCOBS_decodectx) (res : sDecodeResult)
    (h : dzcobs_decode ctx = some res) (hs : res.ret = DZCOBS_RET_SUCCESS)
    (hplain : ctx.srcBufEncoded.getD (ctx.srcBufEncoded.length - 2) 0 &&& 0x03 = 0)
    (hL : ctx.srcBufEncoded.length < SIZE_T_MOD) :
    ∃ n, res.outDecodedLen = some n ∧ n ≤ ctx.srcBufEncoded.length - 3 ∧
      res.dstBufDecoded.length = n ∧
      dzcobs_decode { srcBufEncoded := ctx.srcBufEncoded,
                      dstBufDecodedSize := max (ctx.srcBufEncoded.length - 3) 1,
                      pDict := ctx.pDict } = some res := by
  obtain ⟨h1, h2, h3, h4, h5⟩ := decode_success_inv ctx res h hs
  have hpl : eDZCOBS_encoding.ofBits
      (ctx.srcBufEncoded.getD (ctx.srcBufEncoded.length - 2) 0 &&& 0x03) = DZCOBS_PLAIN := by
    rw [hplain]
    rfl
  rcases h5 with ⟨_, final, hl, hlen, hout⟩ | ⟨hne, _⟩
  · obtain ⟨_, _, k3, k4⟩ := plain_loop_success _ _ _ _ _ hl
    have hbl : (ctx.srcBufEncoded.take (ctx.srcBufEncoded.length - 2)).length =
        ctx.srcBufEncoded.length - 2 := by
      rw [List.length_take]
      omega
    have hne : ctx.srcBufEncoded.take (ctx.srcBufEncoded.length - 2) ≠ [] := by
      intro e
      rw [e] at hbl
      simp only [List.length_nil] at hbl
      omega
    have hb := k3 hne
    rw [hbl] at hb
    simp only [List.length_nil, Nat.zero_add] at hb
    have hargs : ¬ (ctx.dstBufDecodedSize = 0 ∨ ctx.srcBufEncoded.length < 3) := by omega
    have hz : ¬ (ctx.srcBufEncoded.getD (ctx.srcBufEncoded.length - 1) 0 = 0 ∨
        ctx.srcBufEncoded.getD (ctx.srcBufEncoded.length - 2) 0 = 0) := by
      rintro (e | e)
      · exact h3 e
      · exact h4 e
    have hh : ctx.srcBufEncoded.getD (ctx.srcBufEncoded.length - 1) 0 =
        hashByte (hashSum (ctx.srcBufEncoded.take (ctx.srcBufEncoded.length - 1)) % 256) := by
      by_contra hx
      rw [decode_crc ctx hargs hz hx] at h
      simp only [Option.some.injEq] at h
      subst h
      cases hs
    have e1 := decode_plain_eq ctx hargs hz hh hplain
    rw [h, hl] at e1
    refine ⟨final.length, hlen, by omega, by rw [hout], ?_⟩
    have hsz : SIZE_T_MOD = 18446744073709551616 := rfl
    have e2 := decode_plain_eq
      { srcBufEncoded := ctx.srcBufEncoded,
        dstBufDecodedSize := max (ctx.srcBufEncoded.length - 3) 1, pDict := ctx.pDict }
      (by
        show ¬ (max (ctx.srcBufEncoded.length - 3) 1 = 0 ∨ ctx.srcBufEncoded.length < 3)
        omega) hz hh hplain
    rw [e2]
    show (dzcobs_decode_plain_loop (max (ctx.srcBufEncoded.length - 3) 1)
      (ctx.srcBufEncoded.take (ctx.srcBufEncoded.length - 2)).length
      (ctx.srcBufEncoded.take (ctx.srcBufEncoded.length - 2)) []).map
      (decodeReport (ctx.srcBufEncoded.getD (ctx.srcBufEncoded.length - 2) 0)) = some res
    rw [k4 (max (ctx.srcBufEncoded.length - 3) 1) (by omega) (by omega)]
    exact e1.symm
  · exact absurd hpl hne

/-- C39, instance: the frame `03 41 42 02 43 FC 74` (7 bytes), decoded with 9 bytes of
output capacity, gives 4 bytes, and 4 bytes of capacity give the same result. -/
theorem plain_decode_never_expands_witness :
    [0x03, 0x41, 0x42, 0x02, 0x43, 0xFC, 0x74].getD
      ([0x03, 0x41, 0x42, 0x02, 0x43, 0xFC, 0x74].length - 2) 0 &&& 0x03 = 0 ∧
    [0x03, 0x41, 0x42, 0x02, 0x43, 0xFC, 0x74].length < SIZE_T_MOD ∧
    ∃ res, dzcobs_decode { srcBufEncoded := [0x03, 0x41, 0x42, 0x02, 0x43, 0xFC, 0x74],
                           dstBufDecodedSize := 9, pDict := fun _ => none } = some res ∧
      res.ret = DZCOBS_RET_SUCCESS ∧
      ∃ n, res.outDecodedLen = some n ∧
        n ≤ [0x03, 0x41, 0x42, 0x02, 0x43, 0xFC, 0x74].length - 3 ∧
        res.dstBufDecoded.length = n ∧
        dzcobs_decode
          { srcBufEncoded := [0x03, 0x41, 0x42, 0x02, 0x43, 0xFC, 0x74],
            dstBufDecodedSize := max ([0x03, 0x41, 0x42, 0x02, 0x43, 0xFC, 0x74].length - 3) 1,
            pDict := fun _ => none } = some res :=
  ⟨by decide, by decide, _, rfl, rfl,
   plain_decode_never_expands
     { srcBufEncoded := [0x03, 0x41, 0x42, 0x02, 0x43, 0xFC, 0x74],
       dstBufDecodedSize := 9, pDict := fun _ => none } _ rfl rfl (by decide) (by decide)⟩

theorem plainBody_eq_runBody (src : List Nat) : ∀ lits : List Nat, (∀ b ∈ src, b ≠ 0) →
    plainBody lits src = runBody 255 lits src := by
  induction src with
  | nil => intro lits _; rfl
  | cons b rest ih =>
    intro lits h
    have hb : b ≠ 0 := h b (by simp)
    have hrest : ∀ x ∈ rest, x ≠ 0 := fun x hx => h x (by simp [hx])
    unfold plainBody runBody
    rw [if_neg hb]
    split
    · rw [ih [] hrest]
    · rw [ih _ hrest]

theorem runBody_cons (J : Nat) (lits : List Nat) (b : Nat) (rest : List Nat) :
    runBody J lits (b :: rest) =
      if lits.length + 2 = J ∧ rest ≠ [] then (J :: (lits ++ [b])) ++ runBody J [] rest
      else runBody J (lits ++ [b]) rest := by
  rw [runBody]

theorem runBody_short (J : Nat) (src : List Nat) : ∀ lits : List Nat,
    lits.length + src.length + 1 ≤ J →
    runBody J lits src = (lits.length + src.length + 1) :: (lits ++ src) := by
  induction src with
  | nil => intro lits _; simp [runBody]
  | cons b rest ih =>
    intro lits h
    simp only [List.length_cons] at h
    have hc : ¬ (lits.length + 2 = J ∧ rest ≠ []) := by
      rintro ⟨e, hne⟩
      have : rest.length = 0 := by omega
      exact hne (List.length_eq_zero.mp this)
    have hl : (lits ++ [b]).length = lits.length + 1 := by simp
    rw [runBody_cons, if_neg hc, ih (lits ++ [b]) (by rw [hl]; omega)]
    simp only [List.length_append, List.length_cons, List.length_nil, List.append_assoc,
      List.singleton_append]
    congr 1
    omega

theorem runBody_jump (J : Nat) (A : List Nat) : ∀ (lits rest : List Nat), A ≠ [] →
    lits.length + A.length + 1 = J → rest ≠ [] →
    runBody J lits (A ++ rest) = (J :: (lits ++ A)) ++ runBody J [] rest := by
  induction A with
  | nil => intro lits rest h; exact absurd rfl h
  | cons a A ih =>
    intro lits rest _ hlen hrest
    simp only [List.length_cons] at hlen
    cases A with
    | nil =>
      simp only [List.length_nil] at hlen
      show runBody J lits (a :: rest) = _
      rw [runBody_cons, if_pos ⟨by omega, hrest⟩]
    | cons a2 A2 =>
      simp only [List.length_cons] at hlen
      show runBody J lits (a :: ((a2 :: A2) ++ rest)) = _
      have hl : (lits ++ [a]).length = lits.length + 1 := by simp
      rw [runBody_cons, if_neg (by
        rintro ⟨e, _⟩
        omega)]
      rw [ih (lits ++ [a]) rest (by simp) (by
        rw [hl]
        simp only [List.length_cons]
        omega) hrest]
      simp

theorem runBody_length_255 (src : List Nat) : ∀ lits : List Nat,
    (lits.length ≤ 253 ∨ (src = [] ∧ lits.length ≤ 254)) →
    (runBody 255 lits src).length =
      1 + lits.length + src.length + (lits.length + src.length - 1) / 254 := by
  induction src with
  | nil =>
    intro lits h
    simp only [runBody, List.length_cons, List.length_nil]
    omega
  | cons b rest ih =>
    intro lits h
    have hl : lits.length ≤ 253 := by
      rcases h with h | ⟨h, _⟩
      · exact h
      · cases h
    rw [runBody_cons]
    split
    · next hc =>
      have hr : 1 ≤ rest.length := by
        rcases rest with _ | ⟨x, r⟩
        · exact absurd rfl hc.2
        · simp
      have := ih [] (Or.inl (by simp))
      simp only [List.length_append, List.length_cons, List.length_nil] at this ⊢
      omega
    · next hc =>
      have := ih (lits ++ [b]) (by
        simp only [List.length_append, List.length_cons, List.length_nil]
        by_cases hr : rest = []
        · exact Or.inr ⟨hr, by omega⟩
        · exact Or.inl (by
            have : ¬ lits.length + 2 = 255 := fun e => hc ⟨e, hr⟩
            omega))
      simp only [List.length_append, List.length_cons, List.length_nil] at this ⊢
      omega

theorem runBody_length_127 (src : List Nat) : ∀ lits : List Nat,
    (lits.length ≤ 125 ∨ (src = [] ∧ lits.length ≤ 126)) →
    (runBody 127 lits src).length =
      1 + lits.length + src.length + (lits.length + src.length - 1) / 126 := by
  induction src with
  | nil =>
    intro lits h
    simp only [runBody, List.length_cons, List.length_nil]
    omega
  | cons b rest ih =>
    intro lits h
    have hl : lits.length ≤ 125 := by
      rcases h with h | ⟨h, _⟩
      · exact h
      · cases h
    rw [runBody_cons]
    split
    · next hc =>
      have hr : 1 ≤ rest.length := by
        rcases rest with _ | ⟨x, r⟩
        · exact absurd rfl hc.2
        · simp
      have := ih [] (Or.inl (by simp))
      simp only [List.length_append, List.length_cons, List.length_nil] at this ⊢
      omega
    · next hc =>
      have := ih (lits ++ [b]) (by
        simp only [List.length_append, List.length_cons, List.length_nil]
        by_cases hr : rest = []
        · exact Or.inr ⟨hr, by omega⟩
        · exact Or.inl (by
            have : ¬ lits.length + 2 = 127 := fun e => hc ⟨e, hr⟩
            omega))
      simp only [List.length_append, List.length_cons, List.length_nil] at this ⊢
      omega

theorem plain_frame_shape (ctx0 : sDZCOBS_ctx) (P : List Nat) (user6 : Nat)
    (hu1 : 1 ≤ user6) (hu2 : user6 ≤ 63) (aDstBuf : Nat → Nat) (aDstBufSize : Nat)
    (hsize : (plainBody [] P).length + 1 ≤ aDstBufSize) :
    ∃ r, encodeFrame ctx0 DZCOBS_PLAIN aDstBuf aDstBufSize user6 [P] = some r ∧
      r.ret = DZCOBS_RET_SUCCESS ∧
      r.outSizeEncoded = some ((plainBody [] P).length + 2) ∧
      r.frame = plainBody [] P ++ [tagByte user6 DZCOBS_PLAIN,
        hashByte ((hashSum (plainBody [] P) +
          DZCOBS_HASH8 (tagByte user6 DZCOBS_PLAIN)) % 256)] := by
  have hne : 1 ≤ (plainBody [] P).length := by
    have := plainBody_ne_nil [] P
    rcases hpb : plainBody [] P with _ | ⟨x, l⟩
    · exact absurd hpb this
    · simp
  have h2 : 2 ≤ aDstBufSize := by omega
  refine ⟨_, encodeFrame_plain_single ctx0 aDstBuf aDstBufSize user6 P h2, ?_⟩
  have hinv0 := begunCtx_inv ctx0 DZCOBS_PLAIN aDstBuf aDstBufSize user6 h2 (by simp)
  obtain ⟨d1, l1, hinv, hbody, _⟩ :=
    plain_loop_inv P _ [] [] hinv0 (Or.inl (by simp)) (by simp)
  rw [List.nil_append] at hbody
  generalize hc0 : begunCtx ctx0 DZCOBS_PLAIN aDstBuf aDstBufSize user6 = c0 at hinv ⊢
  generalize hs1 : dzcobs_encode_inc_plain_loop P (sEncVars.ofCtx c0) = s1 at hinv ⊢
  have hflag : s1.isLastCodeDictionary = false := by
    rw [← hs1, plain_loop_flag, ← hc0, begunCtx_eq _ _ _ _ _ h2 (by simp)]
    rfl
  have hu : (s1.toCtx c0).user6bits = user6 := by
    rw [← hc0, begunCtx_eq _ _ _ _ _ h2 (by simp)]
    show user6 % 256 = user6
    omega
  have henc : (s1.toCtx c0).encoding = DZCOBS_PLAIN := by
    rw [← hc0, begunCtx_eq _ _ _ _ _ h2 (by simp)]
    rfl
  have hend : (s1.toCtx c0).pDstEnd = aDstBufSize := by
    rw [← hc0, begunCtx_eq _ _ _ _ _ h2 (by simp)]
    rfl
  have hcur : (s1.toCtx c0).pCurDst = (plainBody [] P).length := by
    show s1.pCurDst = _
    rw [← hbody, hinv.hcur, ← hinv.hdone, List.length_append, slice_length, List.length_cons]
    omega
  obtain ⟨hr1, hr2, hr3⟩ := end_not_dict (s1.toCtx c0) d1 l1 hinv hflag
    (by rw [hcur, hend]; omega) (by rw [hu]; omega)
  rw [hbody, hu, henc] at hr3
  rw [hbody] at hr2
  exact ⟨hr1, hr2, hr3⟩

/-- C33. PLAIN jump boundary: for every payload of `n` non-zero bytes, every `user6`
in 1..63 and a destination buffer that holds the frame, begin(PLAIN), one feed and end
succeed with the encoded length `n + 3 + floor( ( n - 1 ) / 254 )`; the body in front of
the two trailer bytes is, for `n = 254`, the code `0xFF` and the 254 bytes, and for
`n = 255` the code `0xFF`, the first 254 bytes, the code `0x02` and the last byte. -/
theorem plain_jump_boundary (ctx0 : sDZCOBS_ctx) (P : List Nat) (user6 : Nat)
    (hu1 : 1 ≤ user6) (hu2 : user6 ≤ 63) (aDstBuf : Nat → Nat) (aDstBufSize : Nat)
    (hnz : ∀ b ∈ P, b ≠ 0)
    (hcap : P.length + 3 + (P.length - 1) / 254 ≤ aDstBufSize) :
    ∃ r body, encodeFrame ctx0 DZCOBS_PLAIN aDstBuf aDstBufSize user6 [P] = some r ∧
      r.ret = DZCOBS_RET_SUCCESS ∧
      r.outSizeEncoded = some (P.length + 3 + (P.length - 1) / 254) ∧
      r.frame = body ++ [tagByte user6 DZCOBS_PLAIN,
        hashByte ((hashSum body + DZCOBS_HASH8 (tagByte user6 DZCOBS_PLAIN)) % 256)] ∧
      body.length = P.length + 1 + (P.length - 1) / 254 ∧
      (P.length = 254 → body = 0xFF :: P) ∧
      (P.length = 255 → body = 0xFF :: P.take 254 ++ 0x02 :: P.drop 254) := by
  have hrb := plainBody_eq_runBody P [] hnz
  have hlen := runBody_length_255 P [] (Or.inl (by simp))
  simp only [List.length_nil, Nat.add_zero, Nat.zero_add] at hlen
  obtain ⟨r, h1, h2, h3, h4⟩ := plain_frame_shape ctx0 P user6 hu1 hu2 aDstBuf aDstBufSize
    (by rw [hrb, hlen]; omega)
  rw [hrb] at h3 h4
  refine ⟨r, runBody 255 [] P, h1, h2, ?_, h4, by rw [hlen]; omega, ?_, ?_⟩
  · rw [h3, hlen]
    congr 1
    omega
  · intro h254
    rw [runBody_short 255 P [] (by simp only [List.length_nil]; omega)]
    simp only [List.length_nil, Nat.zero_add, List.nil_append, h254]
  · intro h255
    have hsplit : P = P.take 254 ++ P.drop 254 := (List.take_append_drop _ _).symm
    have htk : (P.take 254).length = 254 := by
      rw [List.length_take]
      omega
    have hdr : (P.drop 254).length = 1 := by
      rw [List.length_drop]
      omega
    have hne1 : P.take 254 ≠ [] := by
      intro e
      rw [e] at htk
      cases htk
    have hne2 : P.drop 254 ≠ [] := by
      intro e
      rw [e] at hdr
      cases hdr
    conv_lhs => rw [hsplit]
    rw [runBody_jump 255 (P.take 254) [] (P.drop 254) hne1
      (by simp only [List.length_nil]; omega) hne2,
      runBody_short 255 (P.drop 254) [] (by simp only [List.length_nil]; omega)]
    simp only [List.length_nil, Nat.zero_add, List.nil_append, hdr, List.cons_append]

/-- C33, instance: the payload `41 42` gives a 5-byte frame. -/
theorem plain_jump_boundary_witness :
    (1 ≤ 0x3F ∧ 0x3F ≤ 63) ∧ (∀ b ∈ [0x41, 0x42], b ≠ 0) ∧
    [0x41, 0x42].length + 3 + ([0x41, 0x42].length - 1) / 254 ≤ 16 ∧
    ∃ r body, encodeFrame zeroCtx DZCOBS_PLAIN guardMem 16 0x3F [[0x41, 0x42]] = some r ∧
      r.ret = DZCOBS_RET_SUCCESS ∧
      r.outSizeEncoded = some ([0x41, 0x42].length + 3 + ([0x41, 0x42].length - 1) / 254) ∧
      r.frame = body ++ [tagByte 0x3F DZCOBS_PLAIN,
        hashByte ((hashSum body + DZCOBS_HASH8 (tagByte 0x3F DZCOBS_PLAIN)) % 256)] ∧
      body.length = [0x41, 0x42].length + 1 + ([0x41, 0x42].length - 1) / 254 ∧
      ([0x41, 0x42].length = 254 → body = 0xFF :: [0x41, 0x42]) ∧
      ([0x41, 0x42].length = 255 →
        body = 0xFF :: [0x41, 0x42].take 254 ++ 0x02 :: [0x41, 0x42].drop 254) :=
  ⟨by decide, by decide, by decide,
   plain_jump_boundary zeroCtx [0x41, 0x42] 0x3F (by decide) (by decide) guardMem 16
     (by decide) (by decide)⟩

theorem dict_run_loop_inv (d : sDICT_ctx) :
    ∀ (fuel : Nat) (src : List Nat) (s : sEncVars) (done lits : List Nat),
    EncInv s done lits → s.isLastCodeDictionary = false → (∀ b ∈ src, b ≠ 0) →
    (∀ k, k < src.length → (d.search (src.drop k)).1 % 256 = 0) → src.length ≤ fuel →
    (lits.length ≤ 125 ∨ src = []) → lits.length ≤ 126 →
    ∃ s1 done1 lits1, dzcobs_encode_inc_dictionary_loop d fuel src s = some s1 ∧
      EncInv s1 done1 lits1 ∧ s1.isLastCodeDictionary = false ∧
      done1 ++ (lits1.length + 1) :: lits1 = done ++ runBody 127 lits src ∧
      lits1.length ≤ 126 := by
  intro fuel
  induction fuel with
  | zero =>
    intro src s done lits h hf _ _ hlen _ hk
    have : src = [] := List.length_eq_zero.mp (by omega)
    subst this
    exact ⟨s, done, lits, by simp [dzcobs_encode_inc_dictionary_loop], h, hf,
      by simp [runBody], hk⟩
  | succ fuel ih =>
    intro src s done lits h hf hnz hno hlen hk hk2
    cases src with
    | nil =>
      exact ⟨s, done, lits, by simp [dzcobs_encode_inc_dictionary_loop], h, hf,
        by simp [runBody], hk2⟩
    | cons b rest =>
      have hk1 : lits.length ≤ 125 := by
        rcases hk with hk | hk
        · exact hk
        · cases hk
      have hb : b ≠ 0 := hnz b (by simp)
      have hrest : ∀ x ∈ rest, x ≠ 0 := fun x hx => hnz x (by simp [hx])
      have hs0 : (d.search (b :: rest)).1 % 256 = 0 := hno 0 (by simp)
      have hno2 : ∀ k, k < rest.length → (d.search (rest.drop k)).1 % 256 = 0 := by
        intro k hk
        have := hno (k + 1) (by simp only [List.length_cons]; omega)
        simpa using this
      simp only [List.length_cons] at hlen
      have h0 : EncInv { s with isLastCodeDictionary := false } done lits :=
        ⟨h.1, h.2, h.3, h.4, h.5⟩
      have h1 := encInv_lit h0 (by omega) b
      have hc : (putLiteral { s with isLastCodeDictionary := false } b).code =
          lits.length + 2 := by
        rw [h1.hcode]; simp
      rw [dzcobs_encode_inc_dictionary_loop]
      simp only
      rw [if_neg (fun hx => hx hs0), if_neg hb, runBody_cons]
      by_cases hj : lits.length + 2 = 127 ∧ rest ≠ []
      · have hj2 : (putLiteral { s with isLastCodeDictionary := false } b).code =
            DZCOBS_CODE_JUMP_DICTIONARY ∧ rest.length ≠ 0 := by
          refine ⟨by rw [hc, hj.1]; rfl, ?_⟩
          intro hz
          exact hj.2 (List.length_eq_zero.mp hz)
        rw [if_pos hj2, if_pos hj]
        obtain ⟨s1, d1, l1, e1, hi, hfl, he, hl⟩ := ih rest _ _ _ (encInv_close h1) rfl hrest
          hno2 (by omega) (Or.inl (by simp)) (by simp)
        refine ⟨s1, d1, l1, e1, hi, hfl, ?_, hl⟩
        rw [he]
        simp
        omega
      · have hj2 : ¬ ((putLiteral { s with isLastCodeDictionary := false } b).code =
            DZCOBS_CODE_JUMP_DICTIONARY ∧ rest.length ≠ 0) := by
          intro hh
          apply hj
          refine ⟨by rw [← hc, hh.1]; rfl, ?_⟩
          intro hz
          exact hh.2 (by simp [hz])
        rw [if_neg hj2, if_neg hj]
        have hkk : (lits ++ [b]).length ≤ 125 ∨ rest = [] := by
          by_cases hr : rest = []
          · exact Or.inr hr
          · left
            simp only [List.length_append, List.length_singleton]
            have : ¬ (lits.length + 2 = 127) := fun h2 => hj ⟨h2, hr⟩
            omega
        exact ih rest _ _ _ h1 rfl hrest hno2 (by omega) hkk (by simp; omega)

/-- C34. Dictionary-mode jump boundary: for every payload of `n >= 1` non-zero bytes in
which no position starts a word the dictionary search finds, every `user6` in 1..63 and a
destination buffer that holds the frame, begin(DICT_1 or DICT_2), one feed and end succeed
with the encoded length `n + 3 + floor( ( n - 1 ) / 126 )`; the body in front of the two
trailer bytes is, for `n = 126`, the code `0x7F` and the 126 bytes, and for `n = 127` the
code `0x7F`, the first 126 bytes, the code `0x02` and the last byte. -/
theorem dict_jump_boundary (ctx0 : sDZCOBS_ctx) (aEncoding : eDZCOBS_encoding)
    (d : sDICT_ctx) (P : List Nat) (user6 : Nat) (aDstBuf : Nat → Nat) (aDstBufSize : Nat)
    (henc : aEncoding = DZCOBS_USING_DICT_1 ∨ aEncoding = DZCOBS_USING_DICT_2)
    (hd : ctx0.pDict (aEncoding.toNat - DZCOBS_USING_DICT_1.toNat) = some d)
    (hu1 : 1 ≤ user6) (hu2 : user6 ≤ 63) (hn : 1 ≤ P.length) (hnz : ∀ b ∈ P, b ≠ 0)
    (hno : ∀ k, k < P.length → (d.search (P.drop k)).1 % 256 = 0)
    (hcap : P.length + 3 + (P.length - 1) / 126 ≤ aDstBufSize) :
    ∃ r body, encodeFrame ctx0 aEncoding aDstBuf aDstBufSize user6 [P] = some r ∧
      r.ret = DZCOBS_RET_SUCCESS ∧
      r.outSizeEncoded = some (P.length + 3 + (P.length - 1) / 126) ∧
      r.frame = body ++ [tagByte user6 aEncoding,
        hashByte ((hashSum body + DZCOBS_HASH8 (tagByte user6 aEncoding)) % 256)] ∧
      body.length = P.length + 1 + (P.length - 1) / 126 ∧
      (P.length = 126 → body = 0x7F :: P) ∧
      (P.length = 127 → body = 0x7F :: P.take 126 ++ 0x02 :: P.drop 126) := by
  have h2 : 2 ≤ aDstBufSize := by omega
  have hdict : ¬ ((aEncoding = DZCOBS_USING_DICT_1 ∧ (ctx0.pDict 0).isNone) ∨
      (aEncoding = DZCOBS_USING_DICT_2 ∧ (ctx0.pDict 1).isNone)) := by
    rintro (⟨e, hx⟩ | ⟨e, hx⟩)
    · subst e
      have : ctx0.pDict 0 = some d := hd
      rw [this] at hx
      cases hx
    · subst e
      have : ctx0.pDict 1 = some d := hd
      rw [this] at hx
      cases hx
  have hceq := begunCtx_eq ctx0 aEncoding aDstBuf aDstBufSize user6 h2 hdict
  have hinv0 := begunCtx_inv ctx0 aEncoding aDstBuf aDstBufSize user6 h2 hdict
  have hlen := runBody_length_127 P [] (Or.inl (by simp))
  simp only [List.length_nil, Nat.add_zero, Nat.zero_add] at hlen
  rw [encodeFrame_begun _ _ _ _ _ _ h2 hdict, feedAll_single]
  generalize begunCtx ctx0 aEncoding aDstBuf aDstBufSize user6 = c0 at hceq hinv0 ⊢
  have hfl0 : (sEncVars.ofCtx c0).isLastCodeDictionary = false := by
    rw [hceq]
    rfl
  obtain ⟨s1, d1, l1, e1, hinv, hfl, hbody, _⟩ := dict_run_loop_inv d P.length P
    (sEncVars.ofCtx c0) [] [] hinv0 hfl0 hnz hno (Nat.le_refl _) (Or.inl (by simp)) (by simp)
  rw [List.nil_append] at hbody
  have hfun : c0.encFunc = some dzcobs_encode_inc_funcPtr.dictionary := by
    rw [hceq]
    rcases henc with e | e <;> subst e <;> rfl
  have hpd : c0.pDict (c0.encoding.toNat - DZCOBS_USING_DICT_1.toNat) = some d := by
    rw [hceq]
    exact hd
  have hinc : dzcobs_encode_inc c0 P = some (DZCOBS_RET_SUCCESS, s1.toCtx c0) := by
    unfold dzcobs_encode_inc
    rw [hfun]
    simp only
    rw [if_neg (by omega)]
    unfold dzcobs_encode_inc_dictionary
    rw [hpd]
    simp only
    rw [e1]
  rw [hinc]
  simp only
  have hu : (s1.toCtx c0).user6bits = user6 := by
    rw [hceq]
    show user6 % 256 = user6
    omega
  have hen : (s1.toCtx c0).encoding = aEncoding := by
    rw [hceq]
    rfl
  have hend : (s1.toCtx c0).pDstEnd = aDstBufSize := by
    rw [hceq]
    rfl
  have hcur : (s1.toCtx c0).pCurDst = (runBody 127 [] P).length := by
    show s1.pCurDst = _
    rw [← hbody, hinv.hcur, ← hinv.hdone, List.length_append, slice_length, List.length_cons]
    omega
  obtain ⟨hr1, hr2, hr3⟩ := end_not_dict (s1.toCtx c0) d1 l1 hinv hfl
    (by rw [hcur, hend, hlen]; omega) (by rw [hu]; omega)
  rw [hbody, hu, hen] at hr3
  rw [hbody] at hr2
  refine ⟨_, runBody 127 [] P, rfl, hr1, ?_, hr3, by rw [hlen]; omega, ?_, ?_⟩
  · rw [hr2, hlen]
    congr 1
    omega
  · intro h126
    rw [runBody_short 127 P [] (by simp only [List.length_nil]; omega)]
    simp only [List.length_nil, Nat.zero_add, List.nil_append, h126]
  · intro h127
    have hsplit : P = P.take 126 ++ P.drop 126 := (List.take_append_drop _ _).symm
    have htk : (P.take 126).length = 126 := by
      rw [List.length_take]
      omega
    have hdr : (P.drop 126).length = 1 := by
      rw [List.length_drop]
      omega
    have hne1 : P.take 126 ≠ [] := by
      intro e
      rw [e] at htk
      cases htk
    have hne2 : P.drop 126 ≠ [] := by
      intro e
      rw [e] at hdr
      cases hdr
    conv_lhs => rw [hsplit]
    rw [runBody_jump 127 (P.take 126) [] (P.drop 126) hne1
      (by simp only [List.length_nil]; omega) hne2,
      runBody_short 127 (P.drop 126) [] (by simp only [List.length_nil]; omega)]
    simp only [List.length_nil, Nat.zero_add, List.nil_append, hdr, List.cons_append]

/-- C34, instance: the payload `41 42` with the test dictionary gives a 5-byte frame. -/
theorem dict_jump_boundary_witness :
    (DZCOBS_USING_DICT_1 = DZCOBS_USING_DICT_1 ∨ DZCOBS_USING_DICT_1 = DZCOBS_USING_DICT_2) ∧
    testDictCtx.pDict (DZCOBS_USING_DICT_1.toNat - DZCOBS_USING_DICT_1.toNat) =
      some s_TEST_Dictionary1 ∧
    (1 ≤ 0x3F ∧ 0x3F ≤ 63) ∧ 1 ≤ [0x41, 0x42].length ∧ (∀ b ∈ [0x41, 0x42], b ≠ 0) ∧
    (∀ k, k < [0x41, 0x42].length →
      (s_TEST_Dictionary1.search ([0x41, 0x42].drop k)).1 % 256 = 0) ∧
    [0x41, 0x42].length + 3 + ([0x41, 0x42].length - 1) / 126 ≤ 16 ∧
    ∃ r body, encodeFrame testDictCtx DZCOBS_USING_DICT_1 guardMem 16 0x3F [[0x41, 0x42]] =
        some r ∧
      r.ret = DZCOBS_RET_SUCCESS ∧
      r.outSizeEncoded = some ([0x41, 0x42].length + 3 + ([0x41, 0x42].length - 1) / 126) ∧
      r.frame = body ++ [tagByte 0x3F DZCOBS_USING_DICT_1,
        hashByte ((hashSum body + DZCOBS_HASH8 (tagByte 0x3F DZCOBS_USING_DICT_1)) % 256)] ∧
      body.length = [0x41, 0x42].length + 1 + ([0x41, 0x42].length - 1) / 126 ∧
      ([0x41, 0x42].length = 126 → body = 0x7F :: [0x41, 0x42]) ∧
      ([0x41, 0x42].length = 127 →
        body = 0x7F :: [0x41, 0x42].take 126 ++ 0x02 :: [0x41, 0x42].drop 126) :=
  ⟨Or.inl rfl, rfl, by decide, by decide, by decide, by decide, by decide,
   dict_jump_boundary testDictCtx DZCOBS_USING_DICT_1 s_TEST_Dictionary1 [0x41, 0x42] 0x3F
     guardMem 16 (Or.inl rfl) rfl (by decide) (by decide) (by decide) (by decide) (by decide)
     (by decide)⟩

theorem ceil_div_127 (n : Nat) : Nat.ceil ((n : ℚ) / 127) = (n + 126) / 127 := by
  apply le_antisymm
  · rw [Nat.ceil_le, div_le_iff₀ (by norm_num)]
    have h : n ≤ (n + 126) / 127 * 127 := by omega
    exact_mod_cast h
  · have h1 : (n : ℚ) / 127 ≤ (Nat.ceil ((n : ℚ) / 127) : ℚ) := Nat.le_ceil _
    rw [div_le_iff₀ (by norm_num)] at h1
    have h2 : n ≤ Nat.ceil ((n : ℚ) / 127) * 127 := by exact_mod_cast h1
    omega

theorem max_encoded_size_t_eq (n : Nat)
    (hfit : n + (n + 126) / 127 + (if n = 0 then 1 else 0) < SIZE_T_MOD) :
    DZCOBS_MAX_ENCODED_SIZE_size_t n = n + (n + 126) / 127 + (if n = 0 then 1 else 0) := by
  by_cases h0 : n = 0
  · subst h0
    unfold DZCOBS_MAX_ENCODED_SIZE_size_t DZCOBS_MAX_OVERHEAD_size_t
      Z_DZCOBS_DIV_ROUND_UP_size_t DZCOBS_ONE_BYTE_OVERHEAD_EVERY SIZE_T_MOD
    norm_num
  · rw [if_neg h0] at hfit ⊢
    unfold DZCOBS_MAX_ENCODED_SIZE_size_t DZCOBS_MAX_OVERHEAD_size_t
      Z_DZCOBS_DIV_ROUND_UP_size_t DZCOBS_ONE_BYTE_OVERHEAD_EVERY
    unfold SIZE_T_MOD at *
    have e1 : n % 18446744073709551616 = n := Nat.mod_eq_of_lt (by omega)
    have e4 : (127 : Nat) % 18446744073709551616 = 127 := by norm_num
    rw [e1, e4, if_neg h0]
    have e3 : ((n + 127) % 18446744073709551616 + 18446744073709551616 - 1) %
        18446744073709551616 = n + 126 := by
      omega
    rw [e3]
    omega

/-- C26, failing input: `n = SIZE_MAX = 18446744073709551615`. On a `size_t` operand
`n + 127 - 1` wraps to 125, the overhead is `125 / 127 = 0` and the macro gives
`SIZE_MAX`, while `n + ceil( n / 127 )` is 18591994027045847298. -/
theorem max_encoded_size_wraps_at_size_max :
    DZCOBS_MAX_ENCODED_SIZE_size_t 18446744073709551615 = 18446744073709551615 ∧
    18446744073709551615 + Nat.ceil (((18446744073709551615 : Nat) : ℚ) / 127) +
      (if 18446744073709551615 = 0 then 1 else 0) = 18591994027045847298 ∧
    DZCOBS_MAX_ENCODED_SIZE_size_t 18446744073709551615 ≠
      18446744073709551615 + Nat.ceil (((18446744073709551615 : Nat) : ℚ) / 127) +
        (if 18446744073709551615 = 0 then 1 else 0) := by
  have hc := ceil_div_127 18446744073709551615
  have hv : DZCOBS_MAX_ENCODED_SIZE_size_t 18446744073709551615 = 18446744073709551615 := by
    unfold DZCOBS_MAX_ENCODED_SIZE_size_t DZCOBS_MAX_OVERHEAD_size_t
      Z_DZCOBS_DIV_ROUND_UP_size_t DZCOBS_ONE_BYTE_OVERHEAD_EVERY SIZE_T_MOD
    norm_num
  refine ⟨hv, ?_, ?_⟩
  · rw [hc]
    norm_num
  · rw [hv, hc]
    norm_num

/-- C26, amended. Maximum-size formula: for every `n` for which
`n + ceil( n / 127 ) + ( 1 if n = 0 else 0 )` fits a `size_t`, the macro
`DZCOBS_MAX_ENCODED_SIZE( n )` on a `size_t` operand has that value, the ceiling taken of
the rational quotient, and it is the value computed without wrap-around; with the two
trailer bytes added the values at 0, 1, 127, 128 and 254 are 3, 4, 130, 132 and 258. -/
theorem max_encoded_size_formula (n : Nat)
    (hfit : n + Nat.ceil ((n : ℚ) / 127) + (if n = 0 then 1 else 0) < SIZE_T_MOD) :
    DZCOBS_MAX_ENCODED_SIZE_size_t n =
      n + Nat.ceil ((n : ℚ) / 127) + (if n = 0 then 1 else 0) ∧
    DZCOBS_MAX_ENCODED_SIZE_size_t n = DZCOBS_MAX_ENCODED_SIZE n ∧
    DZCOBS_MAX_ENCODED_SIZE_size_t 0 + DZCOBS_FRAME_HEADER_SIZE = 3 ∧
    DZCOBS_MAX_ENCODED_SIZE_size_t 1 + DZCOBS_FRAME_HEADER_SIZE = 4 ∧
    DZCOBS_MAX_ENCODED_SIZE_size_t 127 + DZCOBS_FRAME_HEADER_SIZE = 130 ∧
    DZCOBS_MAX_ENCODED_SIZE_size_t 128 + DZCOBS_FRAME_HEADER_SIZE = 132 ∧
    DZCOBS_MAX_ENCODED_SIZE_size_t 254 + DZCOBS_FRAME_HEADER_SIZE = 258 := by
  rw [ceil_div_127] at hfit ⊢
  have hs : ∀ m, m + (m + 126) / 127 + (if m = 0 then 1 else 0) < SIZE_T_MOD →
      DZCOBS_MAX_ENCODED_SIZE_size_t m + DZCOBS_FRAME_HEADER_SIZE =
        m + (m + 126) / 127 + (if m = 0 then 1 else 0) + 2 := by
    intro m hm
    rw [max_encoded_size_t_eq m hm]
    rfl
  refine ⟨max_encoded_size_t_eq n hfit, ?_, ?_, ?_, ?_, ?_, ?_⟩
  · rw [max_encoded_size_t_eq n hfit]
    unfold DZCOBS_MAX_ENCODED_SIZE DZCOBS_MAX_OVERHEAD Z_DZCOBS_DIV_ROUND_UP
      DZCOBS_ONE_BYTE_OVERHEAD_EVERY
    rfl
  · rw [hs 0 (by norm_num [SIZE_T_MOD])]
    norm_num
  · rw [hs 1 (by norm_num [SIZE_T_MOD])]
    norm_num
  · rw [hs 127 (by norm_num [SIZE_T_MOD])]
    norm_num
  · rw [hs 128 (by norm_num [SIZE_T_MOD])]
    norm_num
  · rw [hs 254 (by norm_num [SIZE_T_MOD])]
    norm_num

/-- C26, instance: `n = 128`, where the macro gives 130. -/
theorem max_encoded_size_formula_witness :
    128 + Nat.ceil (((128 : Nat) : ℚ) / 127) + (if 128 = 0 then 1 else 0) < SIZE_T_MOD ∧
    DZCOBS_MAX_ENCODED_SIZE_size_t 128 =
      128 + Nat.ceil (((128 : Nat) : ℚ) / 127) + (if 128 = 0 then 1 else 0) ∧
    DZCOBS_MAX_ENCODED_SIZE_size_t 128 = 130 :=
  ⟨by rw [ceil_div_127]; decide,
   (max_encoded_size_formula 128 (by rw [ceil_div_127]; decide)).1,
   by decide⟩

/-- C32, failing input: the PLAIN frame `02 41 03 42 FC 09` (matching hash) decoded into
a 1-byte output buffer. The first group stores `41` and then the implied zero at output
index 1 without a capacity check, so the write pointer is past the end and the
remaining output size, a `size_t`, wraps to `2^64 - 1`; at the second group (code `03`,
one body byte left) the write check `2 > remain_output_size` does not fire and the read
check returns `DZCOBS_RET_ERR_READ_OVERFLOW`. With a 2-byte buffer the same frame gives
`DZCOBS_RET_ERR_WRITE_OVERFLOW` at that group. -/
theorem plain_write_check_skipped_after_overrun :
    dzcobs_decode { srcBufEncoded := [0x02, 0x41, 0x03, 0x42, 0xFC, 0x09],
                    dstBufDecodedSize := 1, pDict := fun _ => none } =
      some { ret := DZCOBS_RET_ERR_READ_OVERFLOW, outDecodedLen := none, outUser6bit := none,
             dstBufDecoded := [0x41, 0x00] } ∧
    remainOutput 1 [0x41, 0x00].length = 18446744073709551615 ∧
    dzcobs_decode { srcBufEncoded := [0x02, 0x41, 0x03, 0x42, 0xFC, 0x09],
                    dstBufDecodedSize := 2, pDict := fun _ => none } =
      some { ret := DZCOBS_RET_ERR_WRITE_OVERFLOW, outDecodedLen := none, outUser6bit := none,
             dstBufDecoded := [0x41, 0x00] } := by
  decide

end DZCOBS
